import Mathlib

/-!
Verification development for the regex-rs repository: a regular-expression
compiler and matcher (lexer -> parser -> Thompson NFA -> subset-construction
DFA -> Hopcroft minimization -> simulator).

The definitions below are a shallow embedding of the Rust sources
(`parse.rs`, `nfa.rs`, `transition_table.rs`, `dfa.rs`, `lib.rs`):
  * Rust `HashMap` / `BTreeSet` values are modelled as association lists /
    sorted duplicate-free lists; all results observed by the claims are
    independent of the unspecified `HashMap` iteration order, and a fixed
    deterministic order is used where the code iterates a map.
  * The process-global monotonic state counter is threaded explicitly.
  * Code paths that `panic!` / `unwrap` on `None` are modelled with `Option`
    (`none` = panic), and potentially unbounded loops take explicit fuel
    (`none` = fuel exhausted; the Rust loop simply keeps running).
-/

set_option maxRecDepth 8000

namespace RegexRs

/-- NFA state (`State` in nfa.rs, `NfaState` in transition_table.rs): the two
per-NFA sentinels plus fresh ids minted by the global counter. -/
inductive NfaState where
  | start
  | accepting
  | s (n : Nat)
deriving DecidableEq, Repr

/-- Transition label (`Transition` in transition_table.rs / nfa.rs). -/
inductive Transition where
  | literal (c : Char)
  | wildcard
  | epsilon
deriving DecidableEq, Repr

/-- The `#[derive(Ord)]` order on `State`: `Start < Accepting < S(n)`, with
fresh ids ordered by their counter value. -/
def ltState : NfaState → NfaState → Bool
  | .start, .start => false
  | .start, _ => true
  | .accepting, .s _ => true
  | .accepting, _ => false
  | .s _, .start => false
  | .s _, .accepting => false
  | .s a, .s b => a < b

/-- `State::new` from nfa.rs: mint a fresh id from the monotonic counter
(`STATE_COUNTER.fetch_add(1)`), threaded explicitly. -/
def stateNew (cnt : Nat) : NfaState × Nat := (.s cnt, cnt + 1)

/-- First-match lookup in an association list (the observable behaviour of
`HashMap::get` on the maps we model, which hold at most one binding per key). -/
def alookup [DecidableEq κ] : List (κ × β) → κ → Option β
  | [], _ => none
  | (k, v) :: t, key => if k = key then some v else alookup t key

/-- `HashMap::insert`: replace the binding at `key` if present, else add one. -/
def ainsert [DecidableEq κ] (key : κ) (val : β) : List (κ × β) → List (κ × β)
  | [] => [(key, val)]
  | (k, v) :: t => if k = key then (key, val) :: t else (k, v) :: ainsert key val t

/-- `HashMap::remove`: drop every binding at `key` (our maps hold at most one). -/
def aremove [DecidableEq κ] (key : κ) (l : List (κ × β)) : List (κ × β) :=
  l.filter (fun kv => !(kv.1 = key : Bool))

/-- Sorted duplicate-free insertion, the model of `BTreeSet::insert` for the
strict order `lt`. -/
def sIns [DecidableEq α] (lt : α → α → Bool) (a : α) : List α → List α
  | [] => [a]
  | b :: t => if lt a b then a :: b :: t else if a = b then b :: t else b :: sIns lt a t

/-- One NFA transition row: label to multiset (list) of target states. -/
abbrev NfaRow := List (Transition × List NfaState)

/-- The NFA transition table: `HashMap<State, HashMap<Transition, Vec<State>>>`. -/
abbrev NfaTable := List (NfaState × NfaRow)

/-- `Nfa` from nfa.rs: a transition table plus the `empty` seed flag. -/
structure Nfa where
  transitions : NfaTable
  empty : Bool
deriving DecidableEq, Repr

/-- `Nfa::empty()`: the empty composition seed. -/
def emptyNfa : Nfa := { transitions := [], empty := true }

/-- Quantifier modifier (`TransitionModifier` in nfa.rs, extended with the
`OpenRange` form that parse.rs produces and feeds to the same code path). -/
inductive Modifier where
  | star
  | plus
  | question
  | range (lo hi : Nat)
  | openRange (lo : Nat)
deriving DecidableEq, Repr

/-- `Nfa::set_accepting_state`: rewrite every `Accepting` occurring in target
position to `new` (row keys are untouched, exactly as in the source). -/
def setAccepting (n : Nfa) (new : NfaState) : Nfa :=
  { n with transitions := n.transitions.map (fun row =>
      (row.1, row.2.map (fun tr =>
        (tr.1, tr.2.map (fun st => if st = NfaState.accepting then new else st))))) }

/-- Merge the row previously keyed at `old` into the row at `new`
(`swap_state`'s per-label `Vec` append). -/
def mergeRowInto (row oldRow : NfaRow) : NfaRow :=
  oldRow.foldl (fun r tr =>
    match alookup r tr.1 with
    | some vs => ainsert tr.1 (vs ++ tr.2) r
    | none => ainsert tr.1 tr.2 r) row

/-- `Nfa::swap_state`: re-key the row at `old_state` to `new_state` (merging
per label with any existing row there), then rewrite every target occurrence
of `old_state` to `new_state`. The source `unwrap`s the row at `old_state`;
a missing row is a panic, modelled as `none`. -/
def swapState (n : Nfa) (oldState newState : NfaState) : Option Nfa :=
  match alookup n.transitions oldState with
  | none => none
  | some oldRow =>
    let t1 := aremove oldState n.transitions
    let t2 := match alookup t1 newState with
      | some row => ainsert newState (mergeRowInto row oldRow) t1
      | none => ainsert newState oldRow t1
    some { n with transitions := t2.map (fun row =>
      (row.1, row.2.map (fun tr =>
        (tr.1, tr.2.map (fun st => if st = oldState then newState else st))))) }

/-- `Nfa::concat`: if `self` is the empty seed become `other`; otherwise mint a
fresh id `m`, rewrite `self`'s `Accepting` targets to `m`, re-key `other`'s
`Start` to `m`, and copy `other`'s rows over `self`'s (a plain `HashMap`
insert, so a row of `other` keyed like a row of `self` replaces it). -/
def concat (self other : Nfa) (cnt : Nat) : Option (Nfa × Nat) :=
  if self.empty then some (other, cnt)
  else
    let (m, c) := stateNew cnt
    let s1 := setAccepting self m
    match swapState other .start m with
    | none => none
    | some o2 =>
      some ({ transitions := o2.transitions.foldl (fun t row => ainsert row.1 row.2 t)
                s1.transitions,
              empty := s1.empty }, c)

/-- Merge `other`'s row into `self`'s row at the same key, per label
(`Nfa::union`'s inner loop: existing targets first, then `other`'s appended). -/
def unionRowInto (row otherRow : NfaRow) : NfaRow :=
  otherRow.foldl (fun r tr =>
    match alookup r tr.1 with
    | some vs => ainsert tr.1 (vs ++ tr.2) r
    | none => ainsert tr.1 tr.2 r) row

/-- `Nfa::union`: fold every transition of `other` into `self`, merging rows
that share a key per label. -/
def nfaUnion (self other : Nfa) : Nfa :=
  { self with transitions := other.transitions.foldl (fun t entry =>
      match alookup t entry.1 with
      | some row => ainsert entry.1 (unionRowInto row entry.2) t
      | none => ainsert entry.1 entry.2 t) self.transitions }

/-- The shared `add_modifier` step "ensure a row at `key`, ensure an `Epsilon`
slot, push `target`". -/
def pushEpsilon (t : NfaTable) (key target : NfaState) : NfaTable :=
  let row := (alookup t key).getD []
  let lst := (alookup row Transition.epsilon).getD []
  ainsert key (ainsert Transition.epsilon (lst ++ [target]) row) t

/-- The `Star` branch of `Nfa::add_modifier`: mint `final_state`, rewrite
`Accepting` targets to it, add `Start --eps--> Accepting` (skip) and
`final_state --eps--> Start` (repeat). Note the loop re-enters the *shared*
`Start` sentinel; the `Start` row key is not renamed. -/
def addStar (n : Nfa) (cnt : Nat) : Nfa × Nat :=
  let (f, c) := stateNew cnt
  let n1 := setAccepting n f
  let t1 := pushEpsilon n1.transitions .start .accepting
  let t2 := pushEpsilon t1 f .start
  ({ n1 with transitions := t2 }, c)

/-- The `Question` branch of `Nfa::add_modifier`: add
`Start --eps--> Accepting`. -/
def addQuestion (n : Nfa) : Nfa :=
  { n with transitions := pushEpsilon n.transitions .start .accepting }

/-- The `Range(lower, upper)` loop of `Nfa::add_modifier`: for `i` in
`1..upper`, clone the original `template`, wrap it with `Question` when
`i >= lower`, and concatenate. The clones share the template's fresh ids. -/
def rangeLoop (template : Nfa) (lower : Nat) (i upper : Nat) (acc : Nfa) (cnt : Nat) :
    Option (Nfa × Nat) :=
  if _h : i < upper then
    let copy := if lower ≤ i then addQuestion template else template
    match concat acc copy cnt with
    | none => none
    | some (acc', c') => rangeLoop template lower (i + 1) upper acc' c'
  else some (acc, cnt)
termination_by upper - i

/-- Modelled from the spec: nfa.rs predates the `OpenRange` parse element, so
its `add_modifier` has no arm for it; section 4.2 prescribes "concatenate `lo`
copies; the last copy is wrapped with `Star`". With `lo <= 1` the single copy
is starred; otherwise `lo - 2` plain clones and one starred clone are
concatenated after the original. -/
def openRangeLoop (template : Nfa) (i lo : Nat) (acc : Nfa) (cnt : Nat) :
    Option (Nfa × Nat) :=
  if _h : i < lo then
    match concat acc template cnt with
    | none => none
    | some (acc', c') => openRangeLoop template (i + 1) lo acc' c'
  else
    let (st, c) := addStar template cnt
    concat acc st c
termination_by lo - i

/-- Modelled from the spec (see `openRangeLoop`): the `OpenRange(lo)` modifier
applied to an existing NFA. -/
def addOpenRange (n : Nfa) (lo : Nat) (cnt : Nat) : Option (Nfa × Nat) :=
  if lo ≤ 1 then some (addStar n cnt)
  else openRangeLoop n 2 lo n cnt

/-- `Nfa::add_modifier`: apply a quantifier to an existing NFA in place. The
`Plus` branch clones `self`, stars the clone and concatenates
(`r+ = r r*`); the clone shares every fresh id of `self`. -/
def addModifier (n : Nfa) (modif : Option Modifier) (cnt : Nat) : Option (Nfa × Nat) :=
  match modif with
  | none => some (n, cnt)
  | some .star => some (addStar n cnt)
  | some .question => some (addQuestion n, cnt)
  | some .plus =>
    let (st, c) := addStar n cnt
    concat n st c
  | some (.range lower upper) => rangeLoop n lower 1 upper n cnt
  | some (.openRange lo) => addOpenRange n lo cnt

/-- The row-building part of `Nfa::new`: the `Star`/`Question` arms install
their epsilon rows, then the single `edge` transition is inserted into the
`Start` row (pointing at `final_state`, which `Star` sets to a fresh id). -/
def nfaNewCore (edge : Transition) (modif : Option Modifier) (cnt : Nat) : Nfa × Nat :=
  match modif with
  | some .star =>
    let (f, c) := stateNew cnt
    let t := ainsert NfaState.start [(Transition.epsilon, [NfaState.accepting])] []
    let t := ainsert f [(Transition.epsilon, [NfaState.start])] t
    let t := match alookup t NfaState.start with
      | some row => ainsert NfaState.start (ainsert edge [f] row) t
      | none => ainsert NfaState.start [(edge, [f])] t
    ({ transitions := t, empty := false }, c)
  | some .question =>
    let t := ainsert NfaState.start [(Transition.epsilon, [NfaState.accepting])] []
    let t := match alookup t NfaState.start with
      | some row => ainsert NfaState.start (ainsert edge [NfaState.accepting] row) t
      | none => ainsert NfaState.start [(edge, [NfaState.accepting])] t
    ({ transitions := t, empty := false }, cnt)
  | _ => ({ transitions := [(NfaState.start, [(edge, [NfaState.accepting])])],
            empty := false }, cnt)

/-- The `Range` postprocessing loop of `Nfa::new`: for `i` in `1..hi`,
concatenate a fresh atom, wrapped with `Question` once `i >= lo`. -/
def newRangeLoop (edge : Transition) (lo : Nat) (i hi : Nat) (acc : Nfa) (cnt : Nat) :
    Option (Nfa × Nat) :=
  if _h : i < hi then
    let m : Option Modifier := if i < lo then none else some .question
    let (fresh, c) := nfaNewCore edge m cnt
    match concat acc fresh c with
    | none => none
    | some (acc', c') => newRangeLoop edge lo (i + 1) hi acc' c'
  else some (acc, cnt)
termination_by hi - i

/-- Modelled from the spec (see `openRangeLoop`): `OpenRange(lo)` applied to a
single atom in `Nfa::new`. -/
def newOpenLoop (edge : Transition) (i lo : Nat) (acc : Nfa) (cnt : Nat) :
    Option (Nfa × Nat) :=
  if _h : i < lo then
    let (fresh, c) := nfaNewCore edge none cnt
    match concat acc fresh c with
    | none => none
    | some (acc', c') => newOpenLoop edge (i + 1) lo acc' c'
  else
    let (st, c) := nfaNewCore edge (some .star) cnt
    concat acc st c
termination_by lo - i

/-- `Nfa::new`: build an atomic NFA for `edge`, honouring a quantifier. The
`plus_modifier` flag becomes "build the plain atom, then concatenate the
starred atom" (`r+ = r r*`), and the `range` flag becomes `newRangeLoop`. -/
def nfaNew (edge : Transition) (modif : Option Modifier) (cnt : Nat) :
    Option (Nfa × Nat) :=
  match modif with
  | some .plus =>
    let (ret, c) := nfaNewCore edge none cnt
    let (st, c') := nfaNewCore edge (some .star) c
    concat ret st c'
  | some (.range lo hi) =>
    let (ret, c) := nfaNewCore edge none cnt
    newRangeLoop edge lo 1 hi ret c
  | some (.openRange lo) =>
    if lo ≤ 1 then
      let (ret, c) := nfaNewCore edge (some .star) cnt
      some (ret, c)
    else
      let (ret, c) := nfaNewCore edge none cnt
      newOpenLoop edge 2 lo ret c
  | m => some (nfaNewCore edge m cnt)

/-- Every target occurrence in the NFA's table (with multiplicity). -/
def allTargets (n : Nfa) : List NfaState :=
  n.transitions.flatMap (fun row => row.2.flatMap (fun tr => tr.2))

/-- Total number of target occurrences in the table, used to bound the
epsilon-closure worklist (each state is pushed at most once). -/
def countTargets (n : Nfa) : Nat :=
  (allTargets n).length

/-- The work-stack loop of `Nfa::epsilon_closure`: pop a state, push every
unseen epsilon target. `ret` is the accumulating `BTreeSet`. -/
def epsClosureGo (n : Nfa) : Nat → List NfaState → List NfaState → List NfaState
  | 0, ret, _ => ret
  | fuel + 1, ret, stack =>
    match stack with
    | [] => ret
    | t :: rest =>
      match alookup n.transitions t with
      | some row =>
        match alookup row Transition.epsilon with
        | some eps =>
          let rs := eps.foldl (fun (pr : List NfaState × List NfaState) e =>
            if e ∈ pr.1 then pr else (sIns ltState e pr.1, e :: pr.2)) (ret, rest)
          epsClosureGo n fuel rs.1 rs.2
        | none => epsClosureGo n fuel ret rest
      | none => epsClosureGo n fuel ret rest

/-- `Nfa::epsilon_closure`: the least epsilon-closed superset of `states`,
computed with an explicit work stack. The fuel bound covers every possible
push (each of the initial states and each target occurrence at most once). -/
def epsClosure (n : Nfa) (states : List NfaState) : List NfaState :=
  let ret := states.foldl (fun r st => sIns ltState st r) []
  epsClosureGo n (states.length + countTargets n + 1) ret states.reverse

/-- `DfaState` from dfa.rs: an ordered set of NFA states plus the `accepting`
flag. The set is modelled as a sorted duplicate-free list, so structural
equality coincides with the Rust `BTreeSet` equality. -/
structure DfaState where
  internal : List NfaState
  accepting : Bool
deriving DecidableEq, Repr

/-- `DfaState::from(BTreeSet<NfaState>)`: accepting iff the set contains
`Accepting`. -/
def dfaStateFrom (set : List NfaState) : DfaState :=
  { internal := set, accepting := set.any (fun st => st = NfaState.accepting) }

/-- `DfaState::merge`: union the internal sets, OR the accepting flags. -/
def dfaMerge (a b : DfaState) : DfaState :=
  { internal := b.internal.foldl (fun acc st => sIns ltState st acc) a.internal,
    accepting := a.accepting || b.accepting }

/-- The derived lexicographic order on lists (the order of `BTreeSet`
iterators compared element-wise, shorter prefix first). -/
def ltList [DecidableEq α] (lt : α → α → Bool) : List α → List α → Bool
  | [], [] => false
  | [], _ :: _ => true
  | _ :: _, [] => false
  | a :: as, b :: bs => if lt a b then true else if a = b then ltList lt as bs else false

/-- The `#[derive(Ord)]` order on `DfaState`: by `internal`, then `accepting`
(`false < true`). -/
def ltDfa (a b : DfaState) : Bool :=
  if ltList ltState a.internal b.internal then true
  else if a.internal = b.internal then !a.accepting && b.accepting
  else false

/-- The order on partition blocks (`BTreeSet<BTreeSet<DfaState>>`). -/
def ltBlock : List DfaState → List DfaState → Bool := ltList ltDfa

/-- One DFA transition row: label to unique target state. -/
abbrev DfaRow := List (Transition × DfaState)

/-- The DFA transition table: `HashMap<DfaState, HashMap<Transition, DfaState>>`. -/
abbrev DfaTable := List (DfaState × DfaRow)

/-- `Dfa` from dfa.rs. -/
structure Dfa where
  transitions : DfaTable
  states : List DfaState
  start_state : DfaState
deriving DecidableEq, Repr

/-- The move-accumulation step of `Dfa::from_nfa`: for every NFA state of the
set and every non-epsilon outgoing transition, extend the `possible` map's
target list for that label. -/
def possibleMoves (n : Nfa) (internal : List NfaState) : List (Transition × List NfaState) :=
  internal.foldl (fun possible st =>
    match alookup n.transitions st with
    | none => possible
    | some row => row.foldl (fun p tr =>
        if tr.1 = Transition.epsilon then p
        else ainsert tr.1 ((alookup p tr.1).getD [] ++ tr.2) p) possible) []

/-- The wildcard-folding step of `Dfa::from_nfa`: if a `Wildcard` entry with
targets `W` exists, extend every other entry's target list with `W`. -/
def foldWildcard (p : List (Transition × List NfaState)) : List (Transition × List NfaState) :=
  match alookup p Transition.wildcard with
  | none => p
  | some w => p.map (fun tr =>
      (tr.1, if tr.1 = Transition.wildcard then tr.2 else tr.2 ++ w))

/-- Installation of a single folded move `(label, targets)` out of `state`
(the body of the `for (trans, ends) in possible` loop of `Dfa::from_nfa`):
take the epsilon closure of the targets, merge it into any slot already
present at `(state, label)`, and enqueue the resulting state if unseen. -/
def installMove (n : Nfa) (state : DfaState) (seen : List DfaState)
    (acc : DfaTable × List DfaState) (tr : Transition × List NfaState) :
    DfaTable × List DfaState :=
  let closure := dfaStateFrom (epsClosure n tr.2)
  let row := (alookup acc.1 state).getD []
  let cur := (alookup row tr.1).getD { internal := [], accepting := false }
  let merged := dfaMerge cur closure
  let t2 := ainsert state (ainsert tr.1 merged row) acc.1
  let u2 := if merged ∈ seen ∨ merged ∈ acc.2 then acc.2 else sIns ltDfa merged acc.2
  (t2, u2)

/-- The body of `Dfa::from_nfa`'s work loop applied to one popped state:
install one DFA transition per folded move (merging into any slot already
present), and enqueue unseen target states. -/
def fromNfaStep (n : Nfa) (state : DfaState) (seen : List DfaState)
    (trans : DfaTable) (unmarked : List DfaState) : DfaTable × List DfaState :=
  (foldWildcard (possibleMoves n state.internal)).foldl
    (installMove n state seen) (trans, unmarked)

/-- The work loop of `Dfa::from_nfa` (`while let Some(state) = unmarked.pop_first()`),
with explicit fuel; `none` models a run that needed more iterations than the
fuel allows. -/
def fromNfaGo (n : Nfa) : Nat → DfaTable → List DfaState → List DfaState →
    List DfaState → DfaState → Option Dfa
  | 0, _, _, _, _, _ => none
  | fuel + 1, tbl, states, seen, unmarked, start =>
    match unmarked with
    | [] => some { transitions := tbl, states := states, start_state := start }
    | state :: unrest =>
      let seen' := sIns ltDfa state seen
      let states' := if state ∈ states then states else sIns ltDfa state states
      let su := fromNfaStep n state seen' tbl unrest
      fromNfaGo n fuel su.1 states' seen' su.2 start

/-- `Dfa::from_nfa`: epsilon-closure subset construction from
`closure({Start})`. -/
def fromNfa (n : Nfa) (fuel : Nat) : Option Dfa :=
  let start := dfaStateFrom (epsClosure n [NfaState.start])
  fromNfaGo n fuel [] [start] [] [start] start

/-- The inverse transition table built at the top of `Dfa::minimize`:
`delta_inv(end, label)` collects every source with an edge `end` under
`label`. -/
def buildInv (t : DfaTable) : List (DfaState × List (Transition × List DfaState)) :=
  t.foldl (fun inv row =>
    row.2.foldl (fun inv2 tr =>
      let endRow := (alookup inv2 tr.2).getD []
      let sources := (alookup endRow tr.1).getD []
      ainsert tr.2 (ainsert tr.1 (sIns ltDfa row.1 sources) endRow) inv2) inv) []

/-- The per-splitter preimage map of `Dfa::minimize`: for a popped set `S`,
`end_states(label)` is the union over `s` in `S` of `delta_inv(s, label)`. -/
def endStatesOf (inv : List (DfaState × List (Transition × List DfaState)))
    (S : List DfaState) : List (Transition × List DfaState) :=
  S.foldl (fun es st =>
    match alookup inv st with
    | none => es
    | some row => row.foldl (fun es2 tr =>
        let cur := (alookup es2 tr.1).getD []
        ainsert tr.1 (tr.2.foldl (fun acc e => sIns ltDfa e acc) cur) es2) es) []

/-- One refinement pass of `Dfa::minimize` for a single preimage set `I`:
split every block `R` of `P` that meets `I` without being contained in it,
updating the worklist with the standard smaller-half rule. -/
def splitBlocks (I : List DfaState) (W P : List (List DfaState)) :
    List (List DfaState) × List (List DfaState) :=
  P.foldl (fun (wp : List (List DfaState) × List (List DfaState)) R =>
    let inter := R.filter (fun st => st ∈ I)
    if inter ≠ [] ∧ ¬ (R.all (fun st => st ∈ I)) then
      let R1 := inter
      let R2 := R.filter (fun st => !(st ∈ R1 : Bool))
      let P' := sIns ltBlock R1 (sIns ltBlock R2 (wp.2.filter (fun b => !(b = R : Bool))))
      let W' :=
        if R ∈ wp.1 then
          sIns ltBlock R1 (sIns ltBlock R2 (wp.1.filter (fun b => !(b = R : Bool))))
        else if R1.length ≤ R2.length then sIns ltBlock R1 wp.1
        else sIns ltBlock R2 wp.1
      (W', P')
    else wp) (W, P)

/-- The refinement loop of `Dfa::minimize` (`while let Some(S) = W.pop_first()`),
processing each label's preimage set in turn, with explicit fuel. -/
def refineLoop (inv : List (DfaState × List (Transition × List DfaState))) :
    Nat → List (List DfaState) → List (List DfaState) → Option (List (List DfaState))
  | 0, _, _ => none
  | fuel + 1, W, P =>
    match W with
    | [] => some P
    | S :: Wrest =>
      let es := endStatesOf inv S
      let wp := es.foldl (fun (acc : List (List DfaState) × List (List DfaState)) tr =>
        splitBlocks tr.2 acc.1 acc.2) (Wrest, P)
      refineLoop inv fuel wp.1 wp.2

/-- The collapse map of `Dfa::minimize`: each block of size above one is
merged into a single state (union of internal sets, OR of accepting flags),
and every member is mapped to the merged state. -/
def buildChanges (P : List (List DfaState)) : List (DfaState × DfaState) :=
  P.foldl (fun changes p =>
    if p.length > 1 then
      let ns := p.foldl (fun acc st => dfaMerge acc st) { internal := [], accepting := false }
      p.foldl (fun ch st => ainsert st ns ch) changes
    else changes) []

/-- The target-rewriting pass of `rename`: every target equal to `old` becomes
`new` (`StateContainer::replace_state` for the single-state DFA container). -/
def substTargets (oldState newState : DfaState) (row : DfaRow) : DfaRow :=
  row.map (fun tr => (tr.1, if tr.2 = oldState then newState else tr.2))

/-- `TransitionTable::rename` at the DFA instance (used by the minimizer's
collapse): re-key the row at `old` to `new` — a plain `HashMap::insert`, so a
pre-existing row at `new` is replaced, not merged — then rewrite every target
equal to `old` to `new`. -/
def dfaRename (t : DfaTable) (oldState newState : DfaState) : DfaTable :=
  let t1 := match alookup t oldState with
    | some row => ainsert newState row (aremove oldState t)
    | none => t
  t1.map (fun row => (row.1, substTargets oldState newState row.2))

/-- `Dfa::minimize`: Hopcroft partition refinement followed by the collapse of
non-trivial blocks via `rename`. The `states` field is left untouched, exactly
as in the source. -/
def minimizeD (d : Dfa) (fuel : Nat) : Option Dfa :=
  let inv := buildInv d.transitions
  let accepting := d.states.filter (fun st => st.accepting)
  let nonaccepting := d.states.filter (fun st => !st.accepting)
  let W0 := sIns ltBlock accepting (sIns ltBlock nonaccepting [])
  match refineLoop inv fuel W0 W0 with
  | none => none
  | some P =>
    let changes := buildChanges P
    let start' := (alookup changes d.start_state).getD d.start_state
    let trans' := changes.foldl (fun t ch => dfaRename t ch.1 ch.2) d.transitions
    some { transitions := trans', states := d.states, start_state := start' }

/-- `SimError` from dfa.rs. -/
inductive SimError where
  | noMatch (c : Char)
  | endOfString
  | noTransitions
  | premature
deriving DecidableEq, Repr

/-- The simulator's result (`Result<(), SimError>`). -/
inductive SimRes where
  | ok
  | err (e : SimError)
deriving DecidableEq, Repr

/-- The edge-selection step of `Dfa::simulate`: try `Literal(c)`, then
`Wildcard`, then `Epsilon`; the first label present in the row wins. -/
def findEdge (m : DfaRow) (c : Char) : Option (Transition × DfaState) :=
  match alookup m (Transition.literal c) with
  | some t => some (Transition.literal c, t)
  | none =>
    match alookup m Transition.wildcard with
    | some t => some (Transition.wildcard, t)
    | none =>
      match alookup m Transition.epsilon with
      | some t => some (Transition.epsilon, t)
      | none => none

/-- The final check after `Dfa::simulate`'s loop: success iff no input
remains, else `Premature`. -/
def finishRes (input : List Char) : SimRes :=
  if input.isEmpty then .ok else .err .premature

/-- The step loop of `Dfa::simulate` with explicit fuel (`none` = the loop ran
longer than the fuel allows; the Rust loop can spin on epsilon edges). Every
`accepted = true` exit point feeds the final remaining-input check. -/
def simLoop (d : Dfa) : Nat → DfaState → List Char → Option SimRes
  | 0, _, _ => none
  | fuel + 1, cur, input =>
    match alookup d.transitions cur with
    | some m =>
      match input with
      | c :: rest =>
        match findEdge m c with
        | some et =>
          if et.1 = Transition.epsilon then simLoop d fuel et.2 input
          else simLoop d fuel et.2 rest
        | none =>
          if cur.accepting then some (finishRes input) else some (.err (.noMatch c))
      | [] =>
        match alookup m Transition.epsilon with
        | some tgt => simLoop d fuel tgt []
        | none =>
          if cur.accepting then some (finishRes []) else some (.err .endOfString)
    | none =>
      if cur.accepting then some (finishRes input) else some (.err .noTransitions)

/-- `test_string` from lib.rs: run `Dfa::simulate` on `input`. -/
def testString (input : String) (d : Dfa) (fuel : Nat) : Option SimRes :=
  simLoop d fuel d.start_state input.data

/-- `ParseElement` from parse.rs. -/
inductive ParseElement where
  | literal (c : Char)
  | wildcard
  | star
  | plus
  | question
  | range (lo hi : Nat)
  | openRange (lo : Nat)
  | union
  | group (inner : List ParseElement)
  | bracket (chars : List Char)
  | backReference (n : Nat)
deriving Repr

/-- `ParseElement::is_modifier`. -/
def isModifier : ParseElement → Bool
  | .star | .plus | .question | .range _ _ | .openRange _ => true
  | _ => false

/-- The bridge from a peeked modifier `ParseElement` to the `Modifier` the NFA
layer consumes (parse.rs hands the element straight to `Nfa::new` /
`add_modifier`). -/
def toModifier : ParseElement → Option Modifier
  | .star => some .star
  | .plus => some .plus
  | .question => some .question
  | .range lo hi => some (.range lo hi)
  | .openRange lo => some (.openRange lo)
  | _ => none

/-- The bracket branch of `parse`: atoms are built for the characters popped
from the *end* of the list and unioned together (`Nfa::new(_, None)` is
exactly `nfaNewCore _ none`, which never fails and mints no ids). -/
def bracketNfa (chars : List Char) (cnt : Nat) : Option (Nfa × Nat) :=
  match chars.reverse with
  | [] => none
  | c0 :: crest =>
    let base := nfaNewCore (Transition.literal c0) none cnt
    some (crest.foldl (fun (acc : Nfa × Nat) ch =>
      let atom := nfaNewCore (Transition.literal ch) none acc.2
      (nfaUnion acc.1 atom.1, atom.2)) base)

/-- `parse` from parse.rs: walk the token stream, peeking one element ahead
for a quantifier, maintaining the current NFA, the union stack and the list
of group NFAs (recorded pre-modifier, for backreference expansion). A bare
quantifier, an out-of-range backreference and the `unwrap`s reached through
`concat` are panics, modelled as `none`; `fuel` bounds the recursion. -/
def parseLoop : Nat → List ParseElement → Nfa → List Nfa → List Nfa → Nat →
    Option (Nfa × Nat)
  | 0, _, _, _, _, _ => none
  | fuel + 1, toks, curr, unionStack, groups, cnt =>
    match toks with
    | [] => some (unionStack.foldl (fun c g => nfaUnion c g) curr, cnt)
    | tok :: rest =>
      let mr : Option ParseElement × List ParseElement :=
        match rest with
        | m :: r2 => if isModifier m then (some m, r2) else (none, rest)
        | [] => (none, rest)
      let modif := mr.1.bind toModifier
      match tok with
      | .literal c => do
        let (m, c1) ← nfaNew (Transition.literal c) modif cnt
        let (curr', c2) ← concat curr m c1
        parseLoop fuel mr.2 curr' unionStack groups c2
      | .wildcard => do
        let (m, c1) ← nfaNew Transition.wildcard modif cnt
        let (curr', c2) ← concat curr m c1
        parseLoop fuel mr.2 curr' unionStack groups c2
      | .union => parseLoop fuel mr.2 emptyNfa (curr :: unionStack) groups cnt
      | .bracket chars => do
        let (b, c1) ← bracketNfa chars cnt
        let (b2, c2) ← addModifier b modif c1
        let (curr', c3) ← concat curr b2 c2
        parseLoop fuel mr.2 curr' unionStack groups c3
      | .group grp => do
        let (g, c1) ← parseLoop fuel grp emptyNfa [] [] cnt
        let (g2, c2) ← addModifier g modif c1
        let (curr', c3) ← concat curr g2 c2
        parseLoop fuel mr.2 curr' unionStack (groups ++ [g]) c3
      | .backReference k =>
        match groups.get? (k - 1) with
        | none => none
        | some g =>
          if k = 0 then none
          else do
            let (g2, c2) ← addModifier g modif cnt
            let (curr', c3) ← concat curr g2 c2
            parseLoop fuel mr.2 curr' unionStack groups c3
      | .star | .plus | .question | .range _ _ | .openRange _ => none

/-- `parse(toks)` with an explicitly threaded counter. -/
def parse (toks : List ParseElement) (fuel cnt : Nat) : Option (Nfa × Nat) :=
  parseLoop fuel toks emptyNfa [] [] cnt

/-- Hexadecimal digit value (`char::to_digit(16)`). -/
def hexVal (c : Char) : Option Nat :=
  if '0' ≤ c ∧ c ≤ '9' then some (c.toNat - 48)
  else if 'a' ≤ c ∧ c ≤ 'f' then some (c.toNat - 87)
  else if 'A' ≤ c ∧ c ≤ 'F' then some (c.toNat - 55)
  else none

/-- `char::from_u32`: `none` on an invalid scalar value. -/
def charFromU32 (n : Nat) : Option Char :=
  if h : n.isValidChar then some ⟨⟨n, by
    rcases h with h | h
    · omega
    · omega⟩, h⟩ else none

/-- The inclusive character range `lo..=hi` (empty when `lo > hi`, skipping
the surrogate gap, as the Rust iterator does). -/
def charRangeList (lo hi : Char) : List Char :=
  (List.range (hi.toNat + 1 - lo.toNat)).filterMap (fun i => charFromU32 (lo.toNat + i))

/-- `get_character_class` from parse.rs. -/
def getCharacterClass (c : Char) : Option (List Char) :=
  match c with
  | 'w' => some (charRangeList 'A' 'Z' ++ charRangeList 'a' 'z' ++
                 charRangeList '0' '9' ++ ['_'])
  | 'd' => some (charRangeList '0' '9')
  | 's' => some [' ', '\t']
  | _ => none

/-- `get_escaped` from parse.rs: the character after the backslash has been
peeked but not consumed; unknown escapes and exhausted input are panics. -/
def getEscaped : List Char → Option (Char × List Char)
  | [] => none
  | c :: rest =>
    match c with
    | '.' | '*' | '+' | '?' | '{' | '}' | '|' | '^' | '$' | '(' | ')' | '['
    | ']' | '-' | '\\' => some (c, rest)
    | 't' => some ('\t', rest)
    | 'x' =>
      match rest with
      | a :: b :: r2 => do
        let ha ← hexVal a
        let hb ← hexVal b
        let ch ← charFromU32 (ha * 16 + hb)
        some (ch, r2)
      | _ => none
    | 'u' =>
      match rest with
      | a :: b :: c2 :: d :: r2 => do
        let ha ← hexVal a
        let hb ← hexVal b
        let hc ← hexVal c2
        let hd ← hexVal d
        let ch ← charFromU32 (((ha * 16 + hb) * 16 + hc) * 16 + hd)
        some (ch, r2)
      | _ => none
    | _ => none

/-- The `while !peek.is_ascii_digit` skip loop in the `{` branch of `lex`
(peeking past the end is a panic). -/
def dropUntilDigit : List Char → Option (List Char)
  | [] => none
  | c :: rest => if c.isDigit then some (c :: rest) else dropUntilDigit rest

/-- The digit-accumulation loops of `lex` (they peek after the last digit, so
input ending in a digit is a panic). -/
def takeNumber (acc : Nat) : List Char → Option (Nat × List Char)
  | [] => none
  | c :: rest =>
    if c.isDigit then takeNumber (acc * 10 + (c.toNat - 48)) rest
    else some (acc, c :: rest)

/-- The `while` skip loop up to the `,` or `}` delimiter in the `{` branch. -/
def dropUntilCommaOrBrace : List Char → Option (List Char)
  | [] => none
  | c :: rest =>
    if c = ',' ∨ c = '}' then some (c :: rest) else dropUntilCommaOrBrace rest

/-- The skip loop after the `,`: stop at a digit (not consumed) or at `}`
(consumed, making the element an open range). -/
def scanToDigitOrClose : List Char → Option (Bool × List Char)
  | [] => none
  | c :: rest =>
    if c.isDigit then some (false, c :: rest)
    else if c = '}' then some (true, rest)
    else scanToDigitOrClose rest

/-- The final `while next != closing brace` consumption loop. -/
def consumeThroughBrace : List Char → Option (List Char)
  | [] => none
  | c :: rest => if c = '}' then some rest else consumeThroughBrace rest

/-- The `{` branch of `lex`: parse `a{n}`, `a{n,}` or `a{n,m}` with arbitrary
non-digit filler tolerated around the numbers. -/
def lexBrace (input : List Char) : Option (ParseElement × List Char) := do
  let in1 ← dropUntilDigit input
  let (mn, in2) ← takeNumber 0 in1
  let in3 ← dropUntilCommaOrBrace in2
  match in3 with
  | '}' :: r => some (.range mn mn, r)
  | _ :: r =>
    match ← scanToDigitOrClose r with
    | (true, r2) => some (.openRange mn, r2)
    | (false, r2) => do
      let (mx, r3) ← takeNumber 0 r2
      let r4 ← consumeThroughBrace r3
      some (.range mn mx, r4)
  | [] => none

/-- The `[` branch of `lex`: collect literal characters, `\\w`/`\\d`/`\\s`
classes, escapes, and `-` ranges (a leading or trailing `-` is literal). -/
def lexBracketGo : Nat → List Char → List Char → Option (List Char × List Char)
  | 0, _, _ => none
  | fuel + 1, values, input =>
    match input with
    | [] => none
    | ']' :: rest => some (values, rest)
    | '\\' :: rest =>
      match rest with
      | [] => none
      | e :: r2 =>
        if e = 'w' ∨ e = 'd' ∨ e = 's' then do
          let cls ← getCharacterClass e
          lexBracketGo fuel (values ++ cls) r2
        else do
          let (ch, r3) ← getEscaped rest
          lexBracketGo fuel (values ++ [ch]) r3
    | '-' :: rest =>
      if values.isEmpty || (match rest with | ']' :: _ => true | _ => false) then
        lexBracketGo fuel (values ++ ['-']) rest
      else
        match rest with
        | [] => none
        | e :: r2 =>
          match values.getLast? with
          | none => none
          | some prev => lexBracketGo fuel (values.dropLast ++ charRangeList prev e) r2
    | c :: rest => lexBracketGo fuel (values ++ [c]) rest

/-- `lex` from parse.rs: one pass over the pattern characters, maintaining the
group stack; every `unwrap`/panic is `none`. Each iteration consumes at least
one character, so `fuel = length + 1` never runs out. -/
def lexLoop : Nat → List Char → List (List ParseElement) → List ParseElement →
    Option (List ParseElement)
  | 0, _, _, _ => none
  | fuel + 1, input, stack, curr =>
    match input with
    | [] => if stack.isEmpty then some curr else none
    | c :: rest =>
      match c with
      | '.' => lexLoop fuel rest stack (curr ++ [.wildcard])
      | '*' => lexLoop fuel rest stack (curr ++ [.star])
      | '+' => lexLoop fuel rest stack (curr ++ [.plus])
      | '?' => lexLoop fuel rest stack (curr ++ [.question])
      | '{' => do
        let (pe, r2) ← lexBrace rest
        lexLoop fuel r2 stack (curr ++ [pe])
      | '|' => lexLoop fuel rest stack (curr ++ [.union])
      | '(' => lexLoop fuel rest (curr :: stack) []
      | ')' =>
        match stack with
        | [] => none
        | top :: srest => lexLoop fuel rest srest (top ++ [.group curr])
      | '[' => do
        let (vals, r2) ← lexBracketGo (rest.length + 1) [] rest
        lexLoop fuel r2 stack (curr ++ [.bracket vals])
      | '\\' =>
        match rest with
        | [] => none
        | e :: _ =>
          if e = 'w' ∨ e = 'd' ∨ e = 's' then do
            let cls ← getCharacterClass e
            lexLoop fuel (rest.drop 1) stack (curr ++ [.bracket cls])
          else if e.isDigit then do
            let (nval, r3) ← takeNumber 0 rest
            lexLoop fuel r3 stack (curr ++ [.backReference nval])
          else do
            let (ch, r3) ← getEscaped rest
            lexLoop fuel r3 stack (curr ++ [.literal ch])
      | _ => lexLoop fuel rest stack (curr ++ [.literal c])

/-- `lex(input)`. -/
def lex (input : String) : Option (List ParseElement) :=
  lexLoop (input.length + 1) input.data [] []

/-- `compile_regex` from lib.rs: lex, parse, subset-construct, minimize. -/
def compileRegex (input : String) (fuel : Nat) : Option Dfa := do
  let toks ← lex input
  let (n, _) ← parse toks fuel 0
  let d ← fromNfa n fuel
  minimizeD d fuel

/-! ## Specification-side regular-expression semantics

Modelled from the spec (section 6 / section 8): the standard denotational
semantics of regular expressions, used only as the comparison side of the
refinement claims. It is computed with Brzozowski derivatives, whose agreement
with the textbook language definition is classical. -/

/-- Modelled from the spec: abstract syntax of the regular expressions of
section 6 (empty language, empty string, single character, alternation,
concatenation, Kleene star). -/
inductive Regex where
  | nul
  | eps
  | chr (c : Char)
  | alt (r s : Regex)
  | cat (r s : Regex)
  | star (r : Regex)
deriving DecidableEq, Repr

/-- Modelled from the spec: whether the language of `r` contains the empty
string. -/
def specNullable : Regex → Bool
  | .nul => false
  | .eps => true
  | .chr _ => false
  | .alt r s => specNullable r || specNullable s
  | .cat r s => specNullable r && specNullable s
  | .star _ => true

/-- Modelled from the spec: the Brzozowski derivative of `r` by `c`. -/
def specDeriv : Regex → Char → Regex
  | .nul, _ => .nul
  | .eps, _ => .nul
  | .chr d, c => if d = c then .eps else .nul
  | .alt r s, c => .alt (specDeriv r c) (specDeriv s c)
  | .cat r s, c =>
    if specNullable r then .alt (.cat (specDeriv r c) s) (specDeriv s c)
    else .cat (specDeriv r c) s
  | .star r, c => .cat (specDeriv r c) (.star r)

/-- Modelled from the spec: `s` is in the language of `r` iff the iterated
derivative is nullable. -/
def specMatches (r : Regex) (s : List Char) : Bool :=
  specNullable (s.foldl specDeriv r)

/-! ## Observations and concrete instances used by the claims -/

/-- No row of the table carries an `Epsilon`-labelled transition. -/
def tableEpsFree (t : DfaTable) : Prop :=
  ∀ kv ∈ t, ∀ tr ∈ kv.2, tr.1 ≠ Transition.epsilon

/-- The fresh-id payload of a state, if any. -/
def stateFreshId : NfaState → Option Nat
  | .s k => some k
  | _ => none

/-- Every state occurring in the NFA's table, as row key or as target. -/
def nfaStatesList (n : Nfa) : List NfaState :=
  n.transitions.flatMap (fun row => row.1 :: row.2.flatMap (fun tr => tr.2))

/-- The fresh ids occurring in an NFA. -/
def nfaFreshIds (n : Nfa) : List Nat :=
  (nfaStatesList n).filterMap stateFreshId

/-- Whether two NFAs contain a common fresh id. -/
def sharesFreshId (m n' : Nfa) : Bool :=
  (nfaFreshIds m).any (fun i => decide (i ∈ nfaFreshIds n'))

/-- The NFA `parse` builds for the group `(ab)` from counter 0 (the fresh id 0
is the concatenation join state). -/
def gAB : Nfa :=
  { transitions :=
      [(NfaState.start, [(Transition.literal 'a', [NfaState.s 0])]),
       (NfaState.s 0, [(Transition.literal 'b', [NfaState.accepting])])],
    empty := false }

/-- The NFA `Nfa::new(Literal('a'), Some(Star))` builds from counter 0. -/
def nStarA : Nfa :=
  { transitions :=
      [(NfaState.start,
        [(Transition.epsilon, [NfaState.accepting]),
         (Transition.literal 'a', [NfaState.s 0])]),
       (NfaState.s 0, [(Transition.epsilon, [NfaState.start])])],
    empty := false }

/-- The DFA `Dfa::from_nfa` produces for `nStarA`. -/
def dStarA : Dfa :=
  { transitions :=
      [({ internal := [NfaState.start, NfaState.accepting], accepting := true },
        [(Transition.literal 'a',
          { internal := [NfaState.start, NfaState.accepting, NfaState.s 0],
            accepting := true })]),
       ({ internal := [NfaState.start, NfaState.accepting, NfaState.s 0],
          accepting := true },
        [(Transition.literal 'a',
          { internal := [NfaState.start, NfaState.accepting, NfaState.s 0],
            accepting := true })])],
    states :=
      [{ internal := [NfaState.start, NfaState.accepting], accepting := true },
       { internal := [NfaState.start, NfaState.accepting, NfaState.s 0],
         accepting := true }],
    start_state := { internal := [NfaState.start, NfaState.accepting], accepting := true } }

/-- The result of `Dfa::minimize` on `dStarA` (the two states collapse). -/
def dStarAMin : Dfa :=
  { transitions :=
      [({ internal := [NfaState.start, NfaState.accepting, NfaState.s 0],
          accepting := true },
        [(Transition.literal 'a',
          { internal := [NfaState.start, NfaState.accepting, NfaState.s 0],
            accepting := true })])],
    states :=
      [{ internal := [NfaState.start, NfaState.accepting], accepting := true },
       { internal := [NfaState.start, NfaState.accepting, NfaState.s 0],
         accepting := true }],
    start_state :=
      { internal := [NfaState.start, NfaState.accepting, NfaState.s 0],
        accepting := true } }

/-- The DFA of the empty pattern: a single non-accepting state, no rows. -/
def dEmpty : Dfa :=
  { transitions := [],
    states := [{ internal := [NfaState.start], accepting := false }],
    start_state := { internal := [NfaState.start], accepting := false } }

/-- The accepting state of the DFA compiled from the pattern `b`. -/
def accB : DfaState := { internal := [NfaState.accepting], accepting := true }

/-- Concrete DFA states for exercising `rename`. -/
def q0 : DfaState := { internal := [NfaState.s 0], accepting := false }

def q1 : DfaState := { internal := [NfaState.s 1], accepting := false }

def q2 : DfaState := { internal := [NfaState.s 2], accepting := false }

def q3 : DfaState := { internal := [NfaState.s 3], accepting := false }

/-- A table with rows at both `q0` and `q1`, for exercising `rename(q0, q1)`. -/
def tRen : DfaTable :=
  [(q0, [(Transition.literal 'a', q2)]), (q1, [(Transition.literal 'b', q3)])]

/-- A two-edge NFA whose start state has both a wildcard and a literal move. -/
def wcNfa : Nfa :=
  { transitions :=
      [(NfaState.start,
        [(Transition.wildcard, [NfaState.s 0]),
         (Transition.literal 'a', [NfaState.s 1])])],
    empty := false }

/-! ## The minimization-correctness development: definitions -/

/-- A boolean strict linear order: irreflexive, transitive, and total in the
trichotomy sense. -/
structure IsSLO {α : Type _} [DecidableEq α] (lt : α → α → Bool) : Prop where
  irrefl : ∀ a, lt a a = false
  trans : ∀ a b c, lt a b = true → lt b c = true → lt a c = true
  total : ∀ a b, lt a b = true ∨ a = b ∨ lt b a = true

/-- Strictly-sorted (ascending, duplicate-free) lists. -/
def SChain {α : Type _} (lt : α → α → Bool) : List α → Prop
  | [] => True
  | [_] => True
  | a :: b :: t => lt a b = true ∧ SChain lt (b :: t)

/-- One epsilon edge of the NFA, as the table lookups see it. -/
def epsEdge (n : Nfa) (s t : NfaState) : Prop :=
  ∃ row lst, alookup n.transitions s = some row ∧
    alookup row Transition.epsilon = some lst ∧ t ∈ lst

/-- Epsilon reachability from a seed list. -/
inductive EpsReach (n : Nfa) (seeds : List NfaState) : NfaState → Prop where
  | base {s : NfaState} : s ∈ seeds → EpsReach n seeds s
  | step {s t : NfaState} : EpsReach n seeds s → epsEdge n s t → EpsReach n seeds t

/-- A list closed under epsilon edges. -/
def EpsClosed (n : Nfa) (l : List NfaState) : Prop :=
  ∀ x ∈ l, ∀ t, epsEdge n x t → t ∈ l

/-- The worklist step function of `epsClosureGo`. -/
def wlStep (pr : List NfaState × List NfaState) (e : NfaState) :
    List NfaState × List NfaState :=
  if e ∈ pr.1 then pr else (sIns ltState e pr.1, e :: pr.2)

/-- Some NFA state of `ints` has a row with an entry labelled `l`. -/
def hasEntryPm (n : Nfa) (ints : List NfaState) (l : Transition) : Prop :=
  ∃ s ∈ ints, ∃ row, alookup n.transitions s = some row ∧ ∃ lst, (l, lst) ∈ row

/-- `t` is a raw (pre-closure) target of label `l` out of the state set `ints`. -/
def rawOut (n : Nfa) (ints : List NfaState) (l : Transition) (t : NfaState) : Prop :=
  ∃ s ∈ ints, ∃ row, alookup n.transitions s = some row ∧
    ∃ lst, (l, lst) ∈ row ∧ t ∈ lst

/-- The DFA state `Dfa::from_nfa` installs for a raw target list `ts`:
the epsilon closure, wrapped as a `DfaState` and merged into the empty slot. -/
def canonClose (n : Nfa) (ts : List NfaState) : DfaState :=
  dfaMerge { internal := [], accepting := false } (dfaStateFrom (epsClosure n ts))

/-- The canonical transition function of the subset construction: the DFA
target that `from_nfa` computes for label `l` out of the state set `ints`. -/
def stepVal (n : Nfa) (ints : List NfaState) (l : Transition) : Option DfaState :=
  (alookup (foldWildcard (possibleMoves n ints)) l).map (canonClose n)

/-- One step of the row accumulation of `from_nfa`'s install loop. -/
def rowIns (n : Nfa) (r : DfaRow) (tr : Transition × List NfaState) : DfaRow :=
  ainsert tr.1
    (dfaMerge ((alookup r tr.1).getD { internal := [], accepting := false })
      (dfaStateFrom (epsClosure n tr.2))) r

/-- The full DFA row `from_nfa` builds for a popped state with set `ints`. -/
def rowOf (n : Nfa) (ints : List NfaState) : DfaRow :=
  (foldWildcard (possibleMoves n ints)).foldl (rowIns n) []

/-- The row (if any) that `from_nfa` leaves in the table for a popped state. -/
def expectedRow (n : Nfa) (ints : List NfaState) : Option DfaRow :=
  if foldWildcard (possibleMoves n ints) = [] then none else some (rowOf n ints)

/-- `x` occurs in target position somewhere in the DFA table `T`. -/
def tblTargets (T : DfaTable) (x : DfaState) : Prop :=
  ∃ k r, (k, r) ∈ T ∧ ∃ l, (l, x) ∈ r

/-- Raw targets after wildcard folding: the label's own raw targets, plus the
wildcard's raw targets when a wildcard entry exists. -/
def moveTargets (n : Nfa) (ints : List NfaState) (l : Transition) (t : NfaState) :
    Prop :=
  rawOut n ints l t ∨
    (l ≠ Transition.wildcard ∧ hasEntryPm n ints Transition.wildcard ∧
      rawOut n ints Transition.wildcard t)

/-- The DFA state `installMove` merges and possibly enqueues. -/
def instMerged (n : Nfa) (acc : DfaTable × List DfaState) (state : DfaState)
    (tr : Transition × List NfaState) : DfaState :=
  dfaMerge ((alookup ((alookup acc.1 state).getD []) tr.1).getD
    { internal := [], accepting := false }) (dfaStateFrom (epsClosure n tr.2))

/-- The loop invariant of `Dfa::from_nfa`'s work loop. -/
structure GoInv (n : Nfa) (tbl : DfaTable) (states seen unmarked : List DfaState) :
    Prop where
  seen_schain : SChain ltDfa seen
  unm_schain : SChain ltDfa unmarked
  states_schain : SChain ltDfa states
  disj : ∀ x ∈ unmarked, x ∉ seen
  keys_seen : ∀ p ∈ tbl, p.1 ∈ seen
  keys_nodup : (tbl.map Prod.fst).Nodup
  row_char : ∀ s ∈ seen, alookup tbl s = expectedRow n s.internal
  targets : ∀ x, tblTargets tbl x → x ∈ seen ∨ x ∈ unmarked
  seen_states : ∀ x ∈ seen, x ∈ states
  states_cover : ∀ x ∈ states, x ∈ seen ∨ x ∈ unmarked
  internals : ∀ x, (x ∈ states ∨ x ∈ unmarked) → SChain ltState x.internal

/-- The facts `Dfa::from_nfa` guarantees about its output. -/
structure DfaFacts (n : Nfa) (d : Dfa) : Prop where
  states_schain : SChain ltDfa d.states
  start_mem : d.start_state ∈ d.states
  row_char : ∀ s ∈ d.states, alookup d.transitions s = expectedRow n s.internal
  keys_states : ∀ p ∈ d.transitions, p.1 ∈ d.states
  keys_nodup : (d.transitions.map Prod.fst).Nodup
  targets_states : ∀ x, tblTargets d.transitions x → x ∈ d.states
  internals : ∀ x ∈ d.states, SChain ltState x.internal

/-- The DFA table has an edge `x --l--> e`. -/
def edgeT (T : DfaTable) (x : DfaState) (l : Transition) (e : DfaState) : Prop :=
  ∃ r, alookup T x = some r ∧ alookup r l = some e

/-- `x` lies in the `l`-preimage of the state set `S`. -/
def preT (T : DfaTable) (l : Transition) (S : List DfaState) (x : DfaState) : Prop :=
  ∃ e, edgeT T x l e ∧ e ∈ S

/-- One slot of the inverse table: the recorded sources with an `l`-edge
into `e`. -/
def invSlot (inv : List (DfaState × List (Transition × List DfaState)))
    (e : DfaState) (l : Transition) : List DfaState :=
  (alookup ((alookup inv e).getD []) l).getD []

/-- Fuel-indexed behavioural equivalence of DFA states with respect to the
canonical transition function of the subset construction. -/
def simN (n : Nfa) : Nat → DfaState → DfaState → Prop
  | 0, u, v => u.accepting = v.accepting
  | k + 1, u, v => u.accepting = v.accepting ∧ ∀ l,
      ((stepVal n u.internal l).isSome ↔ (stepVal n v.internal l).isSome) ∧
      (∀ a b, stepVal n u.internal l = some a → stepVal n v.internal l = some b →
        simN n k a b)

/-- Full behavioural equivalence. -/
def simEq (n : Nfa) (u v : DfaState) : Prop := ∀ k, simN n k u v

/-- Every block of `P` is contained in or disjoint from the `l`-preimage of
`X`. -/
def stable1 (T : DfaTable) (P : List (List DfaState)) (l : Transition)
    (X : List DfaState) : Prop :=
  ∀ C ∈ P, (∀ c ∈ C, preT T l X c) ∨ (∀ c ∈ C, ¬ preT T l X c)

def stableAll (T : DfaTable) (P : List (List DfaState)) (X : List DfaState) :
    Prop :=
  ∀ l, stable1 T P l X

/-- `X` is a union of behavioural-equivalence classes of `d.states`. -/
def blocksClosed (n : Nfa) (d : Dfa) (X : List DfaState) : Prop :=
  ∀ x ∈ X, ∀ y ∈ d.states, simEq n x y → y ∈ X

/-- `P` partitions the DFA's state list. -/
structure Partition (d : Dfa) (P : List (List DfaState)) : Prop where
  cover : ∀ x ∈ d.states, ∃ C ∈ P, x ∈ C
  disj : ∀ C ∈ P, ∀ C' ∈ P, C ≠ C' → ∀ x ∈ C, x ∉ C'
  sub : ∀ C ∈ P, ∀ x ∈ C, x ∈ d.states

def flagConsistent (P : List (List DfaState)) : Prop :=
  ∀ C ∈ P, ∀ x ∈ C, ∀ y ∈ C, x.accepting = y.accepting

/-- A certificate that stability of the refining partition with respect to a
set will be (or is already) established: either the set is on the worklist,
or it is already stable, or it is a difference or union of certified sets. -/
inductive Cert (T : DfaTable) (P : List (List DfaState))
    (Base : List DfaState → Prop) : List DfaState → Prop
  | base {X} : Base X → Cert T P Base X
  | stable {X} : stableAll T P X → Cert T P Base X
  | sdiff {X Y Z} : Cert T P Base X → Cert T P Base Y → (∀ z ∈ Y, z ∈ X) →
      (∀ z, z ∈ Z ↔ z ∈ X ∧ z ∉ Y) → Cert T P Base Z
  | union {X Y Z} : Cert T P Base X → Cert T P Base Y →
      (∀ z, z ∈ Z ↔ z ∈ X ∨ z ∈ Y) → Cert T P Base Z

def refinesMem (P' P : List (List DfaState)) : Prop :=
  ∀ C' ∈ P', ∃ C ∈ P, ∀ x ∈ C', x ∈ C

/-- The part of a block lying inside the splitter preimage `I`. -/
def blkInter (I R : List DfaState) : List DfaState :=
  R.filter (fun st => st ∈ I)

/-- The part of a block lying outside the splitter preimage `I`. -/
def blkRest (I R : List DfaState) : List DfaState :=
  R.filter (fun st => !(st ∈ blkInter I R : Bool))

/-- The body of `Dfa::minimize`'s per-block splitting fold. -/
def splStep (I : List DfaState)
    (wp : List (List DfaState) × List (List DfaState)) (R : List DfaState) :
    List (List DfaState) × List (List DfaState) :=
  if blkInter I R ≠ [] ∧ ¬ (R.all (fun st => st ∈ I)) then
    (if R ∈ wp.1 then
       sIns ltBlock (blkInter I R) (sIns ltBlock (blkRest I R)
         (wp.1.filter (fun b => !(b = R : Bool))))
     else if (blkInter I R).length ≤ (blkRest I R).length
       then sIns ltBlock (blkInter I R) wp.1
       else sIns ltBlock (blkRest I R) wp.1,
     sIns ltBlock (blkInter I R) (sIns ltBlock (blkRest I R)
       (wp.2.filter (fun b => !(b = R : Bool)))))
  else wp

/-- `C` is inside or outside `I` wholesale. -/
def dichoto (I C : List DfaState) : Prop :=
  (∀ c ∈ C, c ∈ I) ∨ (∀ c ∈ C, c ∉ I)

/-- The invariant carried through the splitting passes of one refinement
iteration (popped splitter `S`). -/
structure ESInv (n : Nfa) (d : Dfa) (S : List DfaState)
    (wp : List (List DfaState) × List (List DfaState)) : Prop where
  part : Partition d wp.2
  psc : SChain ltBlock wp.2
  wsc : SChain ltBlock wp.1
  flag : flagConsistent wp.2
  pclosed : ∀ C ∈ wp.2, blocksClosed n d C
  wclosed : ∀ Y ∈ wp.1, blocksClosed n d Y
  cert : ∀ C ∈ wp.2, Cert d.transitions wp.2 (fun X => X ∈ wp.1 ∨ X = S) C

def splitDoneMem (I : List DfaState) (P : List (List DfaState)) : Prop :=
  ∀ C ∈ P, dichoto I C

/-- The loop invariant of `Dfa::minimize`'s refinement loop. -/
structure RLInv (n : Nfa) (d : Dfa) (W P : List (List DfaState)) : Prop where
  part : Partition d P
  psc : SChain ltBlock P
  wsc : SChain ltBlock W
  flag : flagConsistent P
  pclosed : ∀ C ∈ P, blocksClosed n d C
  wclosed : ∀ Y ∈ W, blocksClosed n d Y
  cert : ∀ C ∈ P, Cert d.transitions P (fun X => X ∈ W) C

/-- Rewrite every target of a row through `σ`. -/
def mapRow (σ : DfaState → DfaState) (r : DfaRow) : DfaRow :=
  r.map (fun tr => (tr.1, σ tr.2))

/-- The collapse map induced by a change list: where the changes bind a
state, follow them; otherwise identity. -/
def chMap (ch : List (DfaState × DfaState)) (s : DfaState) : DfaState :=
  (alookup ch s).getD s

/-- The invariant tying the partially renamed table to the original. -/
structure RenRel (T₀ : DfaTable) (done : List (DfaState × DfaState))
    (T : DfaTable) : Prop where
  moved : ∀ y b, (y, b) ∈ done → b ≠ y → (∀ a, (a, y) ∉ done) →
      alookup T y = none
  untouched : ∀ y, (∀ b, (y, b) ∉ done) → (∀ a, (a, y) ∉ done) →
      alookup T y = Option.map (mapRow (chMap done)) (alookup T₀ y)
  val_presence : ∀ y a₀, (a₀, y) ∈ done →
      ((alookup T y).isSome ↔
        (∃ a, (a, y) ∈ done ∧ (alookup T₀ a).isSome) ∨ (alookup T₀ y).isSome)
  val_content : ∀ y a₀, (a₀, y) ∈ done → ∀ r, alookup T y = some r →
      ∃ a, ((a, y) ∈ done ∨ a = y) ∧
        ∃ r₀, alookup T₀ a = some r₀ ∧ r = mapRow (chMap done) r₀

/-- The merged state of a block. -/
def blockM (p : List DfaState) : DfaState :=
  p.foldl (fun acc st => dfaMerge acc st) { internal := [], accepting := false }

/-- One step of the change-building fold. -/
def bcStep (changes : List (DfaState × DfaState)) (p : List DfaState) :
    List (DfaState × DfaState) :=
  if p.length > 1 then
    p.foldl (fun ch st => ainsert st (blockM p) ch) changes
  else changes

/-- The facts about `d` and the final partition `P` that the collapse
correctness argument consumes. -/
structure MinCtx (n : Nfa) (d : Dfa) (P : List (List DfaState)) : Prop where
  hf : DfaFacts n d
  part : Partition d P
  flag : flagConsistent P
  closed : ∀ C ∈ P, blocksClosed n d C
  stab : ∀ C ∈ P, stableAll d.transitions P C
  pnodup : P.Nodup

/-! ## Association-list and sorted-set lemmas -/

theorem alookup_ainsert_self [DecidableEq κ] (k : κ) (v : β) (l : List (κ × β)) :
    alookup (ainsert k v l) k = some v := by
  induction l with
  | nil => simp [ainsert, alookup]
  | cons hd tl ih =>
    by_cases h : hd.1 = k
    · simp [ainsert, alookup, h]
    · simp [ainsert, alookup, h, ih]

theorem alookup_ainsert_ne [DecidableEq κ] {k k' : κ} (v : β) (l : List (κ × β))
    (h : k' ≠ k) : alookup (ainsert k v l) k' = alookup l k' := by
  induction l with
  | nil => simp [ainsert, alookup, Ne.symm h]
  | cons hd tl ih =>
    obtain ⟨a, b⟩ := hd
    by_cases hh : a = k
    · subst hh
      simp [ainsert, alookup, Ne.symm h]
    · by_cases ha : a = k'
      · subst ha
        simp [ainsert, alookup, hh]
      · simp [ainsert, alookup, hh, ha, ih]

theorem alookup_aremove_self [DecidableEq κ] (k : κ) (l : List (κ × β)) :
    alookup (aremove k l) k = none := by
  induction l with
  | nil => simp [aremove, alookup]
  | cons hd tl ih =>
    obtain ⟨a, b⟩ := hd
    simp only [aremove] at ih ⊢
    by_cases h : a = k
    · simpa [List.filter_cons, h] using ih
    · simpa [List.filter_cons, h, alookup, h] using ih

theorem alookup_aremove_ne [DecidableEq κ] {k k' : κ} (l : List (κ × β))
    (h : k' ≠ k) : alookup (aremove k l) k' = alookup l k' := by
  induction l with
  | nil => simp [aremove, alookup]
  | cons hd tl ih =>
    obtain ⟨a, b⟩ := hd
    simp only [aremove] at ih ⊢
    by_cases hh : a = k
    · subst hh
      simp [List.filter_cons, alookup, Ne.symm h, ih]
    · by_cases ha : a = k'
      · subst ha
        simp [List.filter_cons, hh, alookup]
      · simp [List.filter_cons, hh, alookup, ha, ih]

theorem alookup_map_val [DecidableEq κ] (f : κ → β → γ) (l : List (κ × β)) (k : κ) :
    alookup (l.map (fun kv => (kv.1, f kv.1 kv.2))) k = (alookup l k).map (f k) := by
  induction l with
  | nil => simp [alookup]
  | cons hd tl ih =>
    by_cases h : hd.1 = k
    · subst h
      simp [alookup]
    · simp [alookup, h, ih]

theorem alookup_mem [DecidableEq κ] {l : List (κ × β)} {k : κ} {v : β}
    (h : alookup l k = some v) : (k, v) ∈ l := by
  induction l with
  | nil => simp [alookup] at h
  | cons hd tl ih =>
    obtain ⟨a, b⟩ := hd
    by_cases hh : a = k
    · subst hh
      simp [alookup] at h
      simp [h]
    · simp [alookup, hh] at h
      exact List.mem_cons_of_mem _ (ih h)

theorem mem_ainsert [DecidableEq κ] {l : List (κ × β)} {k : κ} {v : β}
    {p : κ × β} (h : p ∈ ainsert k v l) : p = (k, v) ∨ p ∈ l := by
  induction l with
  | nil => simpa [ainsert] using h
  | cons hd tl ih =>
    by_cases hh : hd.1 = k
    · simp [ainsert, hh] at h
      rcases h with h | h
      · exact Or.inl h
      · exact Or.inr (List.mem_cons_of_mem _ h)
    · simp [ainsert, hh] at h
      rcases h with h | h
      · exact Or.inr (by simp [h])
      · rcases ih h with h' | h'
        · exact Or.inl h'
        · exact Or.inr (List.mem_cons_of_mem _ h')

theorem mem_sIns_self [DecidableEq α] (lt : α → α → Bool) (a : α) (l : List α) :
    a ∈ sIns lt a l := by
  induction l with
  | nil => simp [sIns]
  | cons b t ih =>
    by_cases h1 : lt a b = true
    · simp [sIns, h1]
    · by_cases h2 : a = b
      · subst h2
        simp [sIns, h1]
      · simp only [sIns, h1, h2]
        simp [ih]

theorem mem_sIns_of_mem [DecidableEq α] (lt : α → α → Bool) {a b : α} {l : List α}
    (h : b ∈ l) : b ∈ sIns lt a l := by
  induction l with
  | nil => simp at h
  | cons c t ih =>
    by_cases h1 : lt a c = true
    · simp [sIns, h1]
      rcases List.mem_cons.mp h with h' | h'
      · exact Or.inr (Or.inl h')
      · exact Or.inr (Or.inr h')
    · by_cases h2 : a = c
      · subst h2
        simpa [sIns, h1] using h
      · simp only [sIns, h1, h2, if_false]
        rcases List.mem_cons.mp h with h' | h'
        · simp [h']
        · simp [ih h']

/-- A `foldl` preserves any invariant its step preserves. -/
theorem foldl_preserves {γ β : Type _} {P : γ → Prop} (step : γ → β → γ) (l : List β)
    (hstep : ∀ acc b, b ∈ l → P acc → P (step acc b)) :
    ∀ acc, P acc → P (l.foldl step acc) := by
  induction l with
  | nil => intro acc h; simpa using h
  | cons hd tl ih =>
    intro acc h
    simp only [List.foldl_cons]
    exact ih (fun acc' b hb h' => hstep acc' b (List.mem_cons_of_mem _ hb) h')
      (step acc hd) (hstep acc hd (List.mem_cons_self _ _) h)

theorem mem_foldl_sIns [DecidableEq α] (lt : α → α → Bool) {st : α} (xs : List α) :
    ∀ acc, st ∈ acc ∨ st ∈ xs → st ∈ xs.foldl (fun r x => sIns lt x r) acc := by
  induction xs with
  | nil =>
    intro acc h
    simpa using h.resolve_right (by simp)
  | cons x t ih =>
    intro acc h
    simp only [List.foldl_cons]
    rcases h with h | h
    · exact ih _ (Or.inl (mem_sIns_of_mem lt h))
    · rcases List.mem_cons.mp h with h | h
      · subst h
        exact ih _ (Or.inl (mem_sIns_self lt st acc))
      · exact ih _ (Or.inr h)

/-- The accumulating set of the epsilon-closure work loop only grows. -/
theorem mem_epsClosureGo (n : Nfa) (st : NfaState) :
    ∀ (fuel : Nat) (ret stack : List NfaState), st ∈ ret →
      st ∈ epsClosureGo n fuel ret stack := by
  intro fuel
  induction fuel with
  | zero => intro ret stack h; simpa [epsClosureGo] using h
  | succ f ih =>
    intro ret stack h
    match stack with
    | [] => simpa [epsClosureGo] using h
    | t :: rest =>
      simp only [epsClosureGo]
      split
      · split
        · refine ih _ _ ?_
          exact foldl_preserves
            (P := fun pr : List NfaState × List NfaState => st ∈ pr.1) _ _
            (fun acc b _ hacc => by
              by_cases hb : b ∈ acc.1
              · simpa [hb] using hacc
              · simpa [hb] using mem_sIns_of_mem ltState hacc) (ret, rest) h
        · exact ih ret rest h
      · exact ih ret rest h

/-- Every seed state is in its epsilon closure. -/
theorem mem_epsClosure_of_mem {n : Nfa} {s : List NfaState} {st : NfaState}
    (h : st ∈ s) : st ∈ epsClosure n s := by
  unfold epsClosure
  exact mem_epsClosureGo n st _ _ _ (mem_foldl_sIns ltState s [] (Or.inr h))

/-- The `possible` move map never acquires an `Epsilon` key (the accumulation
loop of `Dfa::from_nfa` skips epsilon transitions). -/
theorem possibleMoves_key_ne_eps (n : Nfa) (internal : List NfaState) :
    ∀ tr ∈ possibleMoves n internal, tr.1 ≠ Transition.epsilon := by
  unfold possibleMoves
  refine foldl_preserves
    (P := fun p : List (Transition × List NfaState) =>
      ∀ tr ∈ p, tr.1 ≠ Transition.epsilon) _ _ ?_ [] (by simp)
  intro acc st _ hacc
  cases hrow : alookup n.transitions st with
  | none => simpa [hrow] using hacc
  | some row =>
    simp only [hrow]
    refine foldl_preserves
      (P := fun p : List (Transition × List NfaState) =>
        ∀ tr ∈ p, tr.1 ≠ Transition.epsilon) _ _ ?_ acc hacc
    intro acc2 tr2 _ hacc2
    by_cases he : tr2.1 = Transition.epsilon
    · simpa [he] using hacc2
    · simp only [he, if_false]
      intro tr3 htr3
      rcases mem_ainsert htr3 with h3 | h3
      · simpa [h3] using he
      · exact hacc2 tr3 h3

/-- Wildcard folding preserves the key of each entry, so it keeps the move map
free of `Epsilon` keys. -/
theorem foldWildcard_key_ne_eps {p : List (Transition × List NfaState)}
    (hp : ∀ tr ∈ p, tr.1 ≠ Transition.epsilon) :
    ∀ tr ∈ foldWildcard p, tr.1 ≠ Transition.epsilon := by
  unfold foldWildcard
  cases hw : alookup p Transition.wildcard with
  | none => exact hp
  | some w =>
    intro tr htr
    rcases List.mem_map.mp htr with ⟨tr', htr', rfl⟩
    exact hp tr' htr'

theorem installMove_epsFree {n : Nfa} {state : DfaState} {seen : List DfaState}
    {acc : DfaTable × List DfaState} {tr : Transition × List NfaState}
    (htr : tr.1 ≠ Transition.epsilon) (hacc : tableEpsFree acc.1) :
    tableEpsFree (installMove n state seen acc tr).1 := by
  intro kv hkv tr2 htr2
  simp only [installMove] at hkv
  rcases mem_ainsert hkv with h | h
  · subst h
    simp only at htr2
    rcases mem_ainsert htr2 with h2 | h2
    · simpa [h2] using htr
    · cases hrow : alookup acc.1 state with
      | none => simp [hrow] at h2
      | some r =>
        rw [hrow] at h2
        exact hacc (state, r) (alookup_mem hrow) tr2 h2
  · exact hacc kv h tr2 htr2

theorem fromNfaStep_epsFree {n : Nfa} {state : DfaState} {seen : List DfaState}
    {tbl : DfaTable} {unmarked : List DfaState} (h : tableEpsFree tbl) :
    tableEpsFree (fromNfaStep n state seen tbl unmarked).1 := by
  unfold fromNfaStep
  refine foldl_preserves (P := fun acc => tableEpsFree acc.1) _ _ ?_ (tbl, unmarked) h
  intro acc tr htr hacc
  exact installMove_epsFree
    (foldWildcard_key_ne_eps (possibleMoves_key_ne_eps n state.internal) tr htr) hacc

theorem fromNfaGo_epsFree (n : Nfa) :
    ∀ (fuel : Nat) (tbl : DfaTable) (states seen unmarked : List DfaState)
      (start : DfaState) (d : Dfa),
      fromNfaGo n fuel tbl states seen unmarked start = some d →
      tableEpsFree tbl → tableEpsFree d.transitions := by
  intro fuel
  induction fuel with
  | zero => intro tbl states seen unmarked start d h; simp [fromNfaGo] at h
  | succ f ih =>
    intro tbl states seen unmarked start d h htbl
    match hu : unmarked with
    | [] =>
      simp only [fromNfaGo] at h
      cases h
      exact htbl
    | state :: unrest =>
      simp only [fromNfaGo] at h
      exact ih _ _ _ _ _ d h (fromNfaStep_epsFree htbl)

/-- The subset construction never installs an `Epsilon`-labelled DFA
transition. -/
theorem fromNfa_epsFree {n : Nfa} {fuel : Nat} {d : Dfa}
    (h : fromNfa n fuel = some d) : tableEpsFree d.transitions :=
  fromNfaGo_epsFree n fuel _ _ _ _ _ d h (by intro kv hkv; simp at hkv)

theorem substTargets_epsFree {oldS newS : DfaState} {row : DfaRow}
    (h : ∀ tr ∈ row, tr.1 ≠ Transition.epsilon) :
    ∀ tr ∈ substTargets oldS newS row, tr.1 ≠ Transition.epsilon := by
  intro tr htr
  rcases List.mem_map.mp htr with ⟨tr', htr', rfl⟩
  exact h tr' htr'

/-- `rename` never changes transition labels, so it preserves epsilon-freedom. -/
theorem dfaRename_epsFree {t : DfaTable} {oldS newS : DfaState}
    (h : tableEpsFree t) : tableEpsFree (dfaRename t oldS newS) := by
  unfold dfaRename
  intro kv hkv tr htr
  rcases List.mem_map.mp hkv with ⟨kv', hkv', rfl⟩
  simp only at htr
  refine substTargets_epsFree ?_ tr htr
  cases hrow : alookup t oldS with
  | none =>
    rw [hrow] at hkv'
    exact fun tr2 h2 => h kv' hkv' tr2 h2
  | some r =>
    rw [hrow] at hkv'
    rcases mem_ainsert hkv' with h1 | h1
    · subst h1
      exact fun tr2 h2 => h (oldS, r) (alookup_mem hrow) tr2 h2
    · exact fun tr2 h2 => h kv' (List.mem_filter.mp h1).1 tr2 h2

/-- Minimization only renames states, so it preserves epsilon-freedom. -/
theorem minimizeD_epsFree {d : Dfa} {fuel : Nat} {d' : Dfa}
    (h : tableEpsFree d.transitions) (hm : minimizeD d fuel = some d') :
    tableEpsFree d'.transitions := by
  simp only [minimizeD] at hm
  split at hm
  · cases hm
  · cases hm
    exact foldl_preserves (P := tableEpsFree) _ _
      (fun acc ch _ hacc => dfaRename_epsFree hacc) d.transitions h

/-- On an epsilon-free DFA every simulator iteration either consumes a
character or exits, so fuel `length + 1` always suffices. -/
theorem simLoop_isSome {d : Dfa} (hd : tableEpsFree d.transitions) :
    ∀ (input : List Char) (cur : DfaState),
      (simLoop d (input.length + 1) cur input).isSome := by
  intro input
  induction input with
  | nil =>
    intro cur
    cases hrow : alookup d.transitions cur with
    | none =>
      simp only [List.length_nil, simLoop, hrow]
      split <;> simp
    | some m =>
      cases heps : alookup m Transition.epsilon with
      | some tgt =>
        exact absurd (hd (cur, m) (alookup_mem hrow) _ (alookup_mem heps)) (by simp)
      | none =>
        simp only [List.length_nil, simLoop, hrow, heps]
        split <;> simp
  | cons c rest ih =>
    intro cur
    cases hrow : alookup d.transitions cur with
    | none =>
      simp only [List.length_cons, simLoop, hrow]
      split <;> simp
    | some m =>
      have heps : alookup m Transition.epsilon = none := by
        cases he : alookup m Transition.epsilon with
        | none => rfl
        | some tgt =>
          exact absurd (hd (cur, m) (alookup_mem hrow) _ (alookup_mem he)) (by simp)
      cases hfe : findEdge m c with
      | none =>
        simp only [List.length_cons, simLoop, hrow, hfe]
        split <;> simp
      | some et =>
        have hne : ¬ et.1 = Transition.epsilon := by
          unfold findEdge at hfe
          cases h1 : alookup m (Transition.literal c) with
          | some t => rw [h1] at hfe; cases hfe; simp
          | none =>
            rw [h1] at hfe
            cases h2 : alookup m Transition.wildcard with
            | some t => rw [h2] at hfe; cases hfe; simp
            | none => rw [h2, heps] at hfe; cases hfe
        simp only [List.length_cons, simLoop, hrow, hfe, hne, if_false]
        exact ih et.2

theorem alookup_foldWildcard_wildcard (p : List (Transition × List NfaState)) :
    alookup (foldWildcard p) Transition.wildcard = alookup p Transition.wildcard := by
  unfold foldWildcard
  cases hw : alookup p Transition.wildcard with
  | none => exact hw
  | some w =>
    rw [alookup_map_val (fun k v => if k = Transition.wildcard then v else v ++ w) p
      Transition.wildcard]
    simp [hw]

theorem alookup_foldWildcard_ne (p : List (Transition × List NfaState))
    {l : Transition} (hl : l ≠ Transition.wildcard) {w : List NfaState}
    (hw : alookup p Transition.wildcard = some w) :
    alookup (foldWildcard p) l = (alookup p l).map (fun v => v ++ w) := by
  unfold foldWildcard
  rw [hw]
  rw [alookup_map_val (fun k v => if k = Transition.wildcard then v else v ++ w) p l]
  cases he : alookup p l with
  | none => simp
  | some e => simp [hl]

theorem alookup_map_snd [DecidableEq κ] (g : β → γ) (l : List (κ × β)) (k : κ) :
    alookup (l.map (fun kv => (kv.1, g kv.2))) k = (alookup l k).map g := by
  induction l with
  | nil => simp [alookup]
  | cons hd tl ih =>
    by_cases h : hd.1 = k
    · subst h
      simp [alookup]
    · simp [alookup, h, ih]

/-! ## Claims -/

/-- C1: the claim states that for every lexable pattern `P` and string `s`,
simulating `compile_regex(P)` on `s` succeeds iff `s` is in the language of
`P` under the standard semantics. The code falsifies it: the full pipeline on
the pattern `a*|b` accepts the input `ab`, which is not in the language of
`a*|b` (the star loop re-enters the shared `Start` sentinel, through which the
union branch `b` is reachable). The repository's own `test_union` asserts
`Premature` here, so the code contradicts its own test suite. -/
theorem c1_pipeline_accepts_string_outside_language :
    (compileRegex "a*|b" 32).bind (fun d => testString "ab" d 8) = some SimRes.ok ∧
    specMatches (Regex.alt (Regex.star (Regex.chr 'a')) (Regex.chr 'b')) "ab".data
      = false :=
  ⟨rfl, rfl⟩

/-- C2: of the five scenario results claimed for `a*|b` (Success on the empty
string, `aaa` and `b`; `Premature` on `bb` and on `ab`), the code delivers the
first four but returns Success on `ab`, where the claim, the spec's scenario
table and the repository's `test_union` all require `Premature`. -/
theorem c2_union_star_concrete_results :
    (compileRegex "a*|b" 32).bind (fun d => testString "" d 8) = some SimRes.ok ∧
    (compileRegex "a*|b" 32).bind (fun d => testString "aaa" d 8) = some SimRes.ok ∧
    (compileRegex "a*|b" 32).bind (fun d => testString "b" d 8) = some SimRes.ok ∧
    (compileRegex "a*|b" 32).bind (fun d => testString "bb" d 8)
      = some (SimRes.err SimError.premature) ∧
    (compileRegex "a*|b" 32).bind (fun d => testString "ab" d 8) = some SimRes.ok :=
  ⟨rfl, rfl, rfl, rfl, rfl⟩

/-- C4 counterexample: in the DFA compiled from the pattern `b`, the state
`{Accepting}` has no transition row and is accepting; with the cursor not at
the end (remaining input `b`), the claim demands the error `NoTransitions`,
but the simulation returns `Premature` (the loop exits successfully and the
final remaining-input check fires). -/
theorem c4_counterexample :
    (compileRegex "b" 32).map (fun d =>
      (alookup d.transitions accB, accB.accepting, simLoop d 8 accB ['b'])) =
    some (none, true, some (SimRes.err SimError.premature)) :=
  rfl

/-- C4 (amended): at a state with no transition row the simulator returns
Success iff the state is accepting and the cursor is at the end; if the state
is not accepting it fails with `NoTransitions`; if it is accepting but input
remains, the run returns `Premature` instead of `NoTransitions`. -/
theorem c4_no_row_behaviour (d : Dfa) (cur : DfaState) (input : List Char)
    (fuel : Nat) (h : alookup d.transitions cur = none) :
    simLoop d (fuel + 1) cur input =
      some (if cur.accepting then
              (if input.isEmpty then SimRes.ok else SimRes.err SimError.premature)
            else SimRes.err SimError.noTransitions) := by
  simp only [simLoop, h]
  by_cases ha : cur.accepting <;> simp [ha, finishRes]

/-- C4 witness: the amended theorem applied to the empty-pattern DFA at its
(non-accepting, row-less) start state on a one-character input. -/
theorem c4_no_row_behaviour_witness :
    simLoop dEmpty 1 dEmpty.start_state ['x']
      = some (SimRes.err SimError.noTransitions) := by
  have h := c4_no_row_behaviour dEmpty dEmpty.start_state ['x'] 0 rfl
  simpa [dEmpty] using h

/-- C5 counterexample: compiling `(ab)+`, the parser builds the group NFA
`gAB` (content of fresh id 0), and the `Plus` branch of `add_modifier`
concatenates `gAB` with the starred clone `(addStar gAB 1).1` — two NFAs being
composed that share the fresh id 0, contradicting the claim that no two
composed NFAs share a fresh id. -/
theorem c5_counterexample :
    lex "(ab)+" = some [ParseElement.group
      [ParseElement.literal 'a', ParseElement.literal 'b'], ParseElement.plus] ∧
    parse [ParseElement.literal 'a', ParseElement.literal 'b'] 8 0 = some (gAB, 1) ∧
    addModifier gAB (some Modifier.plus) 1
      = concat gAB (addStar gAB 1).1 (addStar gAB 1).2 ∧
    sharesFreshId gAB (addStar gAB 1).1 = true :=
  ⟨rfl, rfl, rfl, rfl⟩

/-- C5 (amended): fresh ids minted by the counter are unique and never reused
(each mint returns the current counter value and strictly increments it), but
the NFAs composed by the `Plus` (likewise `Range` and backreference) branches
are clones of existing NFAs and therefore share the original's fresh ids, as
the group `(ab)` composed with its starred clone shows. -/
theorem c5_fresh_ids_amended :
    (∀ c : Nat, stateNew c = (NfaState.s c, c + 1)) ∧
    (∀ c₁ c₂ : Nat, c₁ ≠ c₂ → (stateNew c₁).1 ≠ (stateNew c₂).1) ∧
    sharesFreshId gAB (addStar gAB 1).1 = true := by
  refine ⟨fun c => rfl, fun c₁ c₂ h => ?_, rfl⟩
  simpa [stateNew] using h

/-- C5 witness: distinct counter values mint distinct fresh ids. -/
theorem c5_fresh_ids_amended_witness :
    (stateNew 0).1 ≠ (stateNew 1).1 ∧ sharesFreshId gAB (addStar gAB 1).1 = true :=
  ⟨c5_fresh_ids_amended.2.1 0 1 (by decide), c5_fresh_ids_amended.2.2⟩

/-- C6 counterexample: renaming `q0` to `q1` in a table holding rows at both
keys. The claim demands the rows be merged per label (the result row at `q1`
containing both the `a` and the `b` transition); the code instead replaces the
pre-existing row at `q1`, so the `b` transition is discarded. -/
theorem c6_counterexample :
    alookup tRen q1 = some [(Transition.literal 'b', q3)] ∧
    dfaRename tRen q0 q1 = [(q1, [(Transition.literal 'a', q2)])] :=
  ⟨rfl, rfl⟩

/-- C6 (amended): `rename(old, new)` re-keys the row at `old` to `new`,
*discarding* (not merging) any pre-existing row at `new`, and rewrites every
target occurrence of `old` to `new`; rows at other keys only have their
targets rewritten. In the minimizer's collapse the obsolete state's row
consequently overwrites the merged state's row. -/
theorem c6_rename_replaces (t : DfaTable) (oldS newS : DfaState) (r : DfaRow)
    (hne : oldS ≠ newS) (h : alookup t oldS = some r) :
    alookup (dfaRename t oldS newS) newS = some (substTargets oldS newS r) ∧
    alookup (dfaRename t oldS newS) oldS = none ∧
    (∀ k, k ≠ oldS → k ≠ newS →
      alookup (dfaRename t oldS newS) k
        = (alookup t k).map (substTargets oldS newS)) := by
  unfold dfaRename
  rw [h]
  refine ⟨?_, ?_, ?_⟩
  · rw [alookup_map_snd (substTargets oldS newS)]
    rw [alookup_ainsert_self]
    rfl
  · rw [alookup_map_snd (substTargets oldS newS)]
    rw [alookup_ainsert_ne _ _ hne, alookup_aremove_self]
    rfl
  · intro k hko hkn
    rw [alookup_map_snd (substTargets oldS newS)]
    rw [alookup_ainsert_ne _ _ hkn, alookup_aremove_ne _ hko]

/-- C6 witness: the amended theorem applied to the concrete table `tRen`. -/
theorem c6_rename_replaces_witness :
    alookup (dfaRename tRen q0 q1) q1
      = some (substTargets q0 q1 [(Transition.literal 'a', q2)]) ∧
    alookup (dfaRename tRen q0 q1) q0 = none :=
  ⟨(c6_rename_replaces tRen q0 q1 [(Transition.literal 'a', q2)] (by decide) rfl).1,
   (c6_rename_replaces tRen q0 q1 [(Transition.literal 'a', q2)] (by decide) rfl).2.1⟩

/-- C7: in the folded move map of any DFA state processed by `Dfa::from_nfa`,
if a `Wildcard` entry with targets `W` is present, then every entry at a
different label contains all of `W`, and hence the epsilon closure installed
as that label's DFA target contains every wildcard target. -/
theorem c7_wildcard_folding (n : Nfa) (internal : List NfaState)
    (W ends : List NfaState) (l : Transition)
    (hW : alookup (foldWildcard (possibleMoves n internal)) Transition.wildcard
      = some W)
    (hl : l ≠ Transition.wildcard)
    (hE : alookup (foldWildcard (possibleMoves n internal)) l = some ends) :
    (∀ st ∈ W, st ∈ ends) ∧ (∀ st ∈ W, st ∈ epsClosure n ends) := by
  rw [alookup_foldWildcard_wildcard] at hW
  rw [alookup_foldWildcard_ne _ hl hW] at hE
  cases he0 : alookup (possibleMoves n internal) l with
  | none => rw [he0] at hE; cases hE
  | some e0 =>
    rw [he0] at hE
    simp only [Option.map_some', Option.some.injEq] at hE
    constructor
    · intro st hst
      rw [← hE]
      exact List.mem_append_right e0 hst
    · intro st hst
      exact mem_epsClosure_of_mem (by rw [← hE]; exact List.mem_append_right e0 hst)

/-- C7 witness: the folding theorem applied to `wcNfa`'s start state, whose
`a`-labelled move list `[s1, s0]` absorbs the wildcard target `s0`. -/
theorem c7_wildcard_folding_witness :
    (∀ st ∈ ([NfaState.s 0] : List NfaState),
      st ∈ ([NfaState.s 1, NfaState.s 0] : List NfaState)) ∧
    (∀ st ∈ ([NfaState.s 0] : List NfaState),
      st ∈ epsClosure wcNfa [NfaState.s 1, NfaState.s 0]) :=
  c7_wildcard_folding wcNfa [NfaState.start] [NfaState.s 0]
    [NfaState.s 1, NfaState.s 0] (Transition.literal 'a') rfl (by decide) rfl

/-- C8: no DFA produced by `Dfa::from_nfa` carries an `Epsilon`-labelled
transition anywhere (in particular not reachable from the start state), and
this persists through `Dfa::minimize`, which only renames states. -/
theorem c8_no_epsilon_transitions (n : Nfa) (fuel : Nat) (d : Dfa)
    (h : fromNfa n fuel = some d) :
    (∀ kv ∈ d.transitions, ∀ tr ∈ kv.2, tr.1 ≠ Transition.epsilon) ∧
    (∀ fuel' d', minimizeD d fuel' = some d' →
      ∀ kv ∈ d'.transitions, ∀ tr ∈ kv.2, tr.1 ≠ Transition.epsilon) :=
  ⟨fromNfa_epsFree h,
   fun _ _ hm => minimizeD_epsFree (fromNfa_epsFree h) hm⟩

/-- C8 witness: the theorem applied to the `a*` NFA and its subset DFA. -/
theorem c8_no_epsilon_transitions_witness :
    (∀ kv ∈ dStarA.transitions, ∀ tr ∈ kv.2, tr.1 ≠ Transition.epsilon) ∧
    (∀ fuel' d', minimizeD dStarA fuel' = some d' →
      ∀ kv ∈ d'.transitions, ∀ tr ∈ kv.2, tr.1 ≠ Transition.epsilon) :=
  c8_no_epsilon_transitions nStarA 8 dStarA rfl

/-- C9: for every DFA produced by the compilation pipeline (subset
construction, optionally followed by minimization) and every finite input,
the simulator's step loop terminates: since the DFA is epsilon-free, every
iteration either consumes a character or exits, so fuel `|input| + 1` always
yields a result. -/
theorem c9_simulate_terminates (n : Nfa) (f f' : Nat) (d d' : Dfa)
    (h1 : fromNfa n f = some d) (h2 : minimizeD d f' = some d')
    (input : List Char) :
    (simLoop d (input.length + 1) d.start_state input).isSome ∧
    (simLoop d' (input.length + 1) d'.start_state input).isSome :=
  ⟨simLoop_isSome (fromNfa_epsFree h1) input _,
   simLoop_isSome (minimizeD_epsFree (fromNfa_epsFree h1) h2) input _⟩

/-- C9 witness: termination on the `a*` DFA (before and after minimization)
for the input `ab`. -/
theorem c9_simulate_terminates_witness :
    (simLoop dStarA (['a', 'b'].length + 1) dStarA.start_state ['a', 'b']).isSome ∧
    (simLoop dStarAMin (['a', 'b'].length + 1) dStarAMin.start_state
      ['a', 'b']).isSome :=
  c9_simulate_terminates nStarA 8 8 dStarA dStarAMin rfl rfl ['a', 'b']

/-- C10: the empty token sequence parses to the empty NFA; its DFA has the
single non-accepting state `{Start}` and no transition rows; minimization
leaves it unchanged; and simulating it returns the error `NoTransitions` on
every input, including the empty string. -/
theorem c10_empty_pattern_no_transitions :
    lex "" = some [] ∧
    (∀ (f c : Nat), parseLoop (f + 1) [] emptyNfa [] [] c = some (emptyNfa, c)) ∧
    fromNfa emptyNfa 2 = some dEmpty ∧
    dEmpty.transitions = [] ∧
    dEmpty.start_state = { internal := [NfaState.start], accepting := false } ∧
    minimizeD dEmpty 4 = some dEmpty ∧
    (∀ (input : List Char) (f : Nat),
      simLoop dEmpty (f + 1) dEmpty.start_state input
        = some (SimRes.err SimError.noTransitions)) :=
  ⟨rfl, fun _ _ => rfl, rfl, rfl, rfl, rfl, fun _ _ => rfl⟩

/-! ## The minimization-correctness development: proofs -/

theorem IsSLO.asymm {α : Type _} [DecidableEq α] {lt : α → α → Bool}
    (h : IsSLO lt) {a b : α} (hab : lt a b = true) : lt b a = false := by
  cases hb : lt b a with
  | false => rfl
  | true =>
    have := h.trans a b a hab hb
    rw [h.irrefl a] at this
    cases this

theorem IsSLO.ne_of_lt {α : Type _} [DecidableEq α] {lt : α → α → Bool}
    (h : IsSLO lt) {a b : α} (hab : lt a b = true) : a ≠ b := by
  intro e
  subst e
  rw [h.irrefl a] at hab
  cases hab

theorem ltState_slo : IsSLO ltState := by
  constructor
  · intro a
    cases a <;> simp [ltState]
  · intro a b c hab hbc
    cases a <;> cases b <;> cases c <;> simp_all [ltState] <;> omega
  · intro a b
    cases a <;> cases b <;> simp [ltState] <;> omega

theorem schain_cons {α : Type _} {lt : α → α → Bool} {a : α} {l : List α}
    (h : SChain lt (a :: l)) : SChain lt l := by
  cases l with
  | nil => trivial
  | cons b t => exact h.2

theorem schain_head_lt {α : Type _} [DecidableEq α] {lt : α → α → Bool}
    (hslo : IsSLO lt) {a : α} {l : List α} (h : SChain lt (a :: l)) :
    ∀ b ∈ l, lt a b = true := by
  induction l generalizing a with
  | nil => simp
  | cons c t ih =>
    intro b hb
    rcases List.mem_cons.mp hb with hb | hb
    · subst hb
      exact h.1
    · exact hslo.trans _ _ _ h.1 (ih h.2 b hb)

theorem schain_cons_of_forall {α : Type _} {lt : α → α → Bool} {b : α}
    {l : List α} (h : SChain lt l) (hb : ∀ x ∈ l, lt b x = true) :
    SChain lt (b :: l) := by
  cases l with
  | nil => trivial
  | cons c u => exact ⟨hb c (List.mem_cons_self c u), h⟩

theorem mem_sIns_iff {α : Type _} [DecidableEq α] {lt : α → α → Bool}
    {a b : α} {l : List α} : b ∈ sIns lt a l ↔ b = a ∨ b ∈ l := by
  induction l with
  | nil => simp [sIns]
  | cons c t ih =>
    by_cases h1 : lt a c = true
    · simp [sIns, h1]
    · by_cases h2 : a = c
      · subst h2
        simp [sIns, h1]
      · simp [sIns, h1, h2, ih]
        tauto

theorem sIns_schain {α : Type _} [DecidableEq α] {lt : α → α → Bool}
    (hslo : IsSLO lt) (a : α) {l : List α} (h : SChain lt l) :
    SChain lt (sIns lt a l) := by
  induction l with
  | nil => trivial
  | cons b t ih =>
    by_cases h1 : lt a b = true
    · simp only [sIns, h1, if_true]
      exact ⟨h1, h⟩
    · by_cases h2 : a = b
      · subst h2
        simpa [sIns, hslo.irrefl] using h
      · have hba : lt b a = true :=
          ((hslo.total a b).resolve_left (by simpa using h1)).resolve_left h2
        simp only [sIns, h1, h2, if_false]
        refine schain_cons_of_forall (ih (schain_cons h)) ?_
        intro x hx
        rcases mem_sIns_iff.mp hx with hx | hx
        · subst hx
          exact hba
        · exact schain_head_lt hslo h x hx

/-- Two strictly-sorted lists with the same members are equal. -/
theorem schain_ext {α : Type _} [DecidableEq α] {lt : α → α → Bool}
    (hslo : IsSLO lt) :
    ∀ {l₁ l₂ : List α}, SChain lt l₁ → SChain lt l₂ →
      (∀ x, x ∈ l₁ ↔ x ∈ l₂) → l₁ = l₂ := by
  intro l₁
  induction l₁ with
  | nil =>
    intro l₂ _ _ hm
    cases l₂ with
    | nil => rfl
    | cons b t => simpa using (hm b).mpr (List.mem_cons_self b t)
  | cons a t₁ ih =>
    intro l₂ h₁ h₂ hm
    cases l₂ with
    | nil => simpa using (hm a).mp (List.mem_cons_self a t₁)
    | cons b t₂ =>
      have hab : a = b := by
        rcases hslo.total a b with h | h | h
        · exfalso
          have hamem : a ∈ b :: t₂ := (hm a).mp (List.mem_cons_self a t₁)
          rcases List.mem_cons.mp hamem with e | ham
          · exact hslo.ne_of_lt h e
          · have h2a := schain_head_lt hslo h₂ a ham
            have := hslo.asymm h
            rw [h2a] at this
            cases this
        · exact h
        · exfalso
          have hbmem : b ∈ a :: t₁ := (hm b).mpr (List.mem_cons_self b t₂)
          rcases List.mem_cons.mp hbmem with e | hbm
          · exact hslo.ne_of_lt h e
          · have h1b := schain_head_lt hslo h₁ b hbm
            have := hslo.asymm h
            rw [h1b] at this
            cases this
      subst hab
      have htl : t₁ = t₂ := by
        refine ih (schain_cons h₁) (schain_cons h₂) ?_
        intro x
        constructor
        · intro hx
          have hax : lt a x = true := schain_head_lt hslo h₁ x hx
          have : x ∈ a :: t₂ := (hm x).mp (List.mem_cons_of_mem a hx)
          rcases List.mem_cons.mp this with e | h'
          · exact absurd (e ▸ hax) (by simp [hslo.irrefl])
          · exact h'
        · intro hx
          have hax : lt a x = true := schain_head_lt hslo h₂ x hx
          have : x ∈ a :: t₁ := (hm x).mpr (List.mem_cons_of_mem a hx)
          rcases List.mem_cons.mp this with e | h'
          · exact absurd (e ▸ hax) (by simp [hslo.irrefl])
          · exact h'
      rw [htl]

/-- `foldl sIns` builds sorted lists and realizes set union. -/
theorem foldl_sIns_schain {α : Type _} [DecidableEq α] {lt : α → α → Bool}
    (hslo : IsSLO lt) (xs : List α) :
    ∀ acc, SChain lt acc → SChain lt (xs.foldl (fun r x => sIns lt x r) acc) := by
  induction xs with
  | nil => intro acc h; simpa using h
  | cons x t ih =>
    intro acc h
    simp only [List.foldl_cons]
    exact ih _ (sIns_schain hslo x h)

theorem mem_foldl_sIns_iff {α : Type _} [DecidableEq α] (lt : α → α → Bool)
    (xs : List α) :
    ∀ acc b, b ∈ xs.foldl (fun r x => sIns lt x r) acc ↔ b ∈ acc ∨ b ∈ xs := by
  induction xs with
  | nil => simp
  | cons x t ih =>
    intro acc b
    simp only [List.foldl_cons, ih, mem_sIns_iff]
    simp
    tauto

theorem ltList_slo {α : Type _} [DecidableEq α] {lt : α → α → Bool}
    (h : IsSLO lt) : IsSLO (ltList lt) := by
  constructor
  · intro l
    induction l with
    | nil => simp [ltList]
    | cons a t ih => simp [ltList, h.irrefl, ih]
  · intro l₁
    induction l₁ with
    | nil =>
      intro l₂ l₃ h12 h23
      cases l₂ with
      | nil => simp [ltList] at h12
      | cons b t₂ =>
        cases l₃ with
        | nil => simp [ltList] at h23
        | cons c t₃ => simp [ltList]
    | cons a t₁ ih =>
      intro l₂ l₃ h12 h23
      cases l₂ with
      | nil => simp [ltList] at h12
      | cons b t₂ =>
        cases l₃ with
        | nil => simp [ltList] at h23
        | cons c t₃ =>
          simp only [ltList] at h12 h23 ⊢
          by_cases hab : lt a b = true
          · by_cases hbc : lt b c = true
            · simp [h.trans a b c hab hbc]
            · simp only [hbc, if_false] at h23
              by_cases hbceq : b = c
              · subst hbceq
                simp [hab]
              · simp [hbceq] at h23
          · simp only [hab, if_false] at h12
            by_cases habeq : a = b
            · subst habeq
              simp only [if_pos rfl] at h12
              by_cases hac : lt a c = true
              · simp [hac]
              · simp only [hac, if_false] at h23 ⊢
                by_cases hace : a = c
                · simp only [hace, if_pos rfl] at h23 ⊢
                  exact ih t₂ t₃ h12 h23
                · simp [hace] at h23
            · simp [habeq] at h12
  · intro l₁
    induction l₁ with
    | nil =>
      intro l₂
      cases l₂ with
      | nil => simp
      | cons b t₂ => simp [ltList]
    | cons a t₁ ih =>
      intro l₂
      cases l₂ with
      | nil => simp [ltList]
      | cons b t₂ =>
        rcases h.total a b with hab | hab | hab
        · left
          simp [ltList, hab]
        · subst hab
          rcases ih t₂ with ht | ht | ht
          · left
            simp [ltList, ht]
          · subst ht
            right; left; rfl
          · right; right
            simp [ltList, ht]
        · right; right
          simp [ltList, hab]

theorem ltDfa_slo : IsSLO ltDfa := by
  have hL := ltList_slo ltState_slo
  constructor
  · intro a
    simp [ltDfa, hL.irrefl]
  · intro a b c hab hbc
    obtain ⟨ia, aa⟩ := a
    obtain ⟨ib, ab2⟩ := b
    obtain ⟨ic, ac2⟩ := c
    simp only [ltDfa] at hab hbc ⊢
    by_cases h1 : ltList ltState ia ib = true
    · by_cases h2 : ltList ltState ib ic = true
      · simp [hL.trans _ _ _ h1 h2]
      · simp only [h2, if_false] at hbc
        by_cases h2e : ib = ic
        · subst h2e
          simp [h1]
        · simp [h2e] at hbc
    · simp only [h1, if_false] at hab
      by_cases h1e : ia = ib
      · subst h1e
        simp only [if_pos rfl] at hab
        by_cases h2 : ltList ltState ia ic = true
        · simp [h2]
        · simp only [h2, if_false] at hbc ⊢
          by_cases h2e : ia = ic
          · simp only [h2e, if_pos rfl] at hbc ⊢
            subst h2e
            cases aa <;> cases ab2 <;> cases ac2 <;> simp_all
          · simp [h2e] at hbc
      · simp [h1e] at hab
  · intro a b
    obtain ⟨ia, aa⟩ := a
    obtain ⟨ib, ab2⟩ := b
    rcases hL.total ia ib with h | h | h
    · left
      simp [ltDfa, h]
    · subst h
      cases aa <;> cases ab2
      · right; left; rfl
      · left
        simp [ltDfa, hL.irrefl]
      · right; right
        simp [ltDfa, hL.irrefl]
      · right; left; rfl
    · right; right
      simp [ltDfa, h]

theorem epsReach_mono {n : Nfa} {s₁ s₂ : List NfaState}
    (h : ∀ x ∈ s₁, x ∈ s₂) {t : NfaState} (ht : EpsReach n s₁ t) :
    EpsReach n s₂ t := by
  induction ht with
  | base hb => exact .base (h _ hb)
  | step _ he ih => exact .step ih he

theorem epsEdge_targets_mem {n : Nfa} {s t : NfaState} (h : epsEdge n s t) :
    t ∈ allTargets n := by
  obtain ⟨row, lst, hrow, heps, ht⟩ := h
  simp only [allTargets, List.mem_flatMap]
  exact ⟨(s, row), alookup_mem hrow, (Transition.epsilon, lst), alookup_mem heps, ht⟩

/-- Soundness: everything the worklist collects is epsilon-reachable. -/
theorem epsClosureGo_sound (n : Nfa) (seeds : List NfaState) :
    ∀ (fuel : Nat) (ret stack : List NfaState),
      (∀ x ∈ ret, EpsReach n seeds x) → (∀ x ∈ stack, EpsReach n seeds x) →
      ∀ x ∈ epsClosureGo n fuel ret stack, EpsReach n seeds x := by
  intro fuel
  induction fuel with
  | zero =>
    intro ret stack hret _ x hx
    exact hret x (by simpa [epsClosureGo] using hx)
  | succ f ih =>
    intro ret stack hret hstack x hx
    match stack with
    | [] => exact hret x (by simpa [epsClosureGo] using hx)
    | t :: rest =>
      simp only [epsClosureGo] at hx
      have hreach_t : EpsReach n seeds t := hstack t (List.mem_cons_self t rest)
      have hrest : ∀ y ∈ rest, EpsReach n seeds y :=
        fun y hy => hstack y (List.mem_cons_of_mem t hy)
      revert hx
      split
      · next row hrow =>
        split
        · next eps heps =>
          intro hx
          have hedge : ∀ e ∈ eps, EpsReach n seeds e := by
            intro e he
            exact .step hreach_t ⟨row, eps, hrow, heps, he⟩
          have hfold := foldl_preserves
            (P := fun pr : List NfaState × List NfaState =>
              (∀ y ∈ pr.1, EpsReach n seeds y) ∧ (∀ y ∈ pr.2, EpsReach n seeds y))
            (fun pr e => if e ∈ pr.1 then pr else (sIns ltState e pr.1, e :: pr.2)) eps
            (fun acc e he hacc => by
              by_cases hin : e ∈ acc.1
              · simpa [hin] using hacc
              · simp only [hin, if_false]
                refine ⟨fun y hy => ?_, fun y hy => ?_⟩
                · rcases mem_sIns_iff.mp hy with hy | hy
                  · exact hy ▸ hedge e he
                  · exact hacc.1 y hy
                · rcases List.mem_cons.mp hy with hy | hy
                  · exact hy ▸ hedge e he
                  · exact hacc.2 y hy)
            (ret, rest) ⟨hret, hrest⟩
          exact ih _ _ hfold.1 hfold.2 x hx
        · intro hx
          exact ih _ _ hret hrest x hx
      · intro hx
        exact ih _ _ hret hrest x hx

theorem wlStep_mono {pr : List NfaState × List NfaState} {e y : NfaState}
    (h : y ∈ pr.1) : y ∈ (wlStep pr e).1 := by
  unfold wlStep
  split
  · exact h
  · exact mem_sIns_iff.mpr (Or.inr h)

theorem foldl_wlStep_mono (eps : List NfaState) :
    ∀ (acc : List NfaState × List NfaState) (y : NfaState), y ∈ acc.1 →
      y ∈ (eps.foldl wlStep acc).1 :=
  fun acc y h =>
    foldl_preserves (P := fun pr => y ∈ pr.1) wlStep eps
      (fun _ _ _ hy => wlStep_mono hy) acc h

theorem foldl_wlStep_mem (eps : List NfaState) :
    ∀ (acc : List NfaState × List NfaState) (e : NfaState), e ∈ eps →
      e ∈ (eps.foldl wlStep acc).1 := by
  induction eps with
  | nil => simp
  | cons e' t ih =>
    intro acc e he
    rcases List.mem_cons.mp he with he | he
    · subst he
      simp only [List.foldl_cons]
      refine foldl_wlStep_mono t _ e ?_
      unfold wlStep
      split
      · assumption
      · exact mem_sIns_iff.mpr (Or.inl rfl)
    · simp only [List.foldl_cons]
      exact ih _ e he

/-- The combined bookkeeping facts about one pass of pushes. -/
theorem foldl_wlStep_facts (T : List NfaState) (eps : List NfaState)
    (heT : ∀ e ∈ eps, e ∈ T) (ret rest : List NfaState)
    (hrr : ∀ y ∈ rest, y ∈ ret) :
    let rs := eps.foldl wlStep (ret, rest)
    (∀ y ∈ ret, y ∈ rs.1) ∧
    (∀ y ∈ rs.2, y ∈ rs.1) ∧
    (∀ y ∈ rest, y ∈ rs.2) ∧
    (∀ y ∈ rs.1, y ∈ ret ∨ y ∈ rs.2) ∧
    rs.2.length + (T.toFinset \ rs.1.toFinset).card
      ≤ rest.length + (T.toFinset \ ret.toFinset).card := by
  intro rs
  have key := foldl_preserves
    (P := fun pr : List NfaState × List NfaState =>
      (∀ y ∈ ret, y ∈ pr.1) ∧
      (∀ y ∈ pr.2, y ∈ pr.1) ∧
      (∀ y ∈ rest, y ∈ pr.2) ∧
      (∀ y ∈ pr.1, y ∈ ret ∨ y ∈ pr.2) ∧
      pr.2.length + (T.toFinset \ pr.1.toFinset).card
        ≤ rest.length + (T.toFinset \ ret.toFinset).card)
    wlStep eps
    (fun acc e he hacc => by
      unfold wlStep
      split
      · exact hacc
      · next hin =>
        obtain ⟨h1, h2, h3, h4, h5⟩ := hacc
        refine ⟨?_, ?_, ?_, ?_, ?_⟩
        · exact fun y hy => mem_sIns_iff.mpr (Or.inr (h1 y hy))
        · intro y hy
          rcases List.mem_cons.mp hy with hy | hy
          · exact hy ▸ mem_sIns_iff.mpr (Or.inl rfl)
          · exact mem_sIns_iff.mpr (Or.inr (h2 y hy))
        · exact fun y hy => List.mem_cons_of_mem e (h3 y hy)
        · intro y hy
          rcases mem_sIns_iff.mp hy with hy | hy
          · exact Or.inr (hy ▸ List.mem_cons_self e acc.2)
          · rcases h4 y hy with hy' | hy'
            · exact Or.inl hy'
            · exact Or.inr (List.mem_cons_of_mem e hy')
        · have hfs : (sIns ltState e acc.1).toFinset = insert e acc.1.toFinset := by
            ext z
            simp [mem_sIns_iff]
          have heTf : e ∈ T.toFinset \ acc.1.toFinset := by
            simp only [Finset.mem_sdiff, List.mem_toFinset]
            exact ⟨heT e he, hin⟩
          have hdiff : T.toFinset \ (insert e acc.1.toFinset)
              = (T.toFinset \ acc.1.toFinset).erase e := by
            ext z
            simp only [Finset.mem_sdiff, Finset.mem_insert, Finset.mem_erase]
            tauto
          have hcard : (T.toFinset \ (sIns ltState e acc.1).toFinset).card
              = (T.toFinset \ acc.1.toFinset).card - 1 := by
            rw [hfs, hdiff, Finset.card_erase_of_mem heTf]
          have hpos : 1 ≤ (T.toFinset \ acc.1.toFinset).card :=
            Finset.card_pos.mpr ⟨e, heTf⟩
          simp only [List.length_cons, hcard]
          omega)
    (ret, rest)
    ⟨fun _ h => h, fun y hy => hrr y hy, fun _ h => h,
     fun y hy => Or.inl hy, le_refl _⟩
  exact key

/-- Completeness of the worklist: given the processed-prefix closure
invariant, stack coverage, and sufficient fuel, the result is epsilon
closed. -/
theorem epsClosureGo_closed (n : Nfa) :
    ∀ (fuel : Nat) (ret stack : List NfaState),
      (∀ x ∈ stack, x ∈ ret) →
      (∀ x ∈ ret, x ∉ stack → ∀ t, epsEdge n x t → t ∈ ret) →
      stack.length + ((allTargets n).toFinset \ ret.toFinset).card ≤ fuel →
      EpsClosed n (epsClosureGo n fuel ret stack) := by
  intro fuel
  induction fuel with
  | zero =>
    intro ret stack hcov hcl hfuel
    have hstack : stack = [] := by
      cases stack with
      | nil => rfl
      | cons a t => simp at hfuel
    subst hstack
    simpa [epsClosureGo, EpsClosed] using fun x hx t ht => hcl x hx (by simp) t ht
  | succ f ih =>
    intro ret stack hcov hcl hfuel
    match stack with
    | [] =>
      simpa [epsClosureGo, EpsClosed] using fun x hx t ht => hcl x hx (by simp) t ht
    | t :: rest =>
      simp only [epsClosureGo]
      split
      · next row hrow =>
        split
        · next eps heps =>
          have heT : ∀ e ∈ eps, e ∈ allTargets n := by
            intro e he
            exact epsEdge_targets_mem (t := e) ⟨row, eps, hrow, heps, he⟩
          have hfacts := foldl_wlStep_facts (allTargets n) eps heT ret rest
            (fun y hy => hcov y (List.mem_cons_of_mem t hy))
          obtain ⟨f1, f2, f3, f4, f5⟩ := hfacts
          have hrs : (eps.foldl (fun pr e =>
              if e ∈ pr.1 then pr else (sIns ltState e pr.1, e :: pr.2)) (ret, rest))
              = eps.foldl wlStep (ret, rest) := rfl
          rw [hrs]
          refine ih _ _ f2 ?_ ?_
          · intro x hx hxs t' ht'
            rcases f4 x hx with hxr | hxr
            · by_cases hxt : x = t
              · subst hxt
                obtain ⟨row', lst', hrow', heps', hmem'⟩ := ht'
                rw [hrow] at hrow'
                cases hrow'
                rw [heps] at heps'
                cases heps'
                exact foldl_wlStep_mem eps _ t' hmem'
              · by_cases hxrest : x ∈ rest
                · exact absurd (f3 x hxrest) hxs
                · have : x ∉ t :: rest := by
                    simp [hxt, hxrest]
                  exact f1 t' (hcl x hxr this t' ht')
            · exact absurd hxr hxs
          · calc (eps.foldl wlStep (ret, rest)).2.length
                + ((allTargets n).toFinset \ (eps.foldl wlStep (ret, rest)).1.toFinset).card
                ≤ rest.length + ((allTargets n).toFinset \ ret.toFinset).card := f5
              _ ≤ f := by
                  simp only [List.length_cons] at hfuel
                  omega
        · next heps =>
          refine ih _ _ (fun x hx => hcov x (List.mem_cons_of_mem t hx)) ?_ ?_
          · intro x hx hxs t' ht'
            by_cases hxt : x = t
            · subst hxt
              obtain ⟨row', lst', hrow', heps', hmem'⟩ := ht'
              rw [hrow] at hrow'
              cases hrow'
              rw [heps] at heps'
              cases heps'
            · exact hcl x hx (by simp [hxt, hxs]) t' ht'
          · simp only [List.length_cons] at hfuel
            omega
      · next hrow =>
        refine ih _ _ (fun x hx => hcov x (List.mem_cons_of_mem t hx)) ?_ ?_
        · intro x hx hxs t' ht'
          by_cases hxt : x = t
          · subst hxt
            obtain ⟨row', lst', hrow', _, _⟩ := ht'
            rw [hrow] at hrow'
            cases hrow'
          · exact hcl x hx (by simp [hxt, hxs]) t' ht'
        · simp only [List.length_cons] at hfuel
          omega

/-- The computed epsilon closure is epsilon closed. -/
theorem epsClosure_closed (n : Nfa) (seeds : List NfaState) :
    EpsClosed n (epsClosure n seeds) := by
  unfold epsClosure
  refine epsClosureGo_closed n _ _ _ ?_ ?_ ?_
  · intro x hx
    rw [mem_foldl_sIns_iff]
    exact Or.inr (List.mem_reverse.mp hx)
  · intro x hx hxs
    exfalso
    rcases (mem_foldl_sIns_iff ltState seeds [] x).mp hx with h | h
    · simp at h
    · exact hxs (List.mem_reverse.mpr h)
  · have h1 : seeds.reverse.length = seeds.length := List.length_reverse seeds
    have h2 : ((allTargets n).toFinset \
        (seeds.foldl (fun r st => sIns ltState st r) []).toFinset).card
        ≤ countTargets n := by
      calc ((allTargets n).toFinset \ _).card
          ≤ (allTargets n).toFinset.card := Finset.card_le_card (Finset.sdiff_subset)
        _ ≤ (allTargets n).length := (allTargets n).toFinset_card_le
        _ = countTargets n := rfl
    omega

/-- The epsilon closure computes exactly epsilon reachability. -/
theorem epsClosure_spec (n : Nfa) (seeds : List NfaState) (st : NfaState) :
    st ∈ epsClosure n seeds ↔ EpsReach n seeds st := by
  constructor
  · intro h
    refine epsClosureGo_sound n seeds _ _ _ ?_ ?_ st h
    · intro x hx
      rcases (mem_foldl_sIns_iff ltState seeds [] x).mp hx with h' | h'
      · simp at h'
      · exact .base h'
    · intro x hx
      exact .base (List.mem_reverse.mp hx)
  · intro h
    induction h with
    | base hb => exact mem_epsClosure_of_mem hb
    | step _ he ih => exact epsClosure_closed n seeds _ ih _ he

/-- The closure worklist keeps the accumulating set strictly sorted. -/
theorem epsClosureGo_schain (n : Nfa) :
    ∀ (fuel : Nat) (ret stack : List NfaState), SChain ltState ret →
      SChain ltState (epsClosureGo n fuel ret stack) := by
  intro fuel
  induction fuel with
  | zero => intro ret stack h; simpa [epsClosureGo] using h
  | succ f ih =>
    intro ret stack h
    match stack with
    | [] => simpa [epsClosureGo] using h
    | t :: rest =>
      simp only [epsClosureGo]
      split
      · split
        · refine ih _ _ ?_
          exact (foldl_preserves
            (P := fun pr : List NfaState × List NfaState => SChain ltState pr.1)
            _ _ (fun acc e _ hacc => by
              by_cases hin : e ∈ acc.1
              · simpa [hin] using hacc
              · simpa [hin] using sIns_schain ltState_slo e hacc) (ret, rest) h)
        · exact ih _ _ h
      · exact ih _ _ h

/-- The epsilon closure is a strictly sorted (hence canonical) list. -/
theorem epsClosure_schain (n : Nfa) (seeds : List NfaState) :
    SChain ltState (epsClosure n seeds) := by
  unfold epsClosure
  exact epsClosureGo_schain n _ _ _
    (foldl_sIns_schain ltState_slo seeds [] trivial)

/-- The epsilon closure depends only on the set of seeds. -/
theorem epsClosure_congr {n : Nfa} {s₁ s₂ : List NfaState}
    (h : ∀ x, x ∈ s₁ ↔ x ∈ s₂) : epsClosure n s₁ = epsClosure n s₂ := by
  refine schain_ext ltState_slo (epsClosure_schain n s₁) (epsClosure_schain n s₂) ?_
  intro x
  rw [epsClosure_spec, epsClosure_spec]
  constructor
  · exact epsReach_mono (fun y hy => (h y).mp hy)
  · exact epsReach_mono (fun y hy => (h y).mpr hy)

theorem epsReach_append {n : Nfa} {l₁ l₂ : List NfaState} {st : NfaState} :
    EpsReach n (l₁ ++ l₂) st ↔ EpsReach n l₁ st ∨ EpsReach n l₂ st := by
  constructor
  · intro h
    induction h with
    | base hb =>
      rcases List.mem_append.mp hb with hb | hb
      · exact Or.inl (.base hb)
      · exact Or.inr (.base hb)
    | step _ he ih =>
      rcases ih with ih | ih
      · exact Or.inl (.step ih he)
      · exact Or.inr (.step ih he)
  · intro h
    rcases h with h | h
    · exact epsReach_mono (fun y hy => List.mem_append_left l₂ hy) h
    · exact epsReach_mono (fun y hy => List.mem_append_right l₁ hy) h

/-- Membership in the closure of an appended seed list. -/
theorem epsClosure_append (n : Nfa) (l₁ l₂ : List NfaState) (st : NfaState) :
    st ∈ epsClosure n (l₁ ++ l₂) ↔
      st ∈ epsClosure n l₁ ∨ st ∈ epsClosure n l₂ := by
  rw [epsClosure_spec, epsClosure_spec, epsClosure_spec]
  exact epsReach_append

theorem alookup_none_iff [DecidableEq κ] {β : Type _} (l : List (κ × β)) (k : κ) :
    alookup l k = none ↔ ∀ v, (k, v) ∉ l := by
  induction l with
  | nil => simp [alookup]
  | cons hd tl ih =>
    obtain ⟨a, b⟩ := hd
    by_cases h : a = k
    · subst h
      simp only [alookup, if_pos rfl]
      constructor
      · intro h'
        cases h'
      · intro hv
        exact absurd (List.mem_cons_self _ _) (hv b)
    · simp only [alookup, h, if_false, ih]
      constructor
      · intro hv v hm
        rcases List.mem_cons.mp hm with e | hm
        · exact h (by cases e; rfl)
        · exact hv v hm
      · intro hv v hm
        exact hv v (List.mem_cons_of_mem _ hm)

theorem mem_keys_ainsert [DecidableEq κ] {β : Type _} {l : List (κ × β)} {k x : κ}
    {v : β} (h : x ∈ (ainsert k v l).map Prod.fst) :
    x = k ∨ x ∈ l.map Prod.fst := by
  rcases List.mem_map.mp h with ⟨p, hp, he⟩
  rcases mem_ainsert hp with h' | h'
  · subst h'
    exact Or.inl he.symm
  · exact Or.inr (he ▸ List.mem_map_of_mem Prod.fst h')

theorem ainsert_keys_nodup [DecidableEq κ] {β : Type _} {l : List (κ × β)} {k : κ}
    {v : β} (h : (l.map Prod.fst).Nodup) : ((ainsert k v l).map Prod.fst).Nodup := by
  induction l with
  | nil => simp [ainsert]
  | cons hd tl ih =>
    obtain ⟨a, b⟩ := hd
    by_cases hh : a = k
    · subst hh
      simpa [ainsert] using h
    · simp only [List.map_cons, List.nodup_cons] at h
      simp only [ainsert, hh, if_false, List.map_cons, List.nodup_cons]
      refine ⟨?_, ih h.2⟩
      intro hmem
      rcases mem_keys_ainsert hmem with e | hm
      · exact hh e
      · exact h.1 hm

theorem alookup_of_mem_nodup [DecidableEq κ] {β : Type _} {l : List (κ × β)}
    (h : (l.map Prod.fst).Nodup) {k : κ} {v : β} (hm : (k, v) ∈ l) :
    alookup l k = some v := by
  induction l with
  | nil => simp at hm
  | cons hd tl ih =>
    obtain ⟨a, b⟩ := hd
    simp only [List.map_cons, List.nodup_cons] at h
    rcases List.mem_cons.mp hm with e | hm'
    · cases e
      simp [alookup]
    · have hak : a ≠ k := by
        intro e
        subst e
        exact h.1 (List.mem_map_of_mem Prod.fst hm')
      simp only [alookup, hak, if_false]
      exact ih h.2 hm'

/-- The internal list of a freshly closed DFA state is strictly sorted. -/
theorem canonClose_internal_schain (n : Nfa) (ts : List NfaState) :
    SChain ltState (canonClose n ts).internal := by
  simp only [canonClose, dfaMerge, dfaStateFrom]
  exact foldl_sIns_schain ltState_slo _ [] trivial

theorem foldl_sIns_of_schain [DecidableEq α] {lt : α → α → Bool}
    (hslo : IsSLO lt) (l : List α) (h : SChain lt l) :
    l.foldl (fun r x => sIns lt x r) [] = l := by
  refine schain_ext hslo (foldl_sIns_schain hslo l [] trivial) h ?_
  intro x
  rw [mem_foldl_sIns_iff]
  simp

/-- Membership in a closed DFA state is membership in the epsilon closure. -/
theorem mem_canonClose_internal (n : Nfa) (ts : List NfaState) (x : NfaState) :
    x ∈ (canonClose n ts).internal ↔ x ∈ epsClosure n ts := by
  simp only [canonClose, dfaMerge, dfaStateFrom]
  rw [mem_foldl_sIns_iff]
  simp

theorem canonClose_internal_eq (n : Nfa) (ts : List NfaState) :
    (canonClose n ts).internal = epsClosure n ts := by
  simp only [canonClose, dfaMerge, dfaStateFrom]
  exact foldl_sIns_of_schain ltState_slo _ (epsClosure_schain n ts)

theorem canonClose_accepting (n : Nfa) (ts : List NfaState) :
    (canonClose n ts).accepting
      = (epsClosure n ts).any (fun st => st = NfaState.accepting) := by
  simp [canonClose, dfaMerge, dfaStateFrom]

/-- `canonClose` only depends on the set of raw targets. -/
theorem canonClose_congr {n : Nfa} {ts ts' : List NfaState}
    (h : ∀ x, x ∈ ts ↔ x ∈ ts') : canonClose n ts = canonClose n ts' := by
  simp [canonClose, epsClosure_congr h]

theorem rowAccum_char (n : Nfa) (row : NfaRow) :
    ∀ (p₀ : List (Transition × List NfaState)) (l : Transition),
      l ≠ Transition.epsilon →
      ((alookup (row.foldl (fun p tr =>
          if tr.1 = Transition.epsilon then p
          else ainsert tr.1 ((alookup p tr.1).getD [] ++ tr.2) p) p₀) l).isSome
        ↔ (alookup p₀ l).isSome ∨ ∃ lst, (l, lst) ∈ row)
      ∧ (∀ x, x ∈ (alookup (row.foldl (fun p tr =>
          if tr.1 = Transition.epsilon then p
          else ainsert tr.1 ((alookup p tr.1).getD [] ++ tr.2) p) p₀) l).getD []
        ↔ x ∈ (alookup p₀ l).getD [] ∨ ∃ lst, (l, lst) ∈ row ∧ x ∈ lst) := by
  induction row with
  | nil => simp
  | cons tr rest ih =>
    intro p₀ l hl
    by_cases he : tr.1 = Transition.epsilon
    · simp only [List.foldl_cons, if_pos he]
      rcases ih p₀ l hl with ⟨ih1, ih2⟩
      constructor
      · rw [ih1]
        constructor
        · rintro (h | ⟨lst, hm⟩)
          · exact Or.inl h
          · exact Or.inr ⟨lst, List.mem_cons_of_mem _ hm⟩
        · rintro (h | ⟨lst, hm⟩)
          · exact Or.inl h
          · rcases List.mem_cons.mp hm with e | hm'
            · exact absurd (he ▸ congrArg Prod.fst e) hl
            · exact Or.inr ⟨lst, hm'⟩
      · intro x
        rw [ih2 x]
        constructor
        · rintro (h | ⟨lst, hm, hx⟩)
          · exact Or.inl h
          · exact Or.inr ⟨lst, List.mem_cons_of_mem _ hm, hx⟩
        · rintro (h | ⟨lst, hm, hx⟩)
          · exact Or.inl h
          · rcases List.mem_cons.mp hm with e | hm'
            · exact absurd (he ▸ congrArg Prod.fst e) hl
            · exact Or.inr ⟨lst, hm', hx⟩
    · simp only [List.foldl_cons, if_neg he]
      by_cases hll : tr.1 = l
      · subst hll
        rcases ih (ainsert tr.1 ((alookup p₀ tr.1).getD [] ++ tr.2) p₀) tr.1 hl
          with ⟨ih1, ih2⟩
        rw [alookup_ainsert_self] at ih1 ih2
        constructor
        · rw [ih1]
          constructor
          · intro _
            exact Or.inr ⟨tr.2, by simp⟩
          · intro _
            exact Or.inl (by simp)
        · intro x
          rw [ih2 x]
          simp only [Option.getD_some, List.mem_append]
          constructor
          · rintro ((h | h) | ⟨lst, hm, hx⟩)
            · exact Or.inl h
            · exact Or.inr ⟨tr.2, by simp, h⟩
            · exact Or.inr ⟨lst, List.mem_cons_of_mem _ hm, hx⟩
          · rintro (h | ⟨lst, hm, hx⟩)
            · exact Or.inl (Or.inl h)
            · rcases List.mem_cons.mp hm with e | hm'
              · have h2 : lst = tr.2 := by rw [← e]
                subst h2
                exact Or.inl (Or.inr hx)
              · exact Or.inr ⟨lst, hm', hx⟩
      · rcases ih (ainsert tr.1 ((alookup p₀ tr.1).getD [] ++ tr.2) p₀) l hl
          with ⟨ih1, ih2⟩
        rw [alookup_ainsert_ne _ _ (fun e => hll e.symm)] at ih1 ih2
        constructor
        · rw [ih1]
          constructor
          · rintro (h | ⟨lst, hm⟩)
            · exact Or.inl h
            · exact Or.inr ⟨lst, List.mem_cons_of_mem _ hm⟩
          · rintro (h | ⟨lst, hm⟩)
            · exact Or.inl h
            · rcases List.mem_cons.mp hm with e | hm'
              · exact absurd (congrArg Prod.fst e).symm hll
              · exact Or.inr ⟨lst, hm'⟩
        · intro x
          rw [ih2 x]
          constructor
          · rintro (h | ⟨lst, hm, hx⟩)
            · exact Or.inl h
            · exact Or.inr ⟨lst, List.mem_cons_of_mem _ hm, hx⟩
          · rintro (h | ⟨lst, hm, hx⟩)
            · exact Or.inl h
            · rcases List.mem_cons.mp hm with e | hm'
              · exact absurd (congrArg Prod.fst e).symm hll
              · exact Or.inr ⟨lst, hm', hx⟩

theorem pmAccum_char (n : Nfa) (ints : List NfaState) :
    ∀ (p₀ : List (Transition × List NfaState)) (l : Transition),
      l ≠ Transition.epsilon →
      ((alookup (ints.foldl (fun possible st =>
          match alookup n.transitions st with
          | none => possible
          | some row => row.foldl (fun p tr =>
              if tr.1 = Transition.epsilon then p
              else ainsert tr.1 ((alookup p tr.1).getD [] ++ tr.2) p) possible) p₀) l).isSome
        ↔ (alookup p₀ l).isSome ∨ hasEntryPm n ints l)
      ∧ (∀ x, x ∈ (alookup (ints.foldl (fun possible st =>
          match alookup n.transitions st with
          | none => possible
          | some row => row.foldl (fun p tr =>
              if tr.1 = Transition.epsilon then p
              else ainsert tr.1 ((alookup p tr.1).getD [] ++ tr.2) p) possible) p₀) l).getD []
        ↔ x ∈ (alookup p₀ l).getD [] ∨ rawOut n ints l x) := by
  induction ints with
  | nil => simp [hasEntryPm, rawOut]
  | cons s rest ih =>
    intro p₀ l hl
    simp only [List.foldl_cons]
    cases hrow : alookup n.transitions s with
    | none =>
      rcases ih p₀ l hl with ⟨ih1, ih2⟩
      constructor
      · rw [ih1]
        constructor
        · rintro (h | ⟨t, ht, hrest⟩)
          · exact Or.inl h
          · exact Or.inr ⟨t, List.mem_cons_of_mem _ ht, hrest⟩
        · rintro (h | ⟨t, ht, hrest⟩)
          · exact Or.inl h
          · rcases List.mem_cons.mp ht with e | ht'
            · subst e
              rcases hrest with ⟨row, hr, _⟩
              rw [hrow] at hr
              cases hr
            · exact Or.inr ⟨t, ht', hrest⟩
      · intro x
        rw [ih2 x]
        constructor
        · rintro (h | ⟨t, ht, hrest⟩)
          · exact Or.inl h
          · exact Or.inr ⟨t, List.mem_cons_of_mem _ ht, hrest⟩
        · rintro (h | ⟨t, ht, hrest⟩)
          · exact Or.inl h
          · rcases List.mem_cons.mp ht with e | ht'
            · subst e
              rcases hrest with ⟨row, hr, _⟩
              rw [hrow] at hr
              cases hr
            · exact Or.inr ⟨t, ht', hrest⟩
    | some row =>
      rcases ih (row.foldl (fun p tr =>
        if tr.1 = Transition.epsilon then p
        else ainsert tr.1 ((alookup p tr.1).getD [] ++ tr.2) p) p₀) l hl with ⟨ih1, ih2⟩
      rcases rowAccum_char n row p₀ l hl with ⟨r1, r2⟩
      constructor
      · rw [ih1, r1]
        constructor
        · rintro ((h | ⟨lst, hm⟩) | ⟨t, ht, hrest⟩)
          · exact Or.inl h
          · exact Or.inr ⟨s, List.mem_cons_self _ _, row, hrow, lst, hm⟩
          · exact Or.inr ⟨t, List.mem_cons_of_mem _ ht, hrest⟩
        · rintro (h | ⟨t, ht, row', hr', lst, hm⟩)
          · exact Or.inl (Or.inl h)
          · rcases List.mem_cons.mp ht with e | ht'
            · subst e
              rw [hrow] at hr'
              cases hr'
              exact Or.inl (Or.inr ⟨lst, hm⟩)
            · exact Or.inr ⟨t, ht', row', hr', lst, hm⟩
      · intro x
        rw [ih2 x, r2 x]
        constructor
        · rintro ((h | ⟨lst, hm, hx⟩) | ⟨t, ht, hrest⟩)
          · exact Or.inl h
          · exact Or.inr ⟨s, List.mem_cons_self _ _, row, hrow, lst, hm, hx⟩
          · exact Or.inr ⟨t, List.mem_cons_of_mem _ ht, hrest⟩
        · rintro (h | ⟨t, ht, row', hr', lst, hm, hx⟩)
          · exact Or.inl (Or.inl h)
          · rcases List.mem_cons.mp ht with e | ht'
            · subst e
              rw [hrow] at hr'
              cases hr'
              exact Or.inl (Or.inr ⟨lst, hm, hx⟩)
            · exact Or.inr ⟨t, ht', row', hr', lst, hm, hx⟩

/-- Presence of a non-epsilon label in the accumulated move map. -/
theorem possibleMoves_isSome (n : Nfa) (ints : List NfaState) {l : Transition}
    (hl : l ≠ Transition.epsilon) :
    (alookup (possibleMoves n ints) l).isSome ↔ hasEntryPm n ints l := by
  have := (pmAccum_char n ints [] l hl).1
  simpa [possibleMoves, alookup] using this

/-- Membership in the accumulated move map's target list. -/
theorem possibleMoves_mem (n : Nfa) (ints : List NfaState) {l : Transition}
    (hl : l ≠ Transition.epsilon) (x : NfaState) :
    x ∈ (alookup (possibleMoves n ints) l).getD [] ↔ rawOut n ints l x := by
  have := (pmAccum_char n ints [] l hl).2 x
  simpa [possibleMoves, alookup] using this

theorem alookup_none_of_keys_ne [DecidableEq κ] {β : Type _} {l : List (κ × β)}
    {k : κ} (h : ∀ p ∈ l, p.1 ≠ k) : alookup l k = none := by
  rw [alookup_none_iff]
  intro v hm
  exact h _ hm rfl

theorem possibleMoves_eps_none (n : Nfa) (ints : List NfaState) :
    alookup (possibleMoves n ints) Transition.epsilon = none :=
  alookup_none_of_keys_ne (possibleMoves_key_ne_eps n ints)

theorem alookup_foldWildcard_isSome (p : List (Transition × List NfaState))
    (l : Transition) :
    (alookup (foldWildcard p) l).isSome = (alookup p l).isSome := by
  unfold foldWildcard
  cases hw : alookup p Transition.wildcard with
  | none => rfl
  | some w =>
    rw [alookup_map_val (fun k v => if k = Transition.wildcard then v else v ++ w) p l]
    cases alookup p l <;> rfl

theorem stepVal_isSome (n : Nfa) (ints : List NfaState) {l : Transition}
    (hl : l ≠ Transition.epsilon) :
    (stepVal n ints l).isSome ↔ hasEntryPm n ints l := by
  unfold stepVal
  rw [Option.isSome_map', alookup_foldWildcard_isSome]
  exact possibleMoves_isSome n ints hl

theorem stepVal_eps (n : Nfa) (ints : List NfaState) :
    stepVal n ints Transition.epsilon = none := by
  unfold stepVal
  have h := alookup_foldWildcard_isSome (possibleMoves n ints) Transition.epsilon
  rw [possibleMoves_eps_none n ints] at h
  cases hx : alookup (foldWildcard (possibleMoves n ints)) Transition.epsilon with
  | none => rfl
  | some v =>
    rw [hx] at h
    simp at h

theorem stepVal_some_char (n : Nfa) (ints : List NfaState) {l : Transition}
    (hl : l ≠ Transition.epsilon) {v : DfaState}
    (hv : stepVal n ints l = some v) :
    ∃ ts, v = canonClose n ts ∧ ∀ x, x ∈ ts ↔ moveTargets n ints l x := by
  unfold stepVal at hv
  rcases Option.map_eq_some'.mp hv with ⟨ts, hts, hmap⟩
  refine ⟨ts, hmap.symm, ?_⟩
  intro x
  by_cases hwc : l = Transition.wildcard
  · subst hwc
    rw [alookup_foldWildcard_wildcard] at hts
    have := possibleMoves_mem n ints hl x
    rw [hts] at this
    simp only [Option.getD_some] at this
    rw [this]
    simp [moveTargets]
  · cases hw : alookup (possibleMoves n ints) Transition.wildcard with
    | none =>
      have hfw : foldWildcard (possibleMoves n ints) = possibleMoves n ints := by
        unfold foldWildcard
        rw [hw]
      rw [hfw] at hts
      have := possibleMoves_mem n ints hl x
      rw [hts] at this
      simp only [Option.getD_some] at this
      rw [this]
      have hnw : ¬ hasEntryPm n ints Transition.wildcard := by
        intro hcontra
        have h2 := possibleMoves_isSome n ints
          (l := Transition.wildcard) (by intro h; cases h)
        rw [hw] at h2
        exact absurd (h2.mpr hcontra) (by simp)
      simp [moveTargets, hnw]
    | some w =>
      rw [alookup_foldWildcard_ne _ hwc hw] at hts
      rcases Option.map_eq_some'.mp hts with ⟨ts₀, hts₀, he⟩
      subst he
      have h1 := possibleMoves_mem n ints hl x
      rw [hts₀] at h1
      simp only [Option.getD_some] at h1
      have h2 := possibleMoves_mem n ints
        (l := Transition.wildcard) (by intro h; cases h) x
      rw [hw] at h2
      simp only [Option.getD_some] at h2
      have hww : hasEntryPm n ints Transition.wildcard := by
        have := possibleMoves_isSome n ints
          (l := Transition.wildcard) (by intro h; cases h)
        rw [hw] at this
        exact this.mp (by simp)
      simp only [List.mem_append, moveTargets, h1, h2]
      constructor
      · rintro (h | h)
        · exact Or.inl h
        · exact Or.inr ⟨hwc, hww, h⟩
      · rintro (h | ⟨_, _, h⟩)
        · exact Or.inl h
        · exact Or.inr h

theorem hasEntryPm_congr {n : Nfa} {i₁ i₂ : List NfaState}
    (h : ∀ x, x ∈ i₁ ↔ x ∈ i₂) (l : Transition) :
    hasEntryPm n i₁ l ↔ hasEntryPm n i₂ l := by
  unfold hasEntryPm
  constructor
  · rintro ⟨s, hs, rest⟩
    exact ⟨s, (h s).mp hs, rest⟩
  · rintro ⟨s, hs, rest⟩
    exact ⟨s, (h s).mpr hs, rest⟩

theorem rawOut_congr {n : Nfa} {i₁ i₂ : List NfaState}
    (h : ∀ x, x ∈ i₁ ↔ x ∈ i₂) (l : Transition) (t : NfaState) :
    rawOut n i₁ l t ↔ rawOut n i₂ l t := by
  unfold rawOut
  constructor
  · rintro ⟨s, hs, rest⟩
    exact ⟨s, (h s).mp hs, rest⟩
  · rintro ⟨s, hs, rest⟩
    exact ⟨s, (h s).mpr hs, rest⟩

theorem moveTargets_congr {n : Nfa} {i₁ i₂ : List NfaState}
    (h : ∀ x, x ∈ i₁ ↔ x ∈ i₂) (l : Transition) (t : NfaState) :
    moveTargets n i₁ l t ↔ moveTargets n i₂ l t := by
  unfold moveTargets
  rw [rawOut_congr h, rawOut_congr h, hasEntryPm_congr h]

/-- The canonical transition function only depends on the set of NFA states. -/
theorem stepVal_congr {n : Nfa} {i₁ i₂ : List NfaState}
    (h : ∀ x, x ∈ i₁ ↔ x ∈ i₂) (l : Transition) :
    stepVal n i₁ l = stepVal n i₂ l := by
  by_cases hl : l = Transition.epsilon
  · subst hl
    rw [stepVal_eps, stepVal_eps]
  · have hpres : (stepVal n i₁ l).isSome = (stepVal n i₂ l).isSome := by
      by_cases h1 : hasEntryPm n i₁ l
      · have h2 := (hasEntryPm_congr h l).mp h1
        rw [(stepVal_isSome n i₁ hl).mpr h1, (stepVal_isSome n i₂ hl).mpr h2]
      · have h2 := (hasEntryPm_congr h l).not.mp h1
        have e1 : ¬ (stepVal n i₁ l).isSome = true := fun hh =>
          h1 ((stepVal_isSome n i₁ hl).mp hh)
        have e2 : ¬ (stepVal n i₂ l).isSome = true := fun hh =>
          h2 ((stepVal_isSome n i₂ hl).mp hh)
        simp only [Bool.not_eq_true] at e1 e2
        rw [e1, e2]
    cases hv1 : stepVal n i₁ l with
    | none =>
      rw [hv1] at hpres
      cases hv2 : stepVal n i₂ l with
      | none => rfl
      | some v₂ =>
        rw [hv2] at hpres
        simp at hpres
    | some v₁ =>
      rw [hv1] at hpres
      cases hv2 : stepVal n i₂ l with
      | none =>
        rw [hv2] at hpres
        simp at hpres
      | some v₂ =>
        rcases stepVal_some_char n i₁ hl hv1 with ⟨t₁, he₁, hm₁⟩
        rcases stepVal_some_char n i₂ hl hv2 with ⟨t₂, he₂, hm₂⟩
        subst he₁
        subst he₂
        exact congrArg some (canonClose_congr (fun x =>
          (hm₁ x).trans ((moveTargets_congr h l x).trans (hm₂ x).symm)))

theorem possibleMoves_keys_nodup (n : Nfa) (ints : List NfaState) :
    ((possibleMoves n ints).map Prod.fst).Nodup := by
  unfold possibleMoves
  refine foldl_preserves
    (P := fun p : List (Transition × List NfaState) => (p.map Prod.fst).Nodup)
    _ _ ?_ [] (by simp)
  intro acc st _ hacc
  cases alookup n.transitions st with
  | none => exact hacc
  | some row =>
    refine foldl_preserves
      (P := fun p : List (Transition × List NfaState) => (p.map Prod.fst).Nodup)
      _ _ ?_ acc hacc
    intro acc' tr _ hacc'
    by_cases he : tr.1 = Transition.epsilon
    · simpa [he] using hacc'
    · simpa [he] using ainsert_keys_nodup hacc'

theorem foldWildcard_keys_nodup {p : List (Transition × List NfaState)}
    (h : (p.map Prod.fst).Nodup) : ((foldWildcard p).map Prod.fst).Nodup := by
  unfold foldWildcard
  cases alookup p Transition.wildcard with
  | none => exact h
  | some w =>
    have he : ((p.map (fun tr =>
        (tr.1, if tr.1 = Transition.wildcard then tr.2 else tr.2 ++ w))).map Prod.fst)
        = p.map Prod.fst := by
      rw [List.map_map]
      rfl
    rw [he]
    exact h

theorem alookup_none_of_not_mem_keys [DecidableEq κ] {β : Type _}
    {l : List (κ × β)} {k : κ} (h : k ∉ l.map Prod.fst) : alookup l k = none := by
  rw [alookup_none_iff]
  intro v hm
  exact h (List.mem_map_of_mem Prod.fst hm)

theorem rowfold_lookup (n : Nfa) :
    ∀ (ms : List (Transition × List NfaState)) (r₀ : DfaRow),
      (ms.map Prod.fst).Nodup →
      (∀ l', (∃ ts, (l', ts) ∈ ms) → alookup r₀ l' = none) →
      ∀ l, alookup (ms.foldl (rowIns n) r₀) l
        = match alookup ms l with
          | some ts => some (canonClose n ts)
          | none => alookup r₀ l := by
  intro ms
  induction ms with
  | nil =>
    intro r₀ _ _ l
    simp [alookup]
  | cons tr rest ih =>
    intro r₀ hnodup hnone l
    simp only [List.foldl_cons]
    have hr0 : alookup r₀ tr.1 = none :=
      hnone tr.1 ⟨tr.2, by simp⟩
    have hstep : rowIns n r₀ tr = ainsert tr.1 (canonClose n tr.2) r₀ := by
      simp [rowIns, canonClose, hr0]
    rw [hstep]
    simp only [List.map_cons, List.nodup_cons] at hnodup
    have hres := ih (ainsert tr.1 (canonClose n tr.2) r₀) hnodup.2 ?_
    · rw [hres l]
      by_cases hl : tr.1 = l
      · subst hl
        have hrest : alookup rest tr.1 = none := by
          refine alookup_none_of_not_mem_keys ?_
          exact hnodup.1
        rw [hrest, alookup_ainsert_self]
        simp [alookup]
      · have hcons : alookup (tr :: rest) l = alookup rest l := by
          cases tr with
          | mk a b => simp [alookup, hl]
        rw [hcons, alookup_ainsert_ne _ _ (fun e => hl e.symm)]
    · intro l' hl'
      rcases hl' with ⟨ts, hts⟩
      have hne : l' ≠ tr.1 := by
        intro e
        subst e
        have hmm := List.mem_map_of_mem Prod.fst hts
        exact hnodup.1 hmm
      rw [alookup_ainsert_ne _ _ hne]
      exact hnone l' ⟨ts, List.mem_cons_of_mem _ hts⟩

/-- The row the subset construction builds realizes the canonical transition
function. -/
theorem rowOf_alookup (n : Nfa) (ints : List NfaState) (l : Transition) :
    alookup (rowOf n ints) l = stepVal n ints l := by
  unfold rowOf stepVal
  rw [rowfold_lookup n _ []
    (foldWildcard_keys_nodup (possibleMoves_keys_nodup n ints))
    (fun l' _ => by simp [alookup]) l]
  cases alookup (foldWildcard (possibleMoves n ints)) l <;> rfl

theorem expectedRow_isSome_iff (n : Nfa) (ints : List NfaState) :
    (expectedRow n ints).isSome ↔ ∃ l, (stepVal n ints l).isSome := by
  unfold expectedRow
  by_cases h : foldWildcard (possibleMoves n ints) = []
  · rw [if_pos h]
    constructor
    · intro hh
      simp at hh
    · rintro ⟨l, hl⟩
      unfold stepVal at hl
      rw [h] at hl
      simp [alookup] at hl
  · rw [if_neg h]
    refine ⟨fun _ => ?_, fun _ => by simp⟩
    cases he : foldWildcard (possibleMoves n ints) with
    | nil => exact absurd he h
    | cons tr rest =>
      refine ⟨tr.1, ?_⟩
      unfold stepVal
      rw [he]
      cases tr with
      | mk a b => simp [alookup]

theorem installMove_eq (n : Nfa) (state : DfaState) (seen : List DfaState)
    (acc : DfaTable × List DfaState) (tr : Transition × List NfaState) :
    installMove n state seen acc tr
      = (ainsert state
           (ainsert tr.1 (instMerged n acc state tr) ((alookup acc.1 state).getD []))
           acc.1,
         if instMerged n acc state tr ∈ seen ∨ instMerged n acc state tr ∈ acc.2
           then acc.2 else sIns ltDfa (instMerged n acc state tr) acc.2) := rfl

theorem installFold_other (n : Nfa) (state : DfaState) (seen : List DfaState)
    (ms : List (Transition × List NfaState)) :
    ∀ (acc : DfaTable × List DfaState) (y : DfaState), y ≠ state →
      alookup ((ms.foldl (installMove n state seen) acc).1) y = alookup acc.1 y := by
  induction ms with
  | nil => intro acc y _; rfl
  | cons tr rest ih =>
    intro acc y hy
    simp only [List.foldl_cons]
    rw [ih _ y hy, installMove_eq]
    exact alookup_ainsert_ne _ _ hy

theorem installFold_unm_mono (n : Nfa) (state : DfaState) (seen : List DfaState)
    (ms : List (Transition × List NfaState)) :
    ∀ (acc : DfaTable × List DfaState) (x : DfaState), x ∈ acc.2 →
      x ∈ (ms.foldl (installMove n state seen) acc).2 := by
  induction ms with
  | nil => intro acc x hx; exact hx
  | cons tr rest ih =>
    intro acc x hx
    simp only [List.foldl_cons]
    refine ih _ x ?_
    rw [installMove_eq]
    by_cases hc : instMerged n acc state tr ∈ seen ∨ instMerged n acc state tr ∈ acc.2
    · simpa [hc] using hx
    · simpa [hc] using mem_sIns_of_mem ltDfa hx

theorem installFold_unm_schain (n : Nfa) (state : DfaState) (seen : List DfaState)
    (ms : List (Transition × List NfaState)) :
    ∀ (acc : DfaTable × List DfaState), SChain ltDfa acc.2 →
      SChain ltDfa (ms.foldl (installMove n state seen) acc).2 := by
  induction ms with
  | nil => intro acc h; exact h
  | cons tr rest ih =>
    intro acc h
    simp only [List.foldl_cons]
    refine ih _ ?_
    rw [installMove_eq]
    by_cases hc : instMerged n acc state tr ∈ seen ∨ instMerged n acc state tr ∈ acc.2
    · simpa [hc] using h
    · simpa [hc] using sIns_schain ltDfa_slo _ h

theorem installFold_keys_nodup (n : Nfa) (state : DfaState) (seen : List DfaState)
    (ms : List (Transition × List NfaState)) :
    ∀ (acc : DfaTable × List DfaState), ((acc.1.map Prod.fst).Nodup) →
      (((ms.foldl (installMove n state seen) acc).1.map Prod.fst).Nodup) := by
  induction ms with
  | nil => intro acc h; exact h
  | cons tr rest ih =>
    intro acc h
    simp only [List.foldl_cons]
    refine ih _ ?_
    rw [installMove_eq]
    exact ainsert_keys_nodup h

theorem installFold_main (n : Nfa) (state : DfaState) (seen : List DfaState) :
    ∀ (ms : List (Transition × List NfaState)) (acc : DfaTable × List DfaState)
      (r : DfaRow),
      (ms.map Prod.fst).Nodup →
      alookup acc.1 state = some r →
      (∀ l', (∃ ts, (l', ts) ∈ ms) → alookup r l' = none) →
      alookup ((ms.foldl (installMove n state seen) acc).1) state
          = some (ms.foldl (rowIns n) r)
      ∧ (∀ x ∈ (ms.foldl (installMove n state seen) acc).2,
          x ∈ acc.2 ∨ (x ∉ seen ∧ ∃ ts, x = canonClose n ts))
      ∧ (∀ p ∈ (ms.foldl (installMove n state seen) acc).1,
          p.1 = state ∨ p ∈ acc.1)
      ∧ (∀ x, tblTargets ((ms.foldl (installMove n state seen) acc).1) x →
          tblTargets acc.1 x ∨ x ∈ seen ∨
            x ∈ (ms.foldl (installMove n state seen) acc).2) := by
  intro ms
  induction ms with
  | nil =>
    intro acc r _ hr _
    refine ⟨hr, fun x hx => Or.inl hx, fun p hp => Or.inr hp,
      fun x hx => Or.inl hx⟩
  | cons tr rest ih =>
    intro acc r hnodup hr hfresh
    have hcur : alookup r tr.1 = none := hfresh tr.1 ⟨tr.2, by simp⟩
    have hmerged : instMerged n acc state tr = canonClose n tr.2 := by
      simp [instMerged, canonClose, hr, hcur]
    have hrow : (ainsert tr.1 (instMerged n acc state tr)
        ((alookup acc.1 state).getD [])) = rowIns n r tr := by
      simp [rowIns, hr, hcur, hmerged, canonClose]
    simp only [List.map_cons, List.nodup_cons] at hnodup
    simp only [List.foldl_cons]
    set acc' := installMove n state seen acc tr with hacc'
    have hacc'1 : acc'.1 = ainsert state (rowIns n r tr) acc.1 := by
      rw [hacc', installMove_eq, hrow]
    have hacc'2 : acc'.2 = if instMerged n acc state tr ∈ seen ∨
        instMerged n acc state tr ∈ acc.2 then acc.2
        else sIns ltDfa (instMerged n acc state tr) acc.2 := by
      rw [hacc', installMove_eq]
    have hr' : alookup acc'.1 state = some (rowIns n r tr) := by
      rw [hacc'1]
      exact alookup_ainsert_self _ _ _
    have hfresh' : ∀ l', (∃ ts, (l', ts) ∈ rest) → alookup (rowIns n r tr) l' = none := by
      intro l' ⟨ts, hts⟩
      have hne : l' ≠ tr.1 := by
        intro e
        subst e
        have hmm := List.mem_map_of_mem Prod.fst hts
        exact hnodup.1 hmm
      rw [rowIns, alookup_ainsert_ne _ _ hne]
      exact hfresh l' ⟨ts, List.mem_cons_of_mem _ hts⟩
    rcases ih acc' (rowIns n r tr) hnodup.2 hr' hfresh' with ⟨m1, m2, m3, m4⟩
    refine ⟨m1, ?_, ?_, ?_⟩
    · intro x hx
      rcases m2 x hx with hx' | hgood
      · rw [hacc'2] at hx'
        by_cases hc : instMerged n acc state tr ∈ seen ∨
            instMerged n acc state tr ∈ acc.2
        · rw [if_pos hc] at hx'
          exact Or.inl hx'
        · rw [if_neg hc] at hx'
          rcases mem_sIns_iff.mp hx' with he | hx''
          · subst he
            push_neg at hc
            exact Or.inr ⟨hc.1, tr.2, hmerged⟩
          · exact Or.inl hx''
      · exact Or.inr hgood
    · intro p hp
      rcases m3 p hp with he | hp'
      · exact Or.inl he
      · rw [hacc'1] at hp'
        rcases mem_ainsert hp' with he | hp''
        · exact Or.inl (by rw [he])
        · exact Or.inr hp''
    · intro x hx
      rcases m4 x hx with hx' | hx' | hx'
      · rcases hx' with ⟨k, row', hk, l, hl⟩
        rw [hacc'1] at hk
        rcases mem_ainsert hk with he | hk'
        · cases he
          rcases mem_ainsert (by
            have : (l, x) ∈ rowIns n r tr := hl
            rw [rowIns] at this
            exact this) with he' | hl'
          · have hxm : x = instMerged n acc state tr := by
              rw [hmerged]
              have h2 := congrArg Prod.snd he'
              simpa [hcur, canonClose] using h2
            by_cases hc : instMerged n acc state tr ∈ seen ∨
                instMerged n acc state tr ∈ acc.2
            · rcases hc with hc | hc
              · exact Or.inr (Or.inl (hxm ▸ hc))
              · refine Or.inr (Or.inr ?_)
                subst hxm
                exact installFold_unm_mono n state seen rest acc' _
                  (by rw [hacc'2, if_pos (by tauto)]; exact hc)
            · refine Or.inr (Or.inr ?_)
              subst hxm
              refine installFold_unm_mono n state seen rest acc' _ ?_
              rw [hacc'2, if_neg hc]
              exact mem_sIns_self ltDfa _ _
          · exact Or.inl ⟨state, r, alookup_mem hr, l, hl'⟩
        · exact Or.inl ⟨k, row', hk', l, hl⟩
      · exact Or.inr (Or.inl hx')
      · exact Or.inr (Or.inr hx')

theorem schain_head_not_mem {α : Type _} [DecidableEq α] {lt : α → α → Bool}
    (hslo : IsSLO lt) {a : α} {l : List α} (h : SChain lt (a :: l)) : a ∉ l := by
  intro hm
  have := schain_head_lt hslo h a hm
  rw [hslo.irrefl] at this
  cases this

theorem fromNfaStep_facts (n : Nfa) (state : DfaState) (seen : List DfaState)
    (tbl : DfaTable) (unmarked : List DfaState)
    (hnone : alookup tbl state = none) :
    alookup (fromNfaStep n state seen tbl unmarked).1 state
        = expectedRow n state.internal
    ∧ (∀ y, y ≠ state →
        alookup (fromNfaStep n state seen tbl unmarked).1 y = alookup tbl y)
    ∧ (SChain ltDfa unmarked → SChain ltDfa (fromNfaStep n state seen tbl unmarked).2)
    ∧ (∀ x ∈ unmarked, x ∈ (fromNfaStep n state seen tbl unmarked).2)
    ∧ (∀ x ∈ (fromNfaStep n state seen tbl unmarked).2,
        x ∈ unmarked ∨ (x ∉ seen ∧ ∃ ts, x = canonClose n ts))
    ∧ (∀ p ∈ (fromNfaStep n state seen tbl unmarked).1, p.1 = state ∨ p ∈ tbl)
    ∧ ((tbl.map Prod.fst).Nodup →
        ((fromNfaStep n state seen tbl unmarked).1.map Prod.fst).Nodup)
    ∧ (∀ x, tblTargets (fromNfaStep n state seen tbl unmarked).1 x →
        tblTargets tbl x ∨ x ∈ seen ∨ x ∈ (fromNfaStep n state seen tbl unmarked).2) := by
  have hnodups := foldWildcard_keys_nodup (possibleMoves_keys_nodup n state.internal)
  have hsu : fromNfaStep n state seen tbl unmarked
      = (foldWildcard (possibleMoves n state.internal)).foldl
          (installMove n state seen) (tbl, unmarked) := rfl
  cases hmse : foldWildcard (possibleMoves n state.internal) with
  | nil =>
    rw [hsu, hmse]
    simp only [List.foldl_nil]
    refine ⟨?_, ?_, ?_, ?_, ?_, ?_, ?_, ?_⟩
    · rw [expectedRow, if_pos hmse]
      exact hnone
    · intro y _
      trivial
    · intro h
      exact h
    · intro x hx
      exact hx
    · intro x hx
      exact Or.inl hx
    · intro p hp
      exact Or.inr hp
    · intro h
      exact h
    · intro x hx
      exact Or.inl hx
  | cons tr rest =>
    rw [hmse] at hnodups
    simp only [List.map_cons, List.nodup_cons] at hnodups
    rw [hsu, hmse]
    simp only [List.foldl_cons]
    set acc₁ := installMove n state seen (tbl, unmarked) tr with hacc₁
    have hm₁ : instMerged n (tbl, unmarked) state tr = canonClose n tr.2 := by
      simp [instMerged, canonClose, hnone, alookup]
    have hlist : rowIns n [] tr = [(tr.1, canonClose n tr.2)] := by
      simp [rowIns, canonClose, alookup, ainsert]
    have hacc₁1 : acc₁.1 = ainsert state (rowIns n [] tr) tbl := by
      rw [hacc₁, installMove_eq, hm₁, hnone]
      rw [hlist]
      simp [ainsert, alookup]
    have hacc₁2 : acc₁.2 = if canonClose n tr.2 ∈ seen ∨ canonClose n tr.2 ∈ unmarked
        then unmarked else sIns ltDfa (canonClose n tr.2) unmarked := by
      rw [hacc₁, installMove_eq, hm₁]
    have hr' : alookup acc₁.1 state = some (rowIns n [] tr) := by
      rw [hacc₁1]
      exact alookup_ainsert_self _ _ _
    have hfresh' : ∀ l', (∃ ts, (l', ts) ∈ rest) →
        alookup (rowIns n [] tr) l' = none := by
      intro l' ⟨ts, hts⟩
      have hne : l' ≠ tr.1 := by
        intro e
        subst e
        have hmm := List.mem_map_of_mem Prod.fst hts
        exact hnodups.1 hmm
      rw [hlist]
      simp [alookup, Ne.symm hne]
    have hunm₁ : ∀ x ∈ unmarked, x ∈ acc₁.2 := by
      intro x hx
      rw [hacc₁2]
      by_cases hc : canonClose n tr.2 ∈ seen ∨ canonClose n tr.2 ∈ unmarked
      · rw [if_pos hc]; exact hx
      · rw [if_neg hc]; exact mem_sIns_of_mem ltDfa hx
    have hunm₂ : ∀ x ∈ acc₁.2, x ∈ unmarked ∨
        (x ∉ seen ∧ ∃ ts, x = canonClose n ts) := by
      intro x hx
      rw [hacc₁2] at hx
      by_cases hc : canonClose n tr.2 ∈ seen ∨ canonClose n tr.2 ∈ unmarked
      · rw [if_pos hc] at hx; exact Or.inl hx
      · rw [if_neg hc] at hx
        rcases mem_sIns_iff.mp hx with he | hx'
        · subst he
          push_neg at hc
          exact Or.inr ⟨hc.1, tr.2, rfl⟩
        · exact Or.inl hx'
    rcases installFold_main n state seen rest acc₁ (rowIns n [] tr)
      hnodups.2 hr' hfresh' with ⟨m1, m2, m3, m4⟩
    refine ⟨?_, ?_, ?_, ?_, ?_, ?_, ?_, ?_⟩
    · rw [m1, expectedRow, if_neg (by rw [hmse]; simp), rowOf, hmse]
      simp only [List.foldl_cons]
    · intro y hy
      rw [installFold_other n state seen rest acc₁ y hy, hacc₁1,
        alookup_ainsert_ne _ _ hy]
    · intro hsc
      refine installFold_unm_schain n state seen rest acc₁ ?_
      rw [hacc₁2]
      by_cases hc : canonClose n tr.2 ∈ seen ∨ canonClose n tr.2 ∈ unmarked
      · rw [if_pos hc]; exact hsc
      · rw [if_neg hc]; exact sIns_schain ltDfa_slo _ hsc
    · intro x hx
      exact installFold_unm_mono n state seen rest acc₁ x (hunm₁ x hx)
    · intro x hx
      rcases m2 x hx with hx' | hgood
      · exact hunm₂ x hx'
      · exact Or.inr hgood
    · intro p hp
      rcases m3 p hp with he | hp'
      · exact Or.inl he
      · rw [hacc₁1] at hp'
        rcases mem_ainsert hp' with he | hp''
        · exact Or.inl (by rw [he])
        · exact Or.inr hp''
    · intro hnd
      refine installFold_keys_nodup n state seen rest acc₁ ?_
      rw [hacc₁1]
      exact ainsert_keys_nodup hnd
    · intro x hx
      rcases m4 x hx with hx' | hx' | hx'
      · rcases hx' with ⟨k, row', hk, l, hl⟩
        rw [hacc₁1] at hk
        rcases mem_ainsert hk with he | hk'
        · cases he
          rw [hlist] at hl
          rcases List.mem_cons.mp hl with he' | hl'
          · have hxm : x = canonClose n tr.2 := congrArg Prod.snd he'
            subst hxm
            by_cases hc : canonClose n tr.2 ∈ seen
            · exact Or.inr (Or.inl hc)
            · refine Or.inr (Or.inr ?_)
              refine installFold_unm_mono n state seen rest acc₁ _ ?_
              rw [hacc₁2]
              by_cases hc2 : canonClose n tr.2 ∈ seen ∨ canonClose n tr.2 ∈ unmarked
              · rw [if_pos hc2]
                exact hc2.resolve_left hc
              · rw [if_neg hc2]
                exact mem_sIns_self ltDfa _ _
          · simp at hl'
        · exact Or.inl ⟨k, row', hk', l, hl⟩
      · exact Or.inr (Or.inl hx')
      · exact Or.inr (Or.inr hx')

theorem fromNfaGo_facts (n : Nfa) :
    ∀ (fuel : Nat) (tbl : DfaTable) (states seen unmarked : List DfaState)
      (start : DfaState) (d : Dfa),
      GoInv n tbl states seen unmarked → start ∈ states →
      fromNfaGo n fuel tbl states seen unmarked start = some d → DfaFacts n d := by
  intro fuel
  induction fuel with
  | zero =>
    intro tbl states seen unmarked start d _ _ h
    simp [fromNfaGo] at h
  | succ f ih =>
    intro tbl states seen unmarked start d inv hstart h
    match unmarked, inv, h with
    | [], inv, h =>
      simp only [fromNfaGo] at h
      cases h
      refine ⟨inv.states_schain, hstart, ?_, ?_, inv.keys_nodup, ?_, ?_⟩
      · intro s hs
        exact inv.row_char s ((inv.states_cover s hs).resolve_right (by simp))
      · intro p hp
        exact inv.seen_states _ (inv.keys_seen p hp)
      · intro x hx
        exact inv.seen_states _ ((inv.targets x hx).resolve_right (by simp))
      · intro x hx
        exact inv.internals x (Or.inl hx)
    | state :: unrest, inv, h =>
      simp only [fromNfaGo] at h
      have hstate_nseen : state ∉ seen :=
        inv.disj state (List.mem_cons_self _ _)
      have hnone : alookup tbl state = none := by
        cases hl : alookup tbl state with
        | none => rfl
        | some r =>
          exact absurd (inv.keys_seen _ (alookup_mem hl)) hstate_nseen
      rcases fromNfaStep_facts n state (sIns ltDfa state seen) tbl unrest hnone
        with ⟨s1, s2, s3, s4, s5, s6, s7, s8⟩
      have hunrest_sc : SChain ltDfa unrest := schain_cons inv.unm_schain
      have hstate_nunrest : state ∉ unrest := schain_head_not_mem ltDfa_slo inv.unm_schain
      have hmem_seen' : ∀ x, x ∈ sIns ltDfa state seen ↔ x = state ∨ x ∈ seen :=
        fun x => mem_sIns_iff
      have hstates' : ∀ x, x ∈ (if state ∈ states then states
          else sIns ltDfa state states) ↔ x = state ∨ x ∈ states := by
        intro x
        by_cases hc : state ∈ states
        · rw [if_pos hc]
          constructor
          · exact Or.inr
          · rintro (he | hx)
            · subst he; exact hc
            · exact hx
        · rw [if_neg hc]
          exact mem_sIns_iff
      refine ih _ _ _ _ start d ?_ ?_ h
      · refine ⟨sIns_schain ltDfa_slo _ inv.seen_schain, s3 hunrest_sc, ?_,
          ?_, ?_, ?_, ?_, ?_, ?_, ?_, ?_⟩
        · by_cases hc : state ∈ states
          · rw [if_pos hc]; exact inv.states_schain
          · rw [if_neg hc]; exact sIns_schain ltDfa_slo _ inv.states_schain
        · intro x hx
          rcases s5 x hx with hx' | ⟨hns, _⟩
          · rw [hmem_seen']
            push_neg
            constructor
            · intro he; subst he; exact hstate_nunrest hx'
            · exact inv.disj x (List.mem_cons_of_mem _ hx')
          · exact hns
        · intro p hp
          rcases s6 p hp with he | hp'
          · rw [hmem_seen']; exact Or.inl he
          · rw [hmem_seen']
            exact Or.inr (inv.keys_seen p hp')
        · exact s7 inv.keys_nodup
        · intro s hs
          rcases (hmem_seen' s).mp hs with he | hs'
          · subst he
            exact s1
          · rw [s2 s (by intro e; subst e; exact hstate_nseen hs')]
            exact inv.row_char s hs'
        · intro x hx
          rcases s8 x hx with hx' | hx' | hx'
          · rcases inv.targets x hx' with hx'' | hx''
            · exact Or.inl ((hmem_seen' x).mpr (Or.inr hx''))
            · rcases List.mem_cons.mp hx'' with he | hx'''
              · exact Or.inl ((hmem_seen' x).mpr (Or.inl he))
              · exact Or.inr (s4 x hx''')
          · exact Or.inl hx'
          · exact Or.inr hx'
        · intro x hx
          rcases (hmem_seen' x).mp hx with he | hx'
          · subst he
            exact (hstates' x).mpr (Or.inl rfl)
          · exact (hstates' x).mpr (Or.inr (inv.seen_states x hx'))
        · intro x hx
          rcases (hstates' x).mp hx with he | hx'
          · subst he
            exact Or.inl ((hmem_seen' x).mpr (Or.inl rfl))
          · rcases inv.states_cover x hx' with hx'' | hx''
            · exact Or.inl ((hmem_seen' x).mpr (Or.inr hx''))
            · rcases List.mem_cons.mp hx'' with he | hx'''
              · exact Or.inl ((hmem_seen' x).mpr (Or.inl he))
              · exact Or.inr (s4 x hx''')
        · intro x hx
          rcases hx with hx | hx
          · rcases (hstates' x).mp hx with he | hx'
            · subst he
              exact inv.internals x (Or.inr (List.mem_cons_self _ _))
            · exact inv.internals x (Or.inl hx')
          · rcases s5 x hx with hx' | ⟨_, ts, he⟩
            · exact inv.internals x (Or.inr (List.mem_cons_of_mem _ hx'))
            · subst he
              exact canonClose_internal_schain n ts
      · exact (hstates' start).mpr (Or.inr hstart)

/-- `Dfa::from_nfa` produces a DFA satisfying the subset-construction facts. -/
theorem fromNfa_facts {n : Nfa} {fuel : Nat} {d : Dfa}
    (h : fromNfa n fuel = some d) : DfaFacts n d := by
  unfold fromNfa at h
  refine fromNfaGo_facts n fuel [] _ [] _ _ d ?_ (by simp) h
  refine ⟨trivial, trivial, trivial, ?_, ?_, by simp, ?_, ?_, ?_, ?_, ?_⟩
  · intro x _
    simp
  · intro p hp
    simp at hp
  · intro s hs
    simp at hs
  · intro x hx
    rcases hx with ⟨k, r, hk, _⟩
    simp at hk
  · intro x hx
    simp at hx
  · intro x hx
    exact Or.inr hx
  · intro x hx
    have he : x = dfaStateFrom (epsClosure n [NfaState.start]) := by
      rcases hx with hx | hx <;> simpa using hx
    subst he
    exact epsClosure_schain n [NfaState.start]

theorem fromNfaGo_start (n : Nfa) :
    ∀ (fuel : Nat) (tbl : DfaTable) (states seen unmarked : List DfaState)
      (start : DfaState) (d : Dfa),
      fromNfaGo n fuel tbl states seen unmarked start = some d →
      d.start_state = start := by
  intro fuel
  induction fuel with
  | zero =>
    intro tbl states seen unmarked start d h
    simp [fromNfaGo] at h
  | succ f ih =>
    intro tbl states seen unmarked start d h
    match unmarked with
    | [] =>
      simp only [fromNfaGo] at h
      cases h
      rfl
    | state :: unrest =>
      simp only [fromNfaGo] at h
      exact ih _ _ _ _ _ _ h

/-- The start state of `from_nfa`'s output. -/
theorem fromNfa_start {n : Nfa} {fuel : Nat} {d : Dfa}
    (h : fromNfa n fuel = some d) :
    d.start_state = dfaStateFrom (epsClosure n [NfaState.start]) := by
  unfold fromNfa at h
  exact fromNfaGo_start n fuel _ _ _ _ _ d h

theorem invSlot_ainsert_hit
    (inv : List (DfaState × List (Transition × List DfaState)))
    (e₁ : DfaState) (l₁ : Transition) (srcs : List DfaState) :
    ∀ e l, invSlot (ainsert e₁ (ainsert l₁ srcs ((alookup inv e₁).getD [])) inv) e l
      = if e = e₁ ∧ l = l₁ then srcs
        else invSlot inv e l := by
  intro e l
  by_cases he : e = e₁
  · subst he
    unfold invSlot
    rw [alookup_ainsert_self]
    by_cases hl : l = l₁
    · subst hl
      rw [if_pos ⟨rfl, rfl⟩]
      simp [alookup_ainsert_self]
    · rw [if_neg (fun hc => hl hc.2)]
      simp only [Option.getD_some]
      rw [alookup_ainsert_ne _ _ hl]
  · rw [if_neg (fun hc => he hc.1)]
    unfold invSlot
    rw [alookup_ainsert_ne _ _ he]

/-- Characterization of the inner fold of `Dfa::minimize`'s inverse-table
construction, processing the row of source `k`. -/
theorem buildInvRow_char (k : DfaState) :
    ∀ (row : DfaRow) (inv₀ : List (DfaState × List (Transition × List DfaState)))
      (e : DfaState) (l : Transition) (x : DfaState),
      x ∈ invSlot (row.foldl (fun inv2 tr =>
          ainsert tr.2 (ainsert tr.1
            (sIns ltDfa k ((alookup ((alookup inv2 tr.2).getD []) tr.1).getD []))
            ((alookup inv2 tr.2).getD [])) inv2) inv₀) e l
      ↔ x ∈ invSlot inv₀ e l ∨ (x = k ∧ (l, e) ∈ row) := by
  intro row
  induction row with
  | nil => simp
  | cons tr rest ih =>
    intro inv₀ e l x
    simp only [List.foldl_cons]
    rw [ih]
    have hslot := invSlot_ainsert_hit inv₀ tr.2 tr.1
      (sIns ltDfa k ((alookup ((alookup inv₀ tr.2).getD []) tr.1).getD [])) e l
    rw [hslot]
    by_cases hc : e = tr.2 ∧ l = tr.1
    · rw [if_pos hc]
      obtain ⟨he, hl⟩ := hc
      subst he
      subst hl
      rw [mem_sIns_iff]
      constructor
      · rintro ((he | hx) | ⟨he, hm⟩)
        · exact Or.inr ⟨he, by rw [Prod.mk.eta]; exact List.mem_cons_self _ _⟩
        · exact Or.inl (by exact hx)
        · exact Or.inr ⟨he, List.mem_cons_of_mem _ hm⟩
      · rintro (hx | ⟨he, hm⟩)
        · exact Or.inl (Or.inr hx)
        · rcases List.mem_cons.mp hm with hh | hm'
          · exact Or.inl (Or.inl he)
          · exact Or.inr ⟨he, hm'⟩
    · rw [if_neg hc]
      constructor
      · rintro (hx | ⟨he, hm⟩)
        · exact Or.inl hx
        · exact Or.inr ⟨he, List.mem_cons_of_mem _ hm⟩
      · rintro (hx | ⟨he, hm⟩)
        · exact Or.inl hx
        · rcases List.mem_cons.mp hm with hh | hm'
          · exfalso
            apply hc
            have h1 : l = tr.1 := congrArg Prod.fst hh
            have h2 : e = tr.2 := congrArg Prod.snd hh
            exact ⟨h2, h1⟩
          · exact Or.inr ⟨he, hm'⟩

/-- Characterization of the full inverse-table fold. -/
theorem buildInvAccum_char :
    ∀ (rows : DfaTable) (inv₀ : List (DfaState × List (Transition × List DfaState)))
      (e : DfaState) (l : Transition) (x : DfaState),
      x ∈ invSlot (rows.foldl (fun inv row =>
          row.2.foldl (fun inv2 tr =>
            ainsert tr.2 (ainsert tr.1
              (sIns ltDfa row.1 ((alookup ((alookup inv2 tr.2).getD []) tr.1).getD []))
              ((alookup inv2 tr.2).getD [])) inv2) inv) inv₀) e l
      ↔ x ∈ invSlot inv₀ e l ∨ ∃ p ∈ rows, x = p.1 ∧ (l, e) ∈ p.2 := by
  intro rows
  induction rows with
  | nil => simp
  | cons hd rest ih =>
    intro inv₀ e l x
    simp only [List.foldl_cons]
    rw [ih]
    rw [buildInvRow_char hd.1 hd.2 inv₀ e l x]
    constructor
    · rintro ((hx | ⟨he, hm⟩) | ⟨p, hp, he, hm⟩)
      · exact Or.inl hx
      · exact Or.inr ⟨hd, by simp, he, hm⟩
      · exact Or.inr ⟨p, List.mem_cons_of_mem _ hp, he, hm⟩
    · rintro (hx | ⟨p, hp, he, hm⟩)
      · exact Or.inl (Or.inl hx)
      · rcases List.mem_cons.mp hp with hh | hp'
        · subst hh
          exact Or.inl (Or.inr ⟨he, hm⟩)
        · exact Or.inr ⟨p, hp', he, hm⟩

/-- Membership in the inverse table is exactly edge membership (for tables
with unique keys and unique row labels, as `from_nfa` produces). -/
theorem buildInv_mem (T : DfaTable) (hk : (T.map Prod.fst).Nodup)
    (hr : ∀ p ∈ T, (p.2.map Prod.fst).Nodup) (e : DfaState) (l : Transition)
    (x : DfaState) :
    x ∈ invSlot (buildInv T) e l ↔ edgeT T x l e := by
  have h := buildInvAccum_char T [] e l x
  unfold buildInv
  rw [h]
  simp only [invSlot, alookup, Option.getD_none]
  constructor
  · rintro (hx | ⟨p, hp, he, hm⟩)
    · simp [alookup] at hx
    · subst he
      refine ⟨p.2, alookup_of_mem_nodup hk (by exact hp), ?_⟩
      exact alookup_of_mem_nodup (hr p hp) hm
  · rintro ⟨r, hrr, hlr⟩
    refine Or.inr ⟨(x, r), alookup_mem hrr, rfl, alookup_mem hlr⟩

theorem esSlot_ainsert_hit (es : List (Transition × List DfaState))
    (l₁ : Transition) (v : List DfaState) :
    ∀ l, (alookup (ainsert l₁ v es) l).getD []
      = if l = l₁ then v else (alookup es l).getD [] := by
  intro l
  by_cases hl : l = l₁
  · subst hl
    rw [if_pos rfl, alookup_ainsert_self]
    rfl
  · rw [if_neg hl, alookup_ainsert_ne _ _ hl]

/-- Characterization of the inner fold of `end_states`: folding one inverse
row for the splitter member `st`. -/
theorem endStatesRow_char :
    ∀ (row : List (Transition × List DfaState))
      (es₀ : List (Transition × List DfaState)) (l : Transition) (x : DfaState),
      x ∈ (alookup (row.foldl (fun es2 tr =>
          ainsert tr.1 (tr.2.foldl (fun acc e => sIns ltDfa e acc)
            ((alookup es2 tr.1).getD [])) es2) es₀) l).getD []
      ↔ x ∈ (alookup es₀ l).getD [] ∨ ∃ srcs, (l, srcs) ∈ row ∧ x ∈ srcs := by
  intro row
  induction row with
  | nil => simp
  | cons tr rest ih =>
    intro es₀ l x
    simp only [List.foldl_cons]
    rw [ih]
    rw [esSlot_ainsert_hit]
    by_cases hl : l = tr.1
    · subst hl
      rw [if_pos rfl, mem_foldl_sIns_iff]
      constructor
      · rintro ((hx | hx) | ⟨srcs, hm, hx⟩)
        · exact Or.inl hx
        · exact Or.inr ⟨tr.2, by rw [Prod.mk.eta]; exact List.mem_cons_self _ _, hx⟩
        · exact Or.inr ⟨srcs, List.mem_cons_of_mem _ hm, hx⟩
      · rintro (hx | ⟨srcs, hm, hx⟩)
        · exact Or.inl (Or.inl hx)
        · rcases List.mem_cons.mp hm with hh | hm'
          · have h2 : srcs = tr.2 := by rw [← hh]
            subst h2
            exact Or.inl (Or.inr hx)
          · exact Or.inr ⟨srcs, hm', hx⟩
    · rw [if_neg hl]
      constructor
      · rintro (hx | ⟨srcs, hm, hx⟩)
        · exact Or.inl hx
        · exact Or.inr ⟨srcs, List.mem_cons_of_mem _ hm, hx⟩
      · rintro (hx | ⟨srcs, hm, hx⟩)
        · exact Or.inl hx
        · rcases List.mem_cons.mp hm with hh | hm'
          · exact absurd (congrArg Prod.fst hh) hl
          · exact Or.inr ⟨srcs, hm', hx⟩

/-- Characterization of the full `end_states` fold over the splitter `S`. -/
theorem endStatesAccum_char (inv : List (DfaState × List (Transition × List DfaState))) :
    ∀ (S : List DfaState) (es₀ : List (Transition × List DfaState))
      (l : Transition) (x : DfaState),
      x ∈ (alookup (S.foldl (fun es st =>
          match alookup inv st with
          | none => es
          | some row => row.foldl (fun es2 tr =>
              ainsert tr.1 (tr.2.foldl (fun acc e => sIns ltDfa e acc)
                ((alookup es2 tr.1).getD [])) es2) es) es₀) l).getD []
      ↔ x ∈ (alookup es₀ l).getD [] ∨
          ∃ s ∈ S, ∃ row, alookup inv s = some row ∧ ∃ srcs, (l, srcs) ∈ row ∧ x ∈ srcs := by
  intro S
  induction S with
  | nil => simp
  | cons s rest ih =>
    intro es₀ l x
    simp only [List.foldl_cons]
    cases hrow : alookup inv s with
    | none =>
      rw [ih]
      constructor
      · rintro (hx | ⟨t, ht, hrest⟩)
        · exact Or.inl hx
        · exact Or.inr ⟨t, List.mem_cons_of_mem _ ht, hrest⟩
      · rintro (hx | ⟨t, ht, hrest⟩)
        · exact Or.inl hx
        · rcases List.mem_cons.mp ht with he | ht'
          · subst he
            rcases hrest with ⟨row, hr, _⟩
            rw [hrow] at hr
            cases hr
          · exact Or.inr ⟨t, ht', hrest⟩
    | some row =>
      rw [ih, endStatesRow_char row es₀ l x]
      constructor
      · rintro ((hx | ⟨srcs, hm, hx⟩) | ⟨t, ht, hrest⟩)
        · exact Or.inl hx
        · exact Or.inr ⟨s, by simp, row, hrow, srcs, hm, hx⟩
        · exact Or.inr ⟨t, List.mem_cons_of_mem _ ht, hrest⟩
      · rintro (hx | ⟨t, ht, row', hr', srcs, hm, hx⟩)
        · exact Or.inl (Or.inl hx)
        · rcases List.mem_cons.mp ht with he | ht'
          · subst he
            rw [hrow] at hr'
            cases hr'
            exact Or.inl (Or.inr ⟨srcs, hm, hx⟩)
          · exact Or.inr ⟨t, ht', row', hr', srcs, hm, hx⟩

/-- The nodup-keys / nodup-labels invariant of the inverse table. -/
theorem buildInv_nodup (T : DfaTable) :
    ((buildInv T).map Prod.fst).Nodup ∧
      ∀ p ∈ buildInv T, (p.2.map Prod.fst).Nodup := by
  unfold buildInv
  refine foldl_preserves
    (P := fun inv : List (DfaState × List (Transition × List DfaState)) =>
      (inv.map Prod.fst).Nodup ∧ ∀ p ∈ inv, (p.2.map Prod.fst).Nodup)
    _ _ ?_ [] (by simp)
  intro acc row _ hacc
  refine foldl_preserves
    (P := fun inv : List (DfaState × List (Transition × List DfaState)) =>
      (inv.map Prod.fst).Nodup ∧ ∀ p ∈ inv, (p.2.map Prod.fst).Nodup)
    _ _ ?_ acc hacc
  intro acc' tr _ hacc'
  refine ⟨ainsert_keys_nodup hacc'.1, ?_⟩
  intro p hp
  rcases mem_ainsert hp with he | hp'
  · subst he
    refine ainsert_keys_nodup ?_
    cases hrow : alookup acc' tr.2 with
    | none => simp [hrow]
    | some r =>
      simp only [hrow, Option.getD_some]
      exact hacc'.2 _ (alookup_mem hrow)
  · exact hacc'.2 p hp'

/-- Labels of the `end_states` map are unique. -/
theorem endStatesOf_labels_nodup
    (inv : List (DfaState × List (Transition × List DfaState)))
    (S : List DfaState) :
    ((endStatesOf inv S).map Prod.fst).Nodup := by
  unfold endStatesOf
  refine foldl_preserves
    (P := fun es : List (Transition × List DfaState) => (es.map Prod.fst).Nodup)
    _ _ ?_ [] (by simp)
  intro acc st _ hacc
  cases alookup inv st with
  | none => exact hacc
  | some row =>
    refine foldl_preserves
      (P := fun es : List (Transition × List DfaState) => (es.map Prod.fst).Nodup)
      _ _ ?_ acc hacc
    intro acc' tr _ hacc'
    exact ainsert_keys_nodup hacc'

/-- Membership in a recorded `end_states` entry is exactly preimage
membership. -/
theorem endStatesOf_mem (T : DfaTable) (hk : (T.map Prod.fst).Nodup)
    (hr : ∀ p ∈ T, (p.2.map Prod.fst).Nodup) (S : List DfaState)
    (l : Transition) (x : DfaState) :
    x ∈ (alookup (endStatesOf (buildInv T) S) l).getD [] ↔ preT T l S x := by
  refine Iff.trans (endStatesAccum_char (buildInv T) S [] l x) ?_
  simp only [alookup, Option.getD_none, List.not_mem_nil, false_or]
  constructor
  · rintro ⟨s, hs, row, hrow, srcs, hm, hx⟩
    have hslot : x ∈ invSlot (buildInv T) s l := by
      unfold invSlot
      rw [hrow]
      simp only [Option.getD_some]
      rw [alookup_of_mem_nodup ((buildInv_nodup T).2 _ (alookup_mem hrow)) hm]
      exact hx
    exact ⟨s, (buildInv_mem T hk hr s l x).mp hslot, hs⟩
  · rintro ⟨e, hedge, he⟩
    have hslot : x ∈ invSlot (buildInv T) e l :=
      (buildInv_mem T hk hr e l x).mpr hedge
    unfold invSlot at hslot
    cases hrow : alookup (buildInv T) e with
    | none =>
      rw [hrow] at hslot
      simp [alookup] at hslot
    | some row =>
      rw [hrow] at hslot
      simp only [Option.getD_some] at hslot
      cases hsrc : alookup row l with
      | none =>
        rw [hsrc] at hslot
        simp at hslot
      | some srcs =>
        rw [hsrc] at hslot
        simp only [Option.getD_some] at hslot
        exact ⟨e, he, row, hrow, srcs, alookup_mem hsrc, hslot⟩

/-- A label absent from the `end_states` map has an empty preimage. -/
theorem endStatesOf_missing (T : DfaTable) (hk : (T.map Prod.fst).Nodup)
    (hr : ∀ p ∈ T, (p.2.map Prod.fst).Nodup) (S : List DfaState)
    {l : Transition} (hnone : alookup (endStatesOf (buildInv T) S) l = none)
    (x : DfaState) : ¬ preT T l S x := by
  intro hpre
  have := (endStatesOf_mem T hk hr S l x).mpr hpre
  rw [hnone] at this
  simp at this

/-- An entry of the `end_states` list is its label's preimage. -/
theorem endStatesOf_entry (T : DfaTable) (hk : (T.map Prod.fst).Nodup)
    (hr : ∀ p ∈ T, (p.2.map Prod.fst).Nodup) (S : List DfaState)
    {l : Transition} {I : List DfaState}
    (hm : (l, I) ∈ endStatesOf (buildInv T) S) (x : DfaState) :
    x ∈ I ↔ preT T l S x := by
  have hl := alookup_of_mem_nodup (endStatesOf_labels_nodup (buildInv T) S) hm
  have := endStatesOf_mem T hk hr S l x
  rw [hl] at this
  simpa using this

theorem simN_accepting {n : Nfa} {k : Nat} {u v : DfaState}
    (h : simN n k u v) : u.accepting = v.accepting := by
  cases k with
  | zero => exact h
  | succ k => exact h.1

theorem simN_refl (n : Nfa) : ∀ (k : Nat) (u : DfaState), simN n k u u := by
  intro k
  induction k with
  | zero => intro u; rfl
  | succ k ih =>
    intro u
    refine ⟨rfl, fun l => ⟨Iff.rfl, fun a b ha hb => ?_⟩⟩
    rw [ha] at hb
    cases hb
    exact ih a

theorem simN_symm {n : Nfa} : ∀ {k : Nat} {u v : DfaState},
    simN n k u v → simN n k v u := by
  intro k
  induction k with
  | zero => intro u v h; exact h.symm
  | succ k ih =>
    intro u v h
    refine ⟨h.1.symm, fun l => ⟨(h.2 l).1.symm, fun a b ha hb => ?_⟩⟩
    exact ih ((h.2 l).2 b a hb ha)

theorem simN_trans {n : Nfa} : ∀ {k : Nat} {u v w : DfaState},
    simN n k u v → simN n k v w → simN n k u w := by
  intro k
  induction k with
  | zero => intro u v w h1 h2; exact h1.trans h2
  | succ k ih =>
    intro u v w h1 h2
    refine ⟨h1.1.trans h2.1, fun l => ⟨(h1.2 l).1.trans (h2.2 l).1, ?_⟩⟩
    intro a c ha hc
    have hsome : (stepVal n v.internal l).isSome := by
      rw [← (h1.2 l).1]
      rw [ha]
      rfl
    rcases Option.isSome_iff_exists.mp hsome with ⟨b, hb⟩
    exact ih ((h1.2 l).2 a b ha hb) ((h2.2 l).2 b c hb hc)

theorem simEq_refl (n : Nfa) (u : DfaState) : simEq n u u :=
  fun k => simN_refl n k u

theorem simEq_symm {n : Nfa} {u v : DfaState} (h : simEq n u v) : simEq n v u :=
  fun k => simN_symm (h k)

theorem simEq_trans {n : Nfa} {u v w : DfaState} (h1 : simEq n u v)
    (h2 : simEq n v w) : simEq n u w :=
  fun k => simN_trans (h1 k) (h2 k)

theorem simEq_accepting {n : Nfa} {u v : DfaState} (h : simEq n u v) :
    u.accepting = v.accepting :=
  simN_accepting (h 0)

theorem simEq_isSome {n : Nfa} {u v : DfaState} (h : simEq n u v) (l : Transition) :
    (stepVal n u.internal l).isSome ↔ (stepVal n v.internal l).isSome :=
  ((h 1).2 l).1

theorem simEq_step {n : Nfa} {u v a b : DfaState} (h : simEq n u v)
    {l : Transition} (ha : stepVal n u.internal l = some a)
    (hb : stepVal n v.internal l = some b) : simEq n a b :=
  fun k => ((h (k + 1)).2 l).2 a b ha hb

theorem dfaMerge_internal_mem (u v : DfaState) (x : NfaState) :
    x ∈ (dfaMerge u v).internal ↔ x ∈ u.internal ∨ x ∈ v.internal := by
  simp only [dfaMerge]
  rw [mem_foldl_sIns_iff]

theorem dfaMerge_internal_schain {u : DfaState} (v : DfaState)
    (h : SChain ltState u.internal) : SChain ltState (dfaMerge u v).internal := by
  simp only [dfaMerge]
  exact foldl_sIns_schain ltState_slo _ _ h

theorem dfaMerge_accepting (u v : DfaState) :
    (dfaMerge u v).accepting = (u.accepting || v.accepting) := rfl

theorem dfaMerge_empty_left {x : DfaState} (h : SChain ltState x.internal) :
    dfaMerge { internal := [], accepting := false } x = x := by
  cases x with
  | mk ints acc =>
    simp only [dfaMerge, Bool.false_or]
    congr 1
    exact foldl_sIns_of_schain ltState_slo _ h

theorem epsClosure_any_accepting (n : Nfa) {t₁ t₂ : List NfaState}
    (h : ∀ x, x ∈ t₁ ↔ x ∈ t₂) :
    (epsClosure n t₁).any (fun st => st = NfaState.accepting)
      = (epsClosure n t₂).any (fun st => st = NfaState.accepting) := by
  rw [epsClosure_congr h]

/-- Merging two canonically closed states is the closure of the appended
seeds. -/
theorem canonClose_merge (n : Nfa) (t₁ t₂ : List NfaState) :
    dfaMerge (canonClose n t₁) (canonClose n t₂) = canonClose n (t₁ ++ t₂) := by
  have hint : (dfaMerge (canonClose n t₁) (canonClose n t₂)).internal
      = (canonClose n (t₁ ++ t₂)).internal := by
    refine schain_ext ltState_slo
      (dfaMerge_internal_schain _ (canonClose_internal_schain n t₁))
      (canonClose_internal_schain n (t₁ ++ t₂)) ?_
    intro x
    rw [dfaMerge_internal_mem, mem_canonClose_internal, mem_canonClose_internal,
      mem_canonClose_internal, epsClosure_append]
  have hacc : (dfaMerge (canonClose n t₁) (canonClose n t₂)).accepting
      = (canonClose n (t₁ ++ t₂)).accepting := by
    rw [dfaMerge_accepting, canonClose_accepting, canonClose_accepting,
      canonClose_accepting]
    have h1 : ∀ (ts : List NfaState),
        ((epsClosure n ts).any (fun st => st = NfaState.accepting) = true)
          ↔ NfaState.accepting ∈ epsClosure n ts := by
      intro ts
      rw [List.any_eq_true]
      constructor
      · rintro ⟨x, hx, he⟩
        have : x = NfaState.accepting := by simpa using he
        exact this ▸ hx
      · intro hm
        exact ⟨NfaState.accepting, hm, by simp⟩
    by_cases hm : NfaState.accepting ∈ epsClosure n (t₁ ++ t₂)
    · have := (h1 (t₁ ++ t₂)).mpr hm
      rw [this]
      rcases (epsClosure_append n t₁ t₂ NfaState.accepting).mp hm with h | h
      · rw [(h1 t₁).mpr h]
        simp
      · rw [(h1 t₂).mpr h]
        simp
    · have h12 : ¬ ((epsClosure n (t₁ ++ t₂)).any
          (fun st => st = NfaState.accepting) = true) := fun hc => hm ((h1 _).mp hc)
      have ha : ¬ ((epsClosure n t₁).any (fun st => st = NfaState.accepting) = true) := by
        intro hc
        exact hm ((epsClosure_append n t₁ t₂ _).mpr (Or.inl ((h1 t₁).mp hc)))
      have hb : ¬ ((epsClosure n t₂).any (fun st => st = NfaState.accepting) = true) := by
        intro hc
        exact hm ((epsClosure_append n t₁ t₂ _).mpr (Or.inr ((h1 t₂).mp hc)))
      simp only [Bool.not_eq_true] at h12 ha hb
      rw [h12, ha, hb]
      rfl
  cases hmv : dfaMerge (canonClose n t₁) (canonClose n t₂) with
  | mk i1 a1 =>
    cases hcv : canonClose n (t₁ ++ t₂) with
    | mk i2 a2 =>
      rw [hmv, hcv] at hint hacc
      simp only at hint hacc
      rw [hint, hacc]

theorem rawOut_hasEntry {n : Nfa} {ints : List NfaState} {l : Transition}
    {t : NfaState} (h : rawOut n ints l t) : hasEntryPm n ints l := by
  rcases h with ⟨s, hs, row, hrow, lst, hm, _⟩
  exact ⟨s, hs, row, hrow, lst, hm⟩

theorem hasEntryPm_union {n : Nfa} {m u v : List NfaState}
    (hm : ∀ x, x ∈ m ↔ x ∈ u ∨ x ∈ v) (l : Transition) :
    hasEntryPm n m l ↔ hasEntryPm n u l ∨ hasEntryPm n v l := by
  unfold hasEntryPm
  constructor
  · rintro ⟨s, hs, rest⟩
    rcases (hm s).mp hs with h | h
    · exact Or.inl ⟨s, h, rest⟩
    · exact Or.inr ⟨s, h, rest⟩
  · rintro (⟨s, hs, rest⟩ | ⟨s, hs, rest⟩)
    · exact ⟨s, (hm s).mpr (Or.inl hs), rest⟩
    · exact ⟨s, (hm s).mpr (Or.inr hs), rest⟩

theorem rawOut_union {n : Nfa} {m u v : List NfaState}
    (hm : ∀ x, x ∈ m ↔ x ∈ u ∨ x ∈ v) (l : Transition) (t : NfaState) :
    rawOut n m l t ↔ rawOut n u l t ∨ rawOut n v l t := by
  unfold rawOut
  constructor
  · rintro ⟨s, hs, rest⟩
    rcases (hm s).mp hs with h | h
    · exact Or.inl ⟨s, h, rest⟩
    · exact Or.inr ⟨s, h, rest⟩
  · rintro (⟨s, hs, rest⟩ | ⟨s, hs, rest⟩)
    · exact ⟨s, (hm s).mpr (Or.inl hs), rest⟩
    · exact ⟨s, (hm s).mpr (Or.inr hs), rest⟩

theorem moveTargets_union {n : Nfa} {m u v : List NfaState}
    (hm : ∀ x, x ∈ m ↔ x ∈ u ∨ x ∈ v) (l : Transition) (t : NfaState) :
    moveTargets n m l t ↔ moveTargets n u l t ∨ moveTargets n v l t := by
  unfold moveTargets
  rw [rawOut_union hm, rawOut_union hm, hasEntryPm_union hm]
  constructor
  · rintro ((h | h) | ⟨hne, _, (hw | hw)⟩)
    · exact Or.inl (Or.inl h)
    · exact Or.inr (Or.inl h)
    · exact Or.inl (Or.inr ⟨hne, rawOut_hasEntry hw, hw⟩)
    · exact Or.inr (Or.inr ⟨hne, rawOut_hasEntry hw, hw⟩)
  · rintro ((h | ⟨hne, hE, hw⟩) | (h | ⟨hne, hE, hw⟩))
    · exact Or.inl (Or.inl h)
    · exact Or.inr ⟨hne, Or.inl hE, Or.inl hw⟩
    · exact Or.inl (Or.inr h)
    · exact Or.inr ⟨hne, Or.inr hE, Or.inr hw⟩

/-- The canonical step of a union state, when both halves step. -/
theorem stepVal_union_some {n : Nfa} {m u v : List NfaState}
    (hm : ∀ x, x ∈ m ↔ x ∈ u ∨ x ∈ v) {l : Transition}
    (hl : l ≠ Transition.epsilon) {a b : DfaState}
    (ha : stepVal n u l = some a) (hb : stepVal n v l = some b) :
    stepVal n m l = some (dfaMerge a b) := by
  have hpres : (stepVal n m l).isSome := by
    rw [stepVal_isSome n m hl, hasEntryPm_union hm]
    exact Or.inl ((stepVal_isSome n u hl).mp (by rw [ha]; rfl))
  rcases Option.isSome_iff_exists.mp hpres with ⟨c, hc⟩
  rcases stepVal_some_char n m hl hc with ⟨tm, hcm, hmm⟩
  rcases stepVal_some_char n u hl ha with ⟨tu, hau, hmu⟩
  rcases stepVal_some_char n v hl hb with ⟨tv, hbv, hmv⟩
  rw [hc, hcm, hau, hbv, canonClose_merge]
  refine congrArg some (canonClose_congr ?_)
  intro x
  rw [hmm x, List.mem_append, moveTargets_union hm]
  rw [hmu x, hmv x]

/-- A union of two behaviourally equivalent states is equivalent to either. -/
theorem simN_merge {n : Nfa} :
    ∀ {k : Nat} {u v : DfaState}, simN n k u v → simN n k (dfaMerge u v) u := by
  intro k
  induction k with
  | zero =>
    intro u v h
    show (u.accepting || v.accepting) = u.accepting
    rw [← h]
    exact Bool.or_self _
  | succ k ih =>
    intro u v h
    refine ⟨?_, ?_⟩
    · show (u.accepting || v.accepting) = u.accepting
      rw [← h.1]
      exact Bool.or_self _
    · intro l
      by_cases hl : l = Transition.epsilon
      · subst hl
        rw [stepVal_eps, stepVal_eps]
        exact ⟨Iff.rfl, fun a b ha => by cases ha⟩
      · have hmem : ∀ x, x ∈ (dfaMerge u v).internal ↔
            x ∈ u.internal ∨ x ∈ v.internal := dfaMerge_internal_mem u v
        have hpres : (stepVal n (dfaMerge u v).internal l).isSome
            ↔ (stepVal n u.internal l).isSome := by
          rw [stepVal_isSome n _ hl, stepVal_isSome n _ hl,
            hasEntryPm_union hmem]
          constructor
          · rintro (h' | h')
            · exact h'
            · rw [← stepVal_isSome n _ hl] at h' ⊢
              rw [(h.2 l).1]
              exact h'
          · exact Or.inl
        refine ⟨hpres, ?_⟩
        intro c a hc ha
        have hbsome : (stepVal n v.internal l).isSome := by
          rw [← (h.2 l).1, ha]
          rfl
        rcases Option.isSome_iff_exists.mp hbsome with ⟨b, hb⟩
        have hcval := stepVal_union_some hmem hl ha hb
        rw [hc] at hcval
        cases hcval
        exact simN_trans (ih ((h.2 l).2 a b ha hb)) (simN_refl n k a)

theorem simEq_merge {n : Nfa} {u v : DfaState} (h : simEq n u v) :
    simEq n (dfaMerge u v) u :=
  fun k => simN_merge (h k)

theorem blockMerge_mem (p : List DfaState) (x : NfaState) :
    x ∈ (p.foldl (fun acc st => dfaMerge acc st)
      { internal := [], accepting := false }).internal
      ↔ ∃ y ∈ p, x ∈ y.internal := by
  suffices h : ∀ (acc : DfaState),
      (x ∈ (p.foldl (fun acc st => dfaMerge acc st) acc).internal
        ↔ x ∈ acc.internal ∨ ∃ y ∈ p, x ∈ y.internal) by
    rw [h { internal := [], accepting := false }]
    simp
  induction p with
  | nil => intro acc; simp
  | cons y rest ih =>
    intro acc
    simp only [List.foldl_cons]
    rw [ih (dfaMerge acc y), dfaMerge_internal_mem]
    constructor
    · rintro ((h | h) | ⟨z, hz, hx⟩)
      · exact Or.inl h
      · exact Or.inr ⟨y, by simp, h⟩
      · exact Or.inr ⟨z, List.mem_cons_of_mem _ hz, hx⟩
    · rintro (h | ⟨z, hz, hx⟩)
      · exact Or.inl (Or.inl h)
      · rcases List.mem_cons.mp hz with he | hz'
        · subst he
          exact Or.inl (Or.inr hx)
        · exact Or.inr ⟨z, hz', hx⟩

theorem blockMerge_accepting (p : List DfaState) :
    ((p.foldl (fun acc st => dfaMerge acc st)
      { internal := [], accepting := false }).accepting = true)
      ↔ ∃ y ∈ p, y.accepting = true := by
  suffices h : ∀ (acc : DfaState),
      ((p.foldl (fun acc st => dfaMerge acc st) acc).accepting = true
        ↔ acc.accepting = true ∨ ∃ y ∈ p, y.accepting = true) by
    rw [h { internal := [], accepting := false }]
    simp
  induction p with
  | nil => intro acc; simp
  | cons y rest ih =>
    intro acc
    simp only [List.foldl_cons]
    rw [ih (dfaMerge acc y), dfaMerge_accepting]
    simp only [Bool.or_eq_true]
    constructor
    · rintro ((h | h) | ⟨z, hz, hx⟩)
      · exact Or.inl h
      · exact Or.inr ⟨y, by simp, h⟩
      · exact Or.inr ⟨z, List.mem_cons_of_mem _ hz, hx⟩
    · rintro (h | ⟨z, hz, hx⟩)
      · exact Or.inl (Or.inl h)
      · rcases List.mem_cons.mp hz with he | hz'
        · subst he
          exact Or.inl (Or.inr hx)
        · exact Or.inr ⟨z, hz', hx⟩

theorem blockMerge_schain (p : List DfaState) :
    SChain ltState (p.foldl (fun acc st => dfaMerge acc st)
      { internal := [], accepting := false }).internal := by
  suffices h : ∀ (acc : DfaState), SChain ltState acc.internal →
      SChain ltState (p.foldl (fun acc st => dfaMerge acc st) acc).internal by
    exact h { internal := [], accepting := false } trivial
  induction p with
  | nil => intro acc h; exact h
  | cons y rest ih =>
    intro acc h
    simp only [List.foldl_cons]
    exact ih (dfaMerge acc y) (dfaMerge_internal_schain y h)

theorem foldMerge_simEq_acc {n : Nfa} {x : DfaState} :
    ∀ (rest : List DfaState) (acc : DfaState), simEq n acc x →
      (∀ y ∈ rest, simEq n y x) →
      simEq n (rest.foldl (fun acc st => dfaMerge acc st) acc) x := by
  intro rest
  induction rest with
  | nil => intro acc h _; exact h
  | cons z rest' ih =>
    intro acc h hall
    simp only [List.foldl_cons]
    refine ih (dfaMerge acc z) ?_ (fun w hw => hall w (List.mem_cons_of_mem _ hw))
    have hz : simEq n z x := hall z (List.mem_cons_self _ _)
    exact simEq_trans (simEq_merge (simEq_trans h (simEq_symm hz))) h

/-- The merged state of a block of pairwise-equivalent states is equivalent
to any member. -/
theorem blockMerge_simEq {n : Nfa} {p : List DfaState} {x : DfaState}
    (hx : x ∈ p) (hall : ∀ y ∈ p, simEq n y x)
    (hsc : ∀ y ∈ p, SChain ltState y.internal) :
    simEq n (p.foldl (fun acc st => dfaMerge acc st)
      { internal := [], accepting := false }) x := by
  cases p with
  | nil => simp at hx
  | cons y rest =>
    simp only [List.foldl_cons]
    rw [dfaMerge_empty_left (hsc y (List.mem_cons_self _ _))]
    exact foldMerge_simEq_acc rest y (hall y (List.mem_cons_self _ _))
      (fun w hw => hall w (List.mem_cons_of_mem _ hw))

theorem expectedRow_eq_some {n : Nfa} {ints : List NfaState} {r : DfaRow}
    (h : expectedRow n ints = some r) : r = rowOf n ints := by
  unfold expectedRow at h
  split at h
  · cases h
  · cases h
    rfl

theorem edgeT_target_states {n : Nfa} {d : Dfa} (hf : DfaFacts n d)
    {s : DfaState} {l : Transition} {e : DfaState}
    (h : edgeT d.transitions s l e) : e ∈ d.states := by
  rcases h with ⟨r, hrow, hl⟩
  exact hf.targets_states e ⟨s, r, alookup_mem hrow, l, alookup_mem hl⟩

theorem edgeT_key_states {n : Nfa} {d : Dfa} (hf : DfaFacts n d)
    {s : DfaState} {l : Transition} {e : DfaState}
    (h : edgeT d.transitions s l e) : s ∈ d.states := by
  rcases h with ⟨r, hrow, _⟩
  exact hf.keys_states (s, r) (alookup_mem hrow)

/-- Table edges of `from_nfa`'s output realize the canonical transition
function. -/
theorem edgeT_iff_stepVal {n : Nfa} {d : Dfa} (hf : DfaFacts n d)
    {s : DfaState} (hs : s ∈ d.states) (l : Transition) (e : DfaState) :
    edgeT d.transitions s l e ↔ stepVal n s.internal l = some e := by
  have hrc := hf.row_char s hs
  constructor
  · rintro ⟨r, hrow, hl⟩
    rw [hrc] at hrow
    rw [expectedRow_eq_some hrow] at hl
    rw [rowOf_alookup] at hl
    exact hl
  · intro h
    have hsome : (expectedRow n s.internal).isSome :=
      (expectedRow_isSome_iff n s.internal).mpr ⟨l, by rw [h]; rfl⟩
    rcases Option.isSome_iff_exists.mp hsome with ⟨r, hr⟩
    have hrr := expectedRow_eq_some hr
    subst hrr
    refine ⟨rowOf n s.internal, by rw [hrc]; exact hr, ?_⟩
    rw [rowOf_alookup]
    exact h

/-- The preimage of a closed set is closed. -/
theorem pre_closed {n : Nfa} {d : Dfa} (hf : DfaFacts n d)
    {S I : List DfaState} (hS : blocksClosed n d S) {l : Transition}
    (hI : ∀ x, x ∈ I ↔ preT d.transitions l S x) : blocksClosed n d I := by
  intro x hx y hy hxy
  rw [hI] at hx
  rw [hI]
  rcases hx with ⟨e, hedge, heS⟩
  have hxs : x ∈ d.states := edgeT_key_states hf hedge
  have hstep : stepVal n x.internal l = some e :=
    (edgeT_iff_stepVal hf hxs l e).mp hedge
  have hpres : (stepVal n y.internal l).isSome := by
    rw [← simEq_isSome hxy l, hstep]
    rfl
  rcases Option.isSome_iff_exists.mp hpres with ⟨e', he'⟩
  have hyedge : edgeT d.transitions y l e' := (edgeT_iff_stepVal hf hy l e').mpr he'
  have hee' : simEq n e e' := simEq_step hxy hstep he'
  exact ⟨e', hyedge, hS e heS e' (edgeT_target_states hf hyedge) hee'⟩

/-- Soundness of a stable, flag-consistent partition: states sharing a block
are behaviourally equivalent. -/
theorem stable_sound {n : Nfa} {d : Dfa} (hf : DfaFacts n d)
    {P : List (List DfaState)} (hpart : Partition d P)
    (hflag : flagConsistent P)
    (hstab : ∀ C ∈ P, stableAll d.transitions P C) :
    ∀ (k : Nat), ∀ C ∈ P, ∀ x ∈ C, ∀ y ∈ C, simN n k x y := by
  intro k
  induction k with
  | zero => exact fun C hC x hx y hy => hflag C hC x hx y hy
  | succ k ih =>
    intro C hC x hx y hy
    refine ⟨hflag C hC x hx y hy, ?_⟩
    intro l
    have hside : ∀ x' ∈ C, ∀ y' ∈ C, ∀ a, stepVal n x'.internal l = some a →
        ∃ b Ca, stepVal n y'.internal l = some b ∧ Ca ∈ P ∧ a ∈ Ca ∧ b ∈ Ca := by
      intro x' hx' y' hy' a ha
      have hx's : x' ∈ d.states := hpart.sub C hC x' hx'
      have hy's : y' ∈ d.states := hpart.sub C hC y' hy'
      have hedge : edgeT d.transitions x' l a :=
        (edgeT_iff_stepVal hf hx's l a).mpr ha
      have has : a ∈ d.states := edgeT_target_states hf hedge
      rcases hpart.cover a has with ⟨Ca, hCa, haCa⟩
      have hxpre : preT d.transitions l Ca x' := ⟨a, hedge, haCa⟩
      rcases hstab Ca hCa l C hC with hall | hnone
      · rcases hall y' hy' with ⟨b, hbedge, hbCa⟩
        exact ⟨b, Ca, (edgeT_iff_stepVal hf hy's l b).mp hbedge, hCa, haCa, hbCa⟩
      · exact absurd hxpre (hnone x' hx')
    refine ⟨?_, ?_⟩
    · constructor
      · intro hsome
        obtain ⟨a, ha⟩ := Option.isSome_iff_exists.mp hsome
        rcases hside x hx y hy a ha with ⟨b, _, hb, _⟩
        rw [hb]
        rfl
      · intro hsome
        obtain ⟨b, hb⟩ := Option.isSome_iff_exists.mp hsome
        rcases hside y hy x hx b hb with ⟨a, _, ha, _⟩
        rw [ha]
        rfl
    · intro a b ha hb
      rcases hside x hx y hy a ha with ⟨b', Ca, hb', hCa, haCa, hb'Ca⟩
      rw [hb] at hb'
      cases hb'
      exact ih Ca hCa a haCa b hb'Ca

theorem ltBlock_slo : IsSLO ltBlock := ltList_slo ltDfa_slo

theorem schain_sublist {α : Type _} [DecidableEq α] {lt : α → α → Bool}
    (hslo : IsSLO lt) : ∀ {l' l : List α}, List.Sublist l' l → SChain lt l → SChain lt l' := by
  intro l' l hs
  induction hs with
  | slnil => intro _; trivial
  | cons a _ ih =>
    intro h
    exact ih (schain_cons h)
  | cons₂ a hs ih =>
    intro h
    refine schain_cons_of_forall (ih (schain_cons h)) ?_
    intro x hx
    exact schain_head_lt hslo h x (hs.subset hx)

theorem schain_nodup {α : Type _} [DecidableEq α] {lt : α → α → Bool}
    (hslo : IsSLO lt) : ∀ {l : List α}, SChain lt l → l.Nodup := by
  intro l
  induction l with
  | nil => intro _; simp
  | cons a t ih =>
    intro h
    rw [List.nodup_cons]
    exact ⟨schain_head_not_mem hslo h, ih (schain_cons h)⟩

theorem refinesMem_refl (P : List (List DfaState)) : refinesMem P P :=
  fun C hC => ⟨C, hC, fun _ hx => hx⟩

theorem refinesMem_trans {P₁ P₂ P₃ : List (List DfaState)}
    (h1 : refinesMem P₁ P₂) (h2 : refinesMem P₂ P₃) : refinesMem P₁ P₃ := by
  intro C hC
  rcases h1 C hC with ⟨C₂, hC₂, hsub⟩
  rcases h2 C₂ hC₂ with ⟨C₃, hC₃, hsub'⟩
  exact ⟨C₃, hC₃, fun x hx => hsub' x (hsub x hx)⟩

theorem edgeT_det {T : DfaTable} {c : DfaState} {l : Transition} {e e' : DfaState}
    (h : edgeT T c l e) (h' : edgeT T c l e') : e = e' := by
  rcases h with ⟨r, hr, he⟩
  rcases h' with ⟨r', hr', he'⟩
  rw [hr] at hr'
  cases hr'
  rw [he] at he'
  cases he'
  rfl

theorem preT_congr {T : DfaTable} {l : Transition} {X X' : List DfaState}
    (h : ∀ x, x ∈ X ↔ x ∈ X') (c : DfaState) : preT T l X c ↔ preT T l X' c := by
  unfold preT
  constructor
  · rintro ⟨e, he, hm⟩
    exact ⟨e, he, (h e).mp hm⟩
  · rintro ⟨e, he, hm⟩
    exact ⟨e, he, (h e).mpr hm⟩

theorem preT_sdiff {T : DfaTable} {l : Transition} {X Y Z : List DfaState}
    (hsub : ∀ z ∈ Y, z ∈ X) (hZ : ∀ z, z ∈ Z ↔ z ∈ X ∧ z ∉ Y) (c : DfaState) :
    preT T l Z c ↔ preT T l X c ∧ ¬ preT T l Y c := by
  constructor
  · rintro ⟨e, he, hm⟩
    rcases (hZ e).mp hm with ⟨hX, hnY⟩
    refine ⟨⟨e, he, hX⟩, ?_⟩
    rintro ⟨e', he', hmY⟩
    rw [edgeT_det he' he] at hmY
    exact hnY hmY
  · rintro ⟨⟨e, he, hX⟩, hnY⟩
    refine ⟨e, he, (hZ e).mpr ⟨hX, ?_⟩⟩
    intro hY
    exact hnY ⟨e, he, hY⟩

theorem preT_union {T : DfaTable} {l : Transition} {X Y Z : List DfaState}
    (hZ : ∀ z, z ∈ Z ↔ z ∈ X ∨ z ∈ Y) (c : DfaState) :
    preT T l Z c ↔ preT T l X c ∨ preT T l Y c := by
  constructor
  · rintro ⟨e, he, hm⟩
    rcases (hZ e).mp hm with h | h
    · exact Or.inl ⟨e, he, h⟩
    · exact Or.inr ⟨e, he, h⟩
  · rintro (⟨e, he, h⟩ | ⟨e, he, h⟩)
    · exact ⟨e, he, (hZ e).mpr (Or.inl h)⟩
    · exact ⟨e, he, (hZ e).mpr (Or.inr h)⟩

theorem stable1_mono {T : DfaTable} {P P' : List (List DfaState)} {l : Transition}
    {X : List DfaState} (href : refinesMem P' P) (h : stable1 T P l X) :
    stable1 T P' l X := by
  intro C' hC'
  rcases href C' hC' with ⟨C, hC, hsub⟩
  rcases h C hC with hall | hnone
  · exact Or.inl (fun c hc => hall c (hsub c hc))
  · exact Or.inr (fun c hc => hnone c (hsub c hc))

theorem stableAll_mono {T : DfaTable} {P P' : List (List DfaState)}
    {X : List DfaState} (href : refinesMem P' P) (h : stableAll T P X) :
    stableAll T P' X :=
  fun l => stable1_mono href (h l)

theorem stableAll_sdiff {T : DfaTable} {P : List (List DfaState)}
    {X Y Z : List DfaState} (hX : stableAll T P X) (hY : stableAll T P Y)
    (hsub : ∀ z ∈ Y, z ∈ X) (hZ : ∀ z, z ∈ Z ↔ z ∈ X ∧ z ∉ Y) :
    stableAll T P Z := by
  intro l C hC
  rcases hX l C hC with hallX | hnoneX
  · rcases hY l C hC with hallY | hnoneY
    · refine Or.inr ?_
      intro c hc hpre
      exact ((preT_sdiff hsub hZ c).mp hpre).2 (hallY c hc)
    · refine Or.inl ?_
      intro c hc
      exact (preT_sdiff hsub hZ c).mpr ⟨hallX c hc, hnoneY c hc⟩
  · refine Or.inr ?_
    intro c hc hpre
    exact hnoneX c hc ((preT_sdiff hsub hZ c).mp hpre).1

theorem stableAll_union {T : DfaTable} {P : List (List DfaState)}
    {X Y Z : List DfaState} (hX : stableAll T P X) (hY : stableAll T P Y)
    (hZ : ∀ z, z ∈ Z ↔ z ∈ X ∨ z ∈ Y) : stableAll T P Z := by
  intro l C hC
  rcases hX l C hC with hallX | hnoneX
  · refine Or.inl ?_
    intro c hc
    exact (preT_union hZ c).mpr (Or.inl (hallX c hc))
  · rcases hY l C hC with hallY | hnoneY
    · refine Or.inl ?_
      intro c hc
      exact (preT_union hZ c).mpr (Or.inr (hallY c hc))
    · refine Or.inr ?_
      intro c hc hpre
      rcases (preT_union hZ c).mp hpre with h | h
      · exact hnoneX c hc h
      · exact hnoneY c hc h

/-- A certificate over the empty base is an outright stability proof. -/
theorem cert_stable {T : DfaTable} {P : List (List DfaState)}
    {X : List DfaState} (h : Cert T P (fun _ => False) X) : stableAll T P X := by
  induction h with
  | base hb => cases hb
  | stable hs => exact hs
  | sdiff _ _ hsub hZ ihX ihY => exact stableAll_sdiff ihX ihY hsub hZ
  | union _ _ hZ ihX ihY => exact stableAll_union ihX ihY hZ

/-- Certificates survive refinement of `P` and transformation of the base. -/
theorem cert_transfer {T : DfaTable} {P P' : List (List DfaState)}
    {Base Base' : List DfaState → Prop} {X : List DfaState}
    (h : Cert T P Base X) (hbase : ∀ Y, Base Y → Cert T P' Base' Y)
    (href : refinesMem P' P) : Cert T P' Base' X := by
  induction h with
  | base hb => exact hbase _ hb
  | stable hs => exact .stable (stableAll_mono href hs)
  | sdiff _ _ hsub hZ ihX ihY => exact .sdiff ihX ihY hsub hZ
  | union _ _ hZ ihX ihY => exact .union ihX ihY hZ

theorem splitBlocks_eq (I : List DfaState) (W P : List (List DfaState)) :
    splitBlocks I W P = P.foldl (splStep I) (W, P) := rfl

theorem mem_blkInter {I R : List DfaState} {x : DfaState} :
    x ∈ blkInter I R ↔ x ∈ R ∧ x ∈ I := by
  simp [blkInter]

theorem mem_blkRest {I R : List DfaState} {x : DfaState} :
    x ∈ blkRest I R ↔ x ∈ R ∧ x ∉ I := by
  simp only [blkRest, List.mem_filter, Bool.not_eq_true', decide_eq_false_iff_not,
    mem_blkInter]
  constructor
  · rintro ⟨hR, hn⟩
    exact ⟨hR, fun hI => hn ⟨hR, hI⟩⟩
  · rintro ⟨hR, hn⟩
    exact ⟨hR, fun hi => hn hi.2⟩

theorem blk_decomp {I R : List DfaState} (x : DfaState) :
    x ∈ R ↔ x ∈ blkInter I R ∨ x ∈ blkRest I R := by
  rw [mem_blkInter, mem_blkRest]
  by_cases hx : x ∈ I
  · simp [hx]
  · simp [hx]

theorem blkInter_disj_blkRest {I R : List DfaState} {x : DfaState}
    (h : x ∈ blkInter I R) : x ∉ blkRest I R := by
  rw [mem_blkInter] at h
  rw [mem_blkRest]
  exact fun hc => hc.2 h.2

theorem mem_filter_ne {R : List DfaState} {F : List (List DfaState)}
    {z : List DfaState} :
    z ∈ F.filter (fun b => !(b = R : Bool)) ↔ z ∈ F ∧ z ≠ R := by
  simp [List.mem_filter]

theorem mem_sIns2 {a b z : List DfaState} {F : List (List DfaState)} :
    z ∈ sIns ltBlock a (sIns ltBlock b F) ↔ z = a ∨ z = b ∨ z ∈ F := by
  rw [mem_sIns_iff, mem_sIns_iff]

/-- Either both halves are proper, or the block was not split. -/
theorem splStep_not_split {I : List DfaState}
    {wp : List (List DfaState) × List (List DfaState)} {R : List DfaState}
    (h : ¬ (blkInter I R ≠ [] ∧ ¬ (R.all (fun st => st ∈ I)))) :
    splStep I wp R = wp ∧ dichoto I R := by
  refine ⟨by rw [splStep, if_neg h], ?_⟩
  push_neg at h
  by_cases he : blkInter I R = []
  · refine Or.inr ?_
    intro c hc hcI
    have : c ∈ blkInter I R := mem_blkInter.mpr ⟨hc, hcI⟩
    rw [he] at this
    simp at this
  · have hall := h he
    rw [List.all_eq_true] at hall
    refine Or.inl ?_
    intro c hc
    have := hall c hc
    simpa using this

theorem dichoto_sub {I C C' : List DfaState} (hsub : ∀ x ∈ C', x ∈ C)
    (h : dichoto I C) : dichoto I C' := by
  rcases h with h | h
  · exact Or.inl (fun c hc => h c (hsub c hc))
  · exact Or.inr (fun c hc => h c (hsub c hc))

theorem splitDoneMem_mono {I : List DfaState} {P P' : List (List DfaState)}
    (href : refinesMem P' P) (h : splitDoneMem I P) : splitDoneMem I P' := by
  intro C' hC'
  rcases href C' hC' with ⟨C, hC, hsub⟩
  exact dichoto_sub hsub (h C hC)

theorem partition_split {d : Dfa} {P : List (List DfaState)} {R : List DfaState}
    (hpart : Partition d P) (hR : R ∈ P) (I : List DfaState)
    {P'' : List (List DfaState)}
    (hmem : ∀ z, z ∈ P'' ↔ z = blkInter I R ∨ z = blkRest I R ∨ (z ∈ P ∧ z ≠ R)) :
    Partition d P'' := by
  have hd1 : ∀ x ∈ blkInter I R, x ∉ blkRest I R := fun x hx => blkInter_disj_blkRest hx
  have hd2 : ∀ x ∈ blkRest I R, x ∉ blkInter I R := by
    intro x hx hc
    exact blkInter_disj_blkRest hc hx
  have hdRC : ∀ C₀ ∈ P, C₀ ≠ R → ∀ x ∈ R, x ∉ C₀ := by
    intro C₀ hC₀ hne x hx
    exact hpart.disj R hR C₀ hC₀ (fun e => hne e.symm) x hx
  have hdCR : ∀ C₀ ∈ P, C₀ ≠ R → ∀ x ∈ C₀, x ∉ R := by
    intro C₀ hC₀ hne x hx
    exact hpart.disj C₀ hC₀ R hR hne x hx
  refine ⟨?_, ?_, ?_⟩
  · intro x hx
    rcases hpart.cover x hx with ⟨C, hC, hxC⟩
    by_cases hCR : C = R
    · rw [hCR] at hxC
      rcases (blk_decomp (I := I) x).mp hxC with h | h
      · exact ⟨blkInter I R, (hmem _).mpr (Or.inl rfl), h⟩
      · exact ⟨blkRest I R, (hmem _).mpr (Or.inr (Or.inl rfl)), h⟩
    · exact ⟨C, (hmem _).mpr (Or.inr (Or.inr ⟨hC, hCR⟩)), hxC⟩
  · intro C hC C' hC' hne x hx
    rcases (hmem C).mp hC with e1 | e1 | ⟨h1, h1r⟩ <;>
      rcases (hmem C').mp hC' with e2 | e2 | ⟨h2, h2r⟩
    · exact absurd (e1.trans e2.symm) hne
    · subst e1; subst e2
      exact hd1 x hx
    · subst e1
      exact hdRC C' h2 h2r x (mem_blkInter.mp hx).1
    · subst e1; subst e2
      exact hd2 x hx
    · exact absurd (e1.trans e2.symm) hne
    · subst e1
      exact hdRC C' h2 h2r x (mem_blkRest.mp hx).1
    · subst e2
      intro hc
      exact hdCR C h1 h1r x hx (mem_blkInter.mp hc).1
    · subst e2
      intro hc
      exact hdCR C h1 h1r x hx (mem_blkRest.mp hc).1
    · exact hpart.disj C h1 C' h2 hne x hx
  · intro C hC x hx
    rcases (hmem C).mp hC with e | e | ⟨h1, _⟩
    · subst e
      exact hpart.sub R hR x (mem_blkInter.mp hx).1
    · subst e
      exact hpart.sub R hR x (mem_blkRest.mp hx).1
    · exact hpart.sub C h1 x hx

theorem flag_split {P : List (List DfaState)} {R : List DfaState}
    (hflag : flagConsistent P) (hR : R ∈ P) (I : List DfaState)
    {P'' : List (List DfaState)}
    (hmem : ∀ z, z ∈ P'' ↔ z = blkInter I R ∨ z = blkRest I R ∨ (z ∈ P ∧ z ≠ R)) :
    flagConsistent P'' := by
  intro C hC x hx y hy
  rcases (hmem C).mp hC with e | e | ⟨h1, _⟩
  · subst e
    exact hflag R hR x (mem_blkInter.mp hx).1 y (mem_blkInter.mp hy).1
  · subst e
    exact hflag R hR x (mem_blkRest.mp hx).1 y (mem_blkRest.mp hy).1
  · exact hflag C h1 x hx y hy

theorem closed_split {n : Nfa} {d : Dfa} {R I : List DfaState}
    (hR : blocksClosed n d R) (hI : blocksClosed n d I)
    (hRsub : ∀ x ∈ R, x ∈ d.states) :
    blocksClosed n d (blkInter I R) ∧ blocksClosed n d (blkRest I R) := by
  constructor
  · intro x hx y hy hxy
    rcases mem_blkInter.mp hx with ⟨hxR, hxI⟩
    exact mem_blkInter.mpr ⟨hR x hxR y hy hxy, hI x hxI y hy hxy⟩
  · intro x hx y hy hxy
    rcases mem_blkRest.mp hx with ⟨hxR, hxnI⟩
    refine mem_blkRest.mpr ⟨hR x hxR y hy hxy, ?_⟩
    intro hyI
    exact hxnI (hI y hyI x (hRsub x hxR) (simEq_symm hxy))

theorem refines_split {P : List (List DfaState)} {R : List DfaState}
    (hR : R ∈ P) (I : List DfaState) {P'' : List (List DfaState)}
    (hmem : ∀ z, z ∈ P'' ↔ z = blkInter I R ∨ z = blkRest I R ∨ (z ∈ P ∧ z ≠ R)) :
    refinesMem P'' P := by
  intro C' hC'
  rcases (hmem C').mp hC' with e | e | ⟨h1, _⟩
  · subst e
    exact ⟨R, hR, fun x hx => (mem_blkInter.mp hx).1⟩
  · subst e
    exact ⟨R, hR, fun x hx => (mem_blkRest.mp hx).1⟩
  · exact ⟨C', h1, fun _ hx => hx⟩

/-- The one-block splitting step preserves the splitting invariant. -/
theorem splStep_preserve {n : Nfa} {d : Dfa} {S : List DfaState}
    {I : List DfaState} (hI : blocksClosed n d I)
    {wp : List (List DfaState) × List (List DfaState)} {R : List DfaState}
    {rem : List (List DfaState)}
    (hinv : ESInv n d S wp)
    (hRP : R ∈ wp.2)
    (hRrem : R ∉ rem)
    (hrem : ∀ B ∈ rem, B ∈ wp.2)
    (hund : ∀ C ∈ wp.2, C = R ∨ C ∈ rem ∨ dichoto I C) :
    ESInv n d S (splStep I wp R)
    ∧ refinesMem (splStep I wp R).2 wp.2
    ∧ (∀ B ∈ rem, B ∈ (splStep I wp R).2)
    ∧ (∀ C ∈ (splStep I wp R).2, C ∈ rem ∨ dichoto I C)
    ∧ (∀ X, Cert d.transitions wp.2 (fun X => X ∈ wp.1 ∨ X = S) X →
        Cert d.transitions (splStep I wp R).2
          (fun X => X ∈ (splStep I wp R).1 ∨ X = S) X) := by
  by_cases hc : blkInter I R ≠ [] ∧ ¬ (R.all (fun st => st ∈ I))
  · have e2 : (splStep I wp R).2 = sIns ltBlock (blkInter I R)
        (sIns ltBlock (blkRest I R) (wp.2.filter (fun b => !(b = R : Bool)))) := by
      rw [splStep, if_pos hc]
    have hmemP : ∀ z, z ∈ (splStep I wp R).2 ↔
        z = blkInter I R ∨ z = blkRest I R ∨ (z ∈ wp.2 ∧ z ≠ R) := by
      intro z
      rw [e2, mem_sIns2, mem_filter_ne]
    have hpart' := partition_split hinv.part hRP I hmemP
    have hflag' := flag_split hinv.flag hRP I hmemP
    have hclosedIR := closed_split (hinv.pclosed R hRP) hI
      (fun x hx => hinv.part.sub R hRP x hx)
    have hpc' : ∀ C ∈ (splStep I wp R).2, blocksClosed n d C := by
      intro C hC
      rcases (hmemP C).mp hC with e | e | ⟨h1, _⟩
      · subst e; exact hclosedIR.1
      · subst e; exact hclosedIR.2
      · exact hinv.pclosed C h1
    have href' : refinesMem (splStep I wp R).2 wp.2 := refines_split hRP I hmemP
    have hpsc' : SChain ltBlock (splStep I wp R).2 := by
      rw [e2]
      exact sIns_schain ltBlock_slo _ (sIns_schain ltBlock_slo _
        (schain_sublist ltBlock_slo (List.filter_sublist _) hinv.psc))
    have hremkeep : ∀ B ∈ rem, B ∈ (splStep I wp R).2 := by
      intro B hB
      refine (hmemP B).mpr (Or.inr (Or.inr ⟨hrem B hB, ?_⟩))
      intro he
      subst he
      exact hRrem hB
    have hdich' : ∀ C ∈ (splStep I wp R).2, C ∈ rem ∨ dichoto I C := by
      intro C hC
      rcases (hmemP C).mp hC with e | e | ⟨h1, h1r⟩
      · subst e
        exact Or.inr (Or.inl (fun c hcm => (mem_blkInter.mp hcm).2))
      · subst e
        exact Or.inr (Or.inr (fun c hcm => (mem_blkRest.mp hcm).2))
      · rcases hund C h1 with he | hr | hd
        · exact absurd he h1r
        · exact Or.inl hr
        · exact Or.inr hd
    have hsubR1 : ∀ z ∈ blkInter I R, z ∈ R := fun z hz => (mem_blkInter.mp hz).1
    have hsubR2 : ∀ z ∈ blkRest I R, z ∈ R := fun z hz => (mem_blkRest.mp hz).1
    have hR2diff : ∀ z, z ∈ blkRest I R ↔ z ∈ R ∧ z ∉ blkInter I R := by
      intro z
      constructor
      · intro hz
        exact ⟨hsubR2 z hz, fun hc => blkInter_disj_blkRest hc hz⟩
      · rintro ⟨hzR, hzn⟩
        rcases (blk_decomp (I := I) z).mp hzR with h | h
        · exact absurd h hzn
        · exact h
    have hR1diff : ∀ z, z ∈ blkInter I R ↔ z ∈ R ∧ z ∉ blkRest I R := by
      intro z
      constructor
      · intro hz
        exact ⟨hsubR1 z hz, blkInter_disj_blkRest hz⟩
      · rintro ⟨hzR, hzn⟩
        rcases (blk_decomp (I := I) z).mp hzR with h | h
        · exact h
        · exact absurd h hzn
    by_cases hRW : R ∈ wp.1
    · have e1 : (splStep I wp R).1 = sIns ltBlock (blkInter I R)
          (sIns ltBlock (blkRest I R) (wp.1.filter (fun b => !(b = R : Bool)))) := by
        rw [splStep, if_pos hc]
        simp only [if_pos hRW]
      have hmemW : ∀ z, z ∈ (splStep I wp R).1 ↔
          z = blkInter I R ∨ z = blkRest I R ∨ (z ∈ wp.1 ∧ z ≠ R) := by
        intro z
        rw [e1, mem_sIns2, mem_filter_ne]
      have hbase : ∀ Y, (Y ∈ wp.1 ∨ Y = S) →
          Cert d.transitions (splStep I wp R).2
            (fun X => X ∈ (splStep I wp R).1 ∨ X = S) Y := by
        rintro Y (hY | rfl)
        · by_cases hYR : Y = R
          · rw [hYR]
            refine .union (X := blkInter I R) (Y := blkRest I R)
              (.base (Or.inl ((hmemW _).mpr (Or.inl rfl))))
              (.base (Or.inl ((hmemW _).mpr (Or.inr (Or.inl rfl)))))
              (fun z => blk_decomp z)
          · exact .base (Or.inl ((hmemW Y).mpr (Or.inr (Or.inr ⟨hY, hYR⟩))))
        · exact .base (Or.inr rfl)
      have htrans : ∀ X, Cert d.transitions wp.2 (fun X => X ∈ wp.1 ∨ X = S) X →
          Cert d.transitions (splStep I wp R).2
            (fun X => X ∈ (splStep I wp R).1 ∨ X = S) X :=
        fun X hX => cert_transfer hX hbase href'
      have hwsc' : SChain ltBlock (splStep I wp R).1 := by
        rw [e1]
        exact sIns_schain ltBlock_slo _ (sIns_schain ltBlock_slo _
          (schain_sublist ltBlock_slo (List.filter_sublist _) hinv.wsc))
      have hwc' : ∀ Y ∈ (splStep I wp R).1, blocksClosed n d Y := by
        intro Y hY
        rcases (hmemW Y).mp hY with e | e | ⟨h1, _⟩
        · subst e; exact hclosedIR.1
        · subst e; exact hclosedIR.2
        · exact hinv.wclosed Y h1
      have hcert' : ∀ C ∈ (splStep I wp R).2,
          Cert d.transitions (splStep I wp R).2
            (fun X => X ∈ (splStep I wp R).1 ∨ X = S) C := by
        intro C hC
        rcases (hmemP C).mp hC with e | e | ⟨h1, _⟩
        · subst e
          exact .base (Or.inl ((hmemW _).mpr (Or.inl rfl)))
        · subst e
          exact .base (Or.inl ((hmemW _).mpr (Or.inr (Or.inl rfl))))
        · exact htrans C (hinv.cert C h1)
      exact ⟨⟨hpart', hpsc', hwsc', hflag', hpc', hwc', hcert'⟩,
        href', hremkeep, hdich', htrans⟩
    · by_cases hlen : (blkInter I R).length ≤ (blkRest I R).length
      · have e1 : (splStep I wp R).1 = sIns ltBlock (blkInter I R) wp.1 := by
          rw [splStep, if_pos hc]
          simp only [if_neg hRW, if_pos hlen]
        have hmemW : ∀ z, z ∈ (splStep I wp R).1 ↔
            z = blkInter I R ∨ z ∈ wp.1 := by
          intro z
          rw [e1, mem_sIns_iff]
        have hbase : ∀ Y, (Y ∈ wp.1 ∨ Y = S) →
            Cert d.transitions (splStep I wp R).2
              (fun X => X ∈ (splStep I wp R).1 ∨ X = S) Y := by
          rintro Y (hY | rfl)
          · exact .base (Or.inl ((hmemW Y).mpr (Or.inr hY)))
          · exact .base (Or.inr rfl)
        have htrans : ∀ X, Cert d.transitions wp.2 (fun X => X ∈ wp.1 ∨ X = S) X →
            Cert d.transitions (splStep I wp R).2
              (fun X => X ∈ (splStep I wp R).1 ∨ X = S) X :=
          fun X hX => cert_transfer hX hbase href'
        have hwsc' : SChain ltBlock (splStep I wp R).1 := by
          rw [e1]
          exact sIns_schain ltBlock_slo _ hinv.wsc
        have hwc' : ∀ Y ∈ (splStep I wp R).1, blocksClosed n d Y := by
          intro Y hY
          rcases (hmemW Y).mp hY with e | h1
          · subst e; exact hclosedIR.1
          · exact hinv.wclosed Y h1
        have hcertR1 : Cert d.transitions (splStep I wp R).2
            (fun X => X ∈ (splStep I wp R).1 ∨ X = S) (blkInter I R) :=
          .base (Or.inl ((hmemW _).mpr (Or.inl rfl)))
        have hcert' : ∀ C ∈ (splStep I wp R).2,
            Cert d.transitions (splStep I wp R).2
              (fun X => X ∈ (splStep I wp R).1 ∨ X = S) C := by
          intro C hC
          rcases (hmemP C).mp hC with e | e | ⟨h1, _⟩
          · subst e
            exact hcertR1
          · subst e
            exact .sdiff (htrans R (hinv.cert R hRP)) hcertR1 hsubR1 hR2diff
          · exact htrans C (hinv.cert C h1)
        exact ⟨⟨hpart', hpsc', hwsc', hflag', hpc', hwc', hcert'⟩,
          href', hremkeep, hdich', htrans⟩
      · have e1 : (splStep I wp R).1 = sIns ltBlock (blkRest I R) wp.1 := by
          rw [splStep, if_pos hc]
          simp only [if_neg hRW, if_neg hlen]
        have hmemW : ∀ z, z ∈ (splStep I wp R).1 ↔
            z = blkRest I R ∨ z ∈ wp.1 := by
          intro z
          rw [e1, mem_sIns_iff]
        have hbase : ∀ Y, (Y ∈ wp.1 ∨ Y = S) →
            Cert d.transitions (splStep I wp R).2
              (fun X => X ∈ (splStep I wp R).1 ∨ X = S) Y := by
          rintro Y (hY | rfl)
          · exact .base (Or.inl ((hmemW Y).mpr (Or.inr hY)))
          · exact .base (Or.inr rfl)
        have htrans : ∀ X, Cert d.transitions wp.2 (fun X => X ∈ wp.1 ∨ X = S) X →
            Cert d.transitions (splStep I wp R).2
              (fun X => X ∈ (splStep I wp R).1 ∨ X = S) X :=
          fun X hX => cert_transfer hX hbase href'
        have hwsc' : SChain ltBlock (splStep I wp R).1 := by
          rw [e1]
          exact sIns_schain ltBlock_slo _ hinv.wsc
        have hwc' : ∀ Y ∈ (splStep I wp R).1, blocksClosed n d Y := by
          intro Y hY
          rcases (hmemW Y).mp hY with e | h1
          · subst e; exact hclosedIR.2
          · exact hinv.wclosed Y h1
        have hcertR2 : Cert d.transitions (splStep I wp R).2
            (fun X => X ∈ (splStep I wp R).1 ∨ X = S) (blkRest I R) :=
          .base (Or.inl ((hmemW _).mpr (Or.inl rfl)))
        have hcert' : ∀ C ∈ (splStep I wp R).2,
            Cert d.transitions (splStep I wp R).2
              (fun X => X ∈ (splStep I wp R).1 ∨ X = S) C := by
          intro C hC
          rcases (hmemP C).mp hC with e | e | ⟨h1, _⟩
          · subst e
            exact .sdiff (htrans R (hinv.cert R hRP)) hcertR2 hsubR2 hR1diff
          · subst e
            exact hcertR2
          · exact htrans C (hinv.cert C h1)
        exact ⟨⟨hpart', hpsc', hwsc', hflag', hpc', hwc', hcert'⟩,
          href', hremkeep, hdich', htrans⟩
  · rcases splStep_not_split hc with ⟨heq, hdich⟩
    rw [heq]
    refine ⟨hinv, refinesMem_refl _, fun B hB => hrem B hB, ?_, fun _ hX => hX⟩
    intro C hC
    rcases hund C hC with he | hr | hd
    · subst he
      exact Or.inr hdich
    · exact Or.inl hr
    · exact Or.inr hd

theorem splitFold_facts {n : Nfa} {d : Dfa} {S I : List DfaState}
    (hI : blocksClosed n d I) :
    ∀ (blocks : List (List DfaState))
      (wp : List (List DfaState) × List (List DfaState)),
      ESInv n d S wp → blocks.Nodup → (∀ B ∈ blocks, B ∈ wp.2) →
      (∀ C ∈ wp.2, C ∈ blocks ∨ dichoto I C) →
      ESInv n d S (blocks.foldl (splStep I) wp)
      ∧ refinesMem (blocks.foldl (splStep I) wp).2 wp.2
      ∧ splitDoneMem I (blocks.foldl (splStep I) wp).2
      ∧ (∀ X, Cert d.transitions wp.2 (fun X => X ∈ wp.1 ∨ X = S) X →
          Cert d.transitions (blocks.foldl (splStep I) wp).2
            (fun X => X ∈ (blocks.foldl (splStep I) wp).1 ∨ X = S) X) := by
  intro blocks
  induction blocks with
  | nil =>
    intro wp hinv _ _ hund
    refine ⟨hinv, refinesMem_refl _, ?_, fun _ h => h⟩
    intro C hC
    rcases hund C hC with h | h
    · simp at h
    · exact h
  | cons R rest ih =>
    intro wp hinv hnd hmem hund
    simp only [List.foldl_cons]
    rw [List.nodup_cons] at hnd
    have hund' : ∀ C ∈ wp.2, C = R ∨ C ∈ rest ∨ dichoto I C := by
      intro C hC
      rcases hund C hC with h | h
      · rcases List.mem_cons.mp h with he | hr
        · exact Or.inl he
        · exact Or.inr (Or.inl hr)
      · exact Or.inr (Or.inr h)
    rcases splStep_preserve hI hinv (hmem R (List.mem_cons_self _ _)) hnd.1
      (fun B hB => hmem B (List.mem_cons_of_mem _ hB)) hund'
      with ⟨hinv', href', hkeep', hdich', htrans'⟩
    rcases ih (splStep I wp R) hinv' hnd.2 hkeep' hdich'
      with ⟨hinv'', href'', hdone'', htrans''⟩
    exact ⟨hinv'', refinesMem_trans href'' href', hdone'',
      fun X hX => htrans'' X (htrans' X hX)⟩

theorem splitBlocks_facts {n : Nfa} {d : Dfa} {S I : List DfaState}
    (hI : blocksClosed n d I)
    {wp : List (List DfaState) × List (List DfaState)}
    (hinv : ESInv n d S wp) :
    ESInv n d S (splitBlocks I wp.1 wp.2)
    ∧ refinesMem (splitBlocks I wp.1 wp.2).2 wp.2
    ∧ splitDoneMem I (splitBlocks I wp.1 wp.2).2
    ∧ (∀ X, Cert d.transitions wp.2 (fun X => X ∈ wp.1 ∨ X = S) X →
        Cert d.transitions (splitBlocks I wp.1 wp.2).2
          (fun X => X ∈ (splitBlocks I wp.1 wp.2).1 ∨ X = S) X) := by
  rw [splitBlocks_eq]
  exact splitFold_facts hI wp.2 wp hinv (schain_nodup ltBlock_slo hinv.psc)
    (fun _ hB => hB) (fun C hC => Or.inl hC)

theorem esFold_facts {n : Nfa} {d : Dfa} {S : List DfaState} :
    ∀ (es : List (Transition × List DfaState))
      (acc : List (List DfaState) × List (List DfaState)),
      ESInv n d S acc → (∀ tr ∈ es, blocksClosed n d tr.2) →
      ESInv n d S (es.foldl (fun acc tr => splitBlocks tr.2 acc.1 acc.2) acc)
      ∧ refinesMem (es.foldl (fun acc tr => splitBlocks tr.2 acc.1 acc.2) acc).2 acc.2
      ∧ (∀ tr ∈ es, splitDoneMem tr.2
          (es.foldl (fun acc tr => splitBlocks tr.2 acc.1 acc.2) acc).2)
      ∧ (∀ X, Cert d.transitions acc.2 (fun X => X ∈ acc.1 ∨ X = S) X →
          Cert d.transitions
            (es.foldl (fun acc tr => splitBlocks tr.2 acc.1 acc.2) acc).2
            (fun X => X ∈ (es.foldl (fun acc tr =>
              splitBlocks tr.2 acc.1 acc.2) acc).1 ∨ X = S) X) := by
  intro es
  induction es with
  | nil =>
    intro acc hinv _
    exact ⟨hinv, refinesMem_refl _, by simp, fun _ h => h⟩
  | cons tr rest ih =>
    intro acc hinv hcl
    simp only [List.foldl_cons]
    rcases splitBlocks_facts (hcl tr (List.mem_cons_self _ _)) hinv
      with ⟨hinv', href', hdone', htrans'⟩
    rcases ih (splitBlocks tr.2 acc.1 acc.2) hinv'
      (fun tr' htr' => hcl tr' (List.mem_cons_of_mem _ htr'))
      with ⟨hinv'', href'', hdone'', htrans''⟩
    refine ⟨hinv'', refinesMem_trans href'' href', ?_,
      fun X hX => htrans'' X (htrans' X hX)⟩
    intro tr' htr'
    rcases List.mem_cons.mp htr' with he | htr''
    · subst he
      exact splitDoneMem_mono href'' hdone'
    · exact hdone'' tr' htr''

/-- The refinement loop of `Dfa::minimize` returns a stable, flag-consistent
partition into unions of behavioural-equivalence classes. -/
theorem refineLoop_facts {n : Nfa} {d : Dfa} (hf : DfaFacts n d)
    (hrows : ∀ p ∈ d.transitions, (p.2.map Prod.fst).Nodup) :
    ∀ (fuel : Nat) (W P Pfin : List (List DfaState)),
      RLInv n d W P →
      refineLoop (buildInv d.transitions) fuel W P = some Pfin →
      Partition d Pfin ∧ SChain ltBlock Pfin ∧ flagConsistent Pfin
      ∧ (∀ C ∈ Pfin, blocksClosed n d C)
      ∧ (∀ C ∈ Pfin, stableAll d.transitions Pfin C) := by
  intro fuel
  induction fuel with
  | zero =>
    intro W P Pfin _ h
    simp [refineLoop] at h
  | succ f ih =>
    intro W P Pfin hinv h
    match W, hinv, h with
    | [], hinv, h =>
      simp only [refineLoop] at h
      cases h
      refine ⟨hinv.part, hinv.psc, hinv.flag, hinv.pclosed, ?_⟩
      intro C hC
      refine cert_stable (cert_transfer (hinv.cert C hC) ?_ (refinesMem_refl _))
      intro Y hY
      simp at hY
    | S :: Wrest, hinv, h =>
      simp only [refineLoop] at h
      have hScl : blocksClosed n d S := hinv.wclosed S (List.mem_cons_self _ _)
      have hesinv : ESInv n d S (Wrest, P) := by
        refine ⟨hinv.part, hinv.psc, schain_cons hinv.wsc, hinv.flag,
          hinv.pclosed, ?_, ?_⟩
        · intro Y hY
          exact hinv.wclosed Y (List.mem_cons_of_mem _ hY)
        · intro C hC
          refine cert_transfer (hinv.cert C hC) ?_ (refinesMem_refl _)
          intro Y hY
          rcases List.mem_cons.mp hY with he | hY'
          · exact .base (Or.inr he)
          · exact .base (Or.inl hY')
      have hescl : ∀ tr ∈ endStatesOf (buildInv d.transitions) S,
          blocksClosed n d tr.2 := by
        intro tr htr
        have hchar := endStatesOf_entry d.transitions hf.keys_nodup hrows S
          (l := tr.1) (I := tr.2) (by rw [Prod.mk.eta]; exact htr)
        exact pre_closed hf hScl hchar
      rcases esFold_facts (endStatesOf (buildInv d.transitions) S) (Wrest, P)
        hesinv hescl with ⟨hinv', href', hdone', _⟩
      set wp := (endStatesOf (buildInv d.transitions) S).foldl
        (fun acc tr => splitBlocks tr.2 acc.1 acc.2) (Wrest, P) with hwp
      have hSstable : stableAll d.transitions wp.2 S := by
        intro l C hC
        cases hlk : alookup (endStatesOf (buildInv d.transitions) S) l with
        | none =>
          refine Or.inr ?_
          intro c _ hpre
          exact endStatesOf_missing d.transitions hf.keys_nodup hrows S hlk c hpre
        | some Iv =>
          have hment : (l, Iv) ∈ endStatesOf (buildInv d.transitions) S :=
            alookup_mem hlk
          have hchar := endStatesOf_entry d.transitions hf.keys_nodup hrows S
            hment
          rcases hdone' (l, Iv) hment C hC with hall | hnone
          · refine Or.inl ?_
            intro c hc
            exact (hchar c).mp (hall c hc)
          · refine Or.inr ?_
            intro c hc hpre
            exact hnone c hc ((hchar c).mpr hpre)
      have hnewinv : RLInv n d wp.1 wp.2 := by
        refine ⟨hinv'.part, hinv'.psc, hinv'.wsc, hinv'.flag, hinv'.pclosed,
          hinv'.wclosed, ?_⟩
        intro C hC
        refine cert_transfer (hinv'.cert C hC) ?_ (refinesMem_refl _)
        rintro Y (hY | rfl)
        · exact .base hY
        · exact .stable hSstable
      exact ih wp.1 wp.2 Pfin hnewinv h

theorem rowOf_keys_nodup (n : Nfa) (ints : List NfaState) :
    ((rowOf n ints).map Prod.fst).Nodup := by
  unfold rowOf
  refine foldl_preserves (P := fun r : DfaRow => (r.map Prod.fst).Nodup)
    _ _ ?_ [] (by simp)
  intro acc tr _ hacc
  unfold rowIns
  exact ainsert_keys_nodup hacc

theorem facts_rows_nodup {n : Nfa} {d : Dfa} (hf : DfaFacts n d) :
    ∀ p ∈ d.transitions, (p.2.map Prod.fst).Nodup := by
  intro p hp
  have hk : p.1 ∈ d.states := hf.keys_states p hp
  have halk : alookup d.transitions p.1 = some p.2 :=
    alookup_of_mem_nodup hf.keys_nodup (by rw [Prod.mk.eta]; exact hp)
  rw [hf.row_char p.1 hk] at halk
  rw [expectedRow_eq_some halk]
  exact rowOf_keys_nodup n p.1.internal

/-- The initial worklist/partition of `Dfa::minimize` satisfies the loop
invariant. -/
theorem minimize_initial_inv {n : Nfa} {d : Dfa} (hf : DfaFacts n d) :
    RLInv n d
      (sIns ltBlock (d.states.filter (fun st => st.accepting))
        (sIns ltBlock (d.states.filter (fun st => !st.accepting)) []))
      (sIns ltBlock (d.states.filter (fun st => st.accepting))
        (sIns ltBlock (d.states.filter (fun st => !st.accepting)) [])) := by
  set A := d.states.filter (fun st => st.accepting) with hA
  set NA := d.states.filter (fun st => !st.accepting) with hNA
  have hmem : ∀ z, z ∈ sIns ltBlock A (sIns ltBlock NA []) ↔ z = A ∨ z = NA := by
    intro z
    rw [mem_sIns_iff, mem_sIns_iff]
    simp
  have hmemA : ∀ x, x ∈ A ↔ x ∈ d.states ∧ x.accepting = true := by
    intro x
    rw [hA]
    simp [List.mem_filter]
  have hmemNA : ∀ x, x ∈ NA ↔ x ∈ d.states ∧ x.accepting = false := by
    intro x
    rw [hNA]
    simp [List.mem_filter]
  have hpart : Partition d (sIns ltBlock A (sIns ltBlock NA [])) := by
    refine ⟨?_, ?_, ?_⟩
    · intro x hx
      cases hacc : x.accepting with
      | true =>
        exact ⟨A, (hmem A).mpr (Or.inl rfl), (hmemA x).mpr ⟨hx, hacc⟩⟩
      | false =>
        exact ⟨NA, (hmem NA).mpr (Or.inr rfl), (hmemNA x).mpr ⟨hx, hacc⟩⟩
    · intro C hC C' hC' hne x hx
      rcases (hmem C).mp hC with e1 | e1 <;> rcases (hmem C').mp hC' with e2 | e2
      · exact absurd (e1.trans e2.symm) hne
      · subst e1; subst e2
        intro hc
        have h1 := ((hmemA x).mp hx).2
        have h2 := ((hmemNA x).mp hc).2
        rw [h1] at h2
        cases h2
      · subst e1; subst e2
        intro hc
        have h1 := ((hmemA x).mp hc).2
        have h2 := ((hmemNA x).mp hx).2
        rw [h1] at h2
        cases h2
      · exact absurd (e1.trans e2.symm) hne
    · intro C hC x hx
      rcases (hmem C).mp hC with e | e
      · subst e
        exact ((hmemA x).mp hx).1
      · subst e
        exact ((hmemNA x).mp hx).1
  have hsc : SChain ltBlock (sIns ltBlock A (sIns ltBlock NA [])) :=
    sIns_schain ltBlock_slo _ (sIns_schain ltBlock_slo _ trivial)
  have hclosed : ∀ C ∈ sIns ltBlock A (sIns ltBlock NA []), blocksClosed n d C := by
    intro C hC
    rcases (hmem C).mp hC with e | e
    · subst e
      intro x hx y hy hxy
      refine (hmemA y).mpr ⟨hy, ?_⟩
      rw [← simEq_accepting hxy]
      exact ((hmemA x).mp hx).2
    · subst e
      intro x hx y hy hxy
      refine (hmemNA y).mpr ⟨hy, ?_⟩
      rw [← simEq_accepting hxy]
      exact ((hmemNA x).mp hx).2
  refine ⟨hpart, hsc, hsc, ?_, hclosed, hclosed, ?_⟩
  · intro C hC x hx y hy
    rcases (hmem C).mp hC with e | e
    · subst e
      rw [((hmemA x).mp hx).2, ((hmemA y).mp hy).2]
    · subst e
      rw [((hmemNA x).mp hx).2, ((hmemNA y).mp hy).2]
  · intro C hC
    exact .base hC

theorem alookup_append [DecidableEq κ] {β : Type _} (l₁ l₂ : List (κ × β)) (k : κ) :
    alookup (l₁ ++ l₂) k
      = match alookup l₁ k with
        | some v => some v
        | none => alookup l₂ k := by
  induction l₁ with
  | nil => simp [alookup]
  | cons hd tl ih =>
    by_cases h : hd.1 = k
    · cases hd
      simp_all [alookup]
    · cases hd
      simp_all [alookup]

theorem alookup_mapRow (σ : DfaState → DfaState) (r : DfaRow) (l : Transition) :
    alookup (mapRow σ r) l = (alookup r l).map σ := by
  unfold mapRow
  exact alookup_map_snd σ r l

theorem alookup_dfaRename (T : DfaTable) (a b y : DfaState) :
    alookup (dfaRename T a b) y
      = Option.map (substTargets a b)
          (alookup (match alookup T a with
            | some row => ainsert b row (aremove a T)
            | none => T) y) := by
  unfold dfaRename
  cases alookup T a with
  | none =>
    simp only []
    exact alookup_map_snd (substTargets a b) T y
  | some row =>
    simp only []
    exact alookup_map_snd (substTargets a b) _ y

theorem substTargets_mapRow (a b : DfaState) (σ σ' : DfaState → DfaState)
    (hpt : ∀ x, (if σ x = a then b else σ x) = σ' x) (r₀ : DfaRow) :
    substTargets a b (mapRow σ r₀) = mapRow σ' r₀ := by
  unfold substTargets mapRow
  rw [List.map_map]
  refine List.map_congr_left ?_
  intro tr _
  simp only [Function.comp]
  rw [hpt tr.2]

theorem mapRow_congr {σ σ' : DfaState → DfaState} (h : ∀ x, σ x = σ' x)
    (r₀ : DfaRow) : mapRow σ r₀ = mapRow σ' r₀ := by
  unfold mapRow
  refine List.map_congr_left ?_
  intro tr _
  rw [h tr.2]

theorem mapRow_id (r : DfaRow) : mapRow (fun s => s) r = r := by
  unfold mapRow
  simp

theorem chMap_getD_eq (done : List (DfaState × DfaState)) (x : DfaState) :
    chMap done x = (alookup done x).getD x := rfl

/-- Extension of the collapse map by one processed change. -/
theorem chMap_step {ch done suf : List (DfaState × DfaState)}
    {a b : DfaState}
    (hch : ch = done ++ (a, b) :: suf)
    (hnodup : (ch.map Prod.fst).Nodup)
    (hhit : ∀ p ∈ ch, ∀ b₂, alookup ch p.2 = some b₂ → b₂ = p.2)
    (x : DfaState) :
    (if chMap done x = a then b else chMap done x) = chMap (done ++ [(a, b)]) x := by
  have habm : (a, b) ∈ ch := by
    rw [hch]
    exact List.mem_append_right _ (List.mem_cons_self _ _)
  have hab : alookup ch a = some b := alookup_of_mem_nodup hnodup habm
  cases hd : alookup done x with
  | some v =>
    have hv1 : chMap done x = v := by rw [chMap_getD_eq, hd]; rfl
    have hv2 : chMap (done ++ [(a, b)]) x = v := by
      rw [chMap_getD_eq, alookup_append, hd]
      rfl
    rw [hv1, hv2]
    by_cases hva : v = a
    · subst hva
      have hmem : (x, v) ∈ ch := by
        rw [hch]
        exact List.mem_append_left _ (alookup_mem hd)
      have hbv : b = v := hhit (x, v) hmem b (by exact hab)
      rw [if_pos rfl, hbv]
    · rw [if_neg hva]
  | none =>
    have hv1 : chMap done x = x := by rw [chMap_getD_eq, hd]; rfl
    rw [hv1]
    by_cases hxa : x = a
    · subst hxa
      rw [if_pos rfl, chMap_getD_eq, alookup_append, hd]
      simp [alookup]
    · rw [if_neg hxa, chMap_getD_eq, alookup_append, hd]
      simp [alookup, Ne.symm hxa]

theorem substTargets_self (a : DfaState) (r : DfaRow) : substTargets a a r = r := by
  unfold substTargets
  have h : ∀ tr : Transition × DfaState,
      (tr.1, if tr.2 = a then a else tr.2) = tr := by
    intro tr
    by_cases h : tr.2 = a
    · rw [if_pos h, ← h]
    · rw [if_neg h]
  calc r.map (fun tr => (tr.1, if tr.2 = a then a else tr.2))
      = r.map id := List.map_congr_left (fun tr _ => h tr)
    _ = r := List.map_id r

theorem dfaRename_self_lookup (T : DfaTable) (a y : DfaState) :
    alookup (dfaRename T a a) y = alookup T y := by
  rw [alookup_dfaRename]
  cases hra : alookup T a with
  | none =>
    simp only []
    cases alookup T y <;> simp [substTargets_self]
  | some row =>
    simp only []
    by_cases hy : y = a
    · subst hy
      rw [alookup_ainsert_self, hra]
      simp [substTargets_self]
    · rw [alookup_ainsert_ne _ _ hy, alookup_aremove_ne _ hy]
      cases alookup T y <;> simp [substTargets_self]

theorem mem_append_single {p c : DfaState × DfaState}
    {done : List (DfaState × DfaState)} :
    p ∈ done ++ [c] ↔ p ∈ done ∨ p = c := by
  rw [List.mem_append]
  simp

/-- One collapse rename preserves the rename invariant. -/
theorem renRel_step {T₀ : DfaTable} {ch done suf : List (DfaState × DfaState)}
    {a b : DfaState} {T : DfaTable}
    (hch : ch = done ++ (a, b) :: suf)
    (hnodup : (ch.map Prod.fst).Nodup)
    (hhit : ∀ p ∈ ch, ∀ b₂, alookup ch p.2 = some b₂ → b₂ = p.2)
    (hrel : RenRel T₀ done T) :
    RenRel T₀ (done ++ [(a, b)]) (dfaRename T a b) := by
  have habm : (a, b) ∈ ch := by
    rw [hch]
    exact List.mem_append_right _ (List.mem_cons_self _ _)
  have hab : alookup ch a = some b := alookup_of_mem_nodup hnodup habm
  have hand : ∀ v, (a, v) ∉ done := by
    intro v hmem
    have h1 : a ∈ (done.map Prod.fst) := List.mem_map_of_mem Prod.fst hmem
    have h2 : (ch.map Prod.fst) = done.map Prod.fst ++ a :: suf.map Prod.fst := by
      rw [hch]
      simp
    rw [h2] at hnodup
    rcases List.nodup_append.mp hnodup with ⟨_, _, hdisj⟩
    exact hdisj h1 (List.mem_cons_self _ _)
  have hval_self : ∀ a₂, (a₂, a) ∈ done → b = a := by
    intro a₂ hmem
    have hm : (a₂, a) ∈ ch := by
      rw [hch]
      exact List.mem_append_left _ hmem
    exact hhit (a₂, a) hm b (by exact hab)
  have hpt := chMap_step hch hnodup hhit
  have hσr : ∀ r₀, substTargets a b (mapRow (chMap done) r₀)
      = mapRow (chMap (done ++ [(a, b)])) r₀ :=
    substTargets_mapRow a b _ _ hpt
  by_cases hba : b = a
  · subst hba
    have hσ : ∀ x, chMap (done ++ [(b, b)]) x = chMap done x := by
      intro x
      rw [← hpt x]
      by_cases hx : chMap done x = b
      · rw [if_pos hx, hx]
      · rw [if_neg hx]
    have hlk : ∀ y, alookup (dfaRename T b b) y = alookup T y :=
      dfaRename_self_lookup T b
    refine ⟨?_, ?_, ?_, ?_⟩
    · intro y v hmem hne hnv
      rcases mem_append_single.mp hmem with hmem' | he
      · refine (hlk y).trans (hrel.moved y v hmem' hne ?_)
        intro a₂ hc
        exact hnv a₂ (mem_append_single.mpr (Or.inl hc))
      · exfalso
        have h1 : y = b := congrArg Prod.fst he
        have h2 : v = b := congrArg Prod.snd he
        exact hne (h2.trans h1.symm)
    · intro y hns hnv
      have hns' : ∀ v, (y, v) ∉ done :=
        fun v hc => hns v (mem_append_single.mpr (Or.inl hc))
      have hnv' : ∀ a₂, (a₂, y) ∉ done :=
        fun a₂ hc => hnv a₂ (mem_append_single.mpr (Or.inl hc))
      rw [hlk y, hrel.untouched y hns' hnv']
      cases alookup T₀ y with
      | none => rfl
      | some r₀ =>
        simp only [Option.map_some']
        rw [mapRow_congr hσ r₀]
    · intro y a₀ hmem
      rw [hlk y]
      have hiff : ((∃ a₂, (a₂, y) ∈ done ++ [(b, b)] ∧ (alookup T₀ a₂).isSome)
          ∨ (alookup T₀ y).isSome)
          ↔ ((∃ a₂, (a₂, y) ∈ done ∧ (alookup T₀ a₂).isSome)
          ∨ (alookup T₀ y).isSome) := by
        constructor
        · rintro (⟨a₂, hm, hs⟩ | hs)
          · rcases mem_append_single.mp hm with hm' | he
            · exact Or.inl ⟨a₂, hm', hs⟩
            · have h2 : y = b := congrArg Prod.snd he
              have h1 : a₂ = b := congrArg Prod.fst he
              rw [h2, ← h1]
              exact Or.inr hs
          · exact Or.inr hs
        · rintro (⟨a₂, hm, hs⟩ | hs)
          · exact Or.inl ⟨a₂, mem_append_single.mpr (Or.inl hm), hs⟩
          · exact Or.inr hs
      rw [hiff]
      rcases mem_append_single.mp hmem with hmem' | he
      · exact hrel.val_presence y a₀ hmem'
      · have h2 : y = b := congrArg Prod.snd he
        subst h2
        by_cases hv : ∃ a₂, (a₂, y) ∈ done
        · rcases hv with ⟨a₂, hm⟩
          exact hrel.val_presence y a₂ hm
        · push_neg at hv
          rw [hrel.untouched y (fun v hc => hand v hc) hv]
          rw [Option.isSome_map']
          constructor
          · intro hs
            exact Or.inr hs
          · rintro (⟨a₂, hm, hs⟩ | hs)
            · exact absurd hm (hv a₂)
            · exact hs
    · intro y a₀ hmem r hr
      rw [hlk y] at hr
      have htrans : ∀ (res : ∃ a₂, ((a₂, y) ∈ done ∨ a₂ = y) ∧
          ∃ r₀, alookup T₀ a₂ = some r₀ ∧ r = mapRow (chMap done) r₀),
          ∃ a₂, ((a₂, y) ∈ done ++ [(b, b)] ∨ a₂ = y) ∧
          ∃ r₀, alookup T₀ a₂ = some r₀ ∧ r = mapRow (chMap (done ++ [(b, b)])) r₀ := by
        rintro ⟨a₂, hm, r₀, hr₀, he⟩
        refine ⟨a₂, ?_, r₀, hr₀, ?_⟩
        · rcases hm with hm | hm
          · exact Or.inl (mem_append_single.mpr (Or.inl hm))
          · exact Or.inr hm
        · rw [he, mapRow_congr hσ r₀]
      rcases mem_append_single.mp hmem with hmem' | he
      · exact htrans (hrel.val_content y a₀ hmem' r hr)
      · have h2 : y = b := congrArg Prod.snd he
        subst h2
        by_cases hv : ∃ a₂, (a₂, y) ∈ done
        · rcases hv with ⟨a₂, hm⟩
          exact htrans (hrel.val_content y a₂ hm r hr)
        · push_neg at hv
          have hu := hrel.untouched y (fun v hc => hand v hc) hv
          rw [hu] at hr
          rcases Option.map_eq_some'.mp hr with ⟨r₀, hr₀, he'⟩
          refine htrans ⟨y, Or.inr rfl, r₀, hr₀, he'.symm⟩
  · have hanv : ∀ a₂, (a₂, a) ∉ done := by
      intro a₂ hc
      exact hba (hval_self a₂ hc)
    have ha_untouched := hrel.untouched a (fun v hc => hand v hc) hanv
    have hlk : ∀ y, alookup (dfaRename T a b) y
        = Option.map (substTargets a b)
            (alookup (match alookup T a with
              | some row => ainsert b row (aremove a T)
              | none => T) y) := alookup_dfaRename T a b
    refine ⟨?_, ?_, ?_, ?_⟩
    · intro y v hmem hne hnv
      have hyb : y ≠ b := by
        intro he
        subst he
        exact hnv a (mem_append_single.mpr (Or.inr rfl))
      rw [hlk y]
      cases hra : alookup T a with
      | none =>
        simp only []
        rcases mem_append_single.mp hmem with hmem' | he
        · rw [hrel.moved y v hmem' hne
            (fun a₂ hc => hnv a₂ (mem_append_single.mpr (Or.inl hc)))]
          rfl
        · have h1 : y = a := congrArg Prod.fst he
          subst h1
          rw [hra]
          rfl
      | some row =>
        simp only []
        rw [alookup_ainsert_ne _ _ hyb]
        by_cases hya : y = a
        · subst hya
          rw [alookup_aremove_self]
          rfl
        · rw [alookup_aremove_ne _ hya]
          rcases mem_append_single.mp hmem with hmem' | he
          · rw [hrel.moved y v hmem' hne
              (fun a₂ hc => hnv a₂ (mem_append_single.mpr (Or.inl hc)))]
            rfl
          · exact absurd (congrArg Prod.fst he) hya
    · intro y hns hnv
      have hya : y ≠ a := by
        intro he
        subst he
        exact hns b (mem_append_single.mpr (Or.inr rfl))
      have hyb : y ≠ b := by
        intro he
        subst he
        exact hnv a (mem_append_single.mpr (Or.inr rfl))
      have hu := hrel.untouched y
        (fun v hc => hns v (mem_append_single.mpr (Or.inl hc)))
        (fun a₂ hc => hnv a₂ (mem_append_single.mpr (Or.inl hc)))
      rw [hlk y]
      have ht1 : (alookup (match alookup T a with
          | some row => ainsert b row (aremove a T)
          | none => T) y) = alookup T y := by
        cases hra : alookup T a with
        | none => rfl
        | some row =>
          simp only []
          rw [alookup_ainsert_ne _ _ hyb, alookup_aremove_ne _ hya]
      rw [ht1, hu]
      cases alookup T₀ y with
      | none => rfl
      | some r₀ =>
        simp only [Option.map_some']
        rw [hσr r₀]
    · intro y a₀ hmem
      rw [hlk y]
      by_cases hyb : y = b
      · subst hyb
        cases hra : alookup T a with
        | some row =>
          simp only []
          rw [alookup_ainsert_self]
          simp only [Option.map_some', Option.isSome_some, true_iff]
          rw [ha_untouched] at hra
          rcases Option.map_eq_some'.mp hra with ⟨r₀, hr₀, _⟩
          exact Or.inl ⟨a, mem_append_single.mpr (Or.inr rfl), by rw [hr₀]; rfl⟩
        | none =>
          simp only []
          rw [ha_untouched] at hra
          have hT₀a : alookup T₀ a = none := by
            cases h : alookup T₀ a with
            | none => rfl
            | some r₀ =>
              rw [h] at hra
              simp at hra
          have hiff : ((∃ a₂, (a₂, y) ∈ done ++ [(a, y)] ∧ (alookup T₀ a₂).isSome)
              ∨ (alookup T₀ y).isSome)
              ↔ ((∃ a₂, (a₂, y) ∈ done ∧ (alookup T₀ a₂).isSome)
              ∨ (alookup T₀ y).isSome) := by
            constructor
            · rintro (⟨a₂, hm, hs⟩ | hs)
              · rcases mem_append_single.mp hm with hm' | he
                · exact Or.inl ⟨a₂, hm', hs⟩
                · have h1 : a₂ = a := congrArg Prod.fst he
                  subst h1
                  rw [hT₀a] at hs
                  simp at hs
              · exact Or.inr hs
            · rintro (⟨a₂, hm, hs⟩ | hs)
              · exact Or.inl ⟨a₂, mem_append_single.mpr (Or.inl hm), hs⟩
              · exact Or.inr hs
          rw [hiff]
          rw [Option.isSome_map']
          by_cases hv : ∃ a₂, (a₂, y) ∈ done
          · rcases hv with ⟨a₂, hm⟩
            exact hrel.val_presence y a₂ hm
          · push_neg at hv
            have hyns : ∀ v, (y, v) ∉ done := by
              intro v hc
              have := hhit (a, y) (by
                rw [hch]
                exact List.mem_append_right _ (List.mem_cons_self _ _)) v
                (alookup_of_mem_nodup hnodup (by
                  rw [hch]
                  exact List.mem_append_left _ hc))
              have hv2 : v = y := this
              rw [hv2] at hc
              exact hv y hc
            rw [hrel.untouched y hyns hv, Option.isSome_map']
            constructor
            · intro hs
              exact Or.inr hs
            · rintro (⟨a₂, hm, hs⟩ | hs)
              · exact absurd hm (hv a₂)
              · exact hs
      · have hya : y ≠ a := by
          intro he
          subst he
          rcases mem_append_single.mp hmem with hm' | he'
          · exact hanv a₀ hm'
          · exact hyb (congrArg Prod.snd he')
        have hmem' : (a₀, y) ∈ done := by
          rcases mem_append_single.mp hmem with hm' | he'
          · exact hm'
          · exact absurd (show y = b from congrArg Prod.snd he') hyb
        have ht1 : (alookup (match alookup T a with
            | some row => ainsert b row (aremove a T)
            | none => T) y) = alookup T y := by
          cases hra : alookup T a with
          | none => rfl
          | some row =>
            simp only []
            rw [alookup_ainsert_ne _ _ hyb, alookup_aremove_ne _ hya]
        rw [ht1, Option.isSome_map']
        have hiff : ((∃ a₂, (a₂, y) ∈ done ++ [(a, b)] ∧ (alookup T₀ a₂).isSome)
            ∨ (alookup T₀ y).isSome)
            ↔ ((∃ a₂, (a₂, y) ∈ done ∧ (alookup T₀ a₂).isSome)
            ∨ (alookup T₀ y).isSome) := by
          constructor
          · rintro (⟨a₂, hm, hs⟩ | hs)
            · rcases mem_append_single.mp hm with hm' | he'
              · exact Or.inl ⟨a₂, hm', hs⟩
              · exact absurd (show y = b from congrArg Prod.snd he') hyb
            · exact Or.inr hs
          · rintro (⟨a₂, hm, hs⟩ | hs)
            · exact Or.inl ⟨a₂, mem_append_single.mpr (Or.inl hm), hs⟩
            · exact Or.inr hs
        rw [hiff]
        exact hrel.val_presence y a₀ hmem'
    · intro y a₀ hmem r hr
      have htrans : ∀ (res : ∃ a₂, ((a₂, y) ∈ done ∨ a₂ = y) ∧
          ∃ r₀, alookup T₀ a₂ = some r₀ ∧
            substTargets a b (mapRow (chMap done) r₀) = r),
          ∃ a₂, ((a₂, y) ∈ done ++ [(a, b)] ∨ a₂ = y) ∧
          ∃ r₀, alookup T₀ a₂ = some r₀ ∧ r = mapRow (chMap (done ++ [(a, b)])) r₀ := by
        rintro ⟨a₂, hm, r₀, hr₀, he⟩
        refine ⟨a₂, ?_, r₀, hr₀, ?_⟩
        · rcases hm with hm | hm
          · exact Or.inl (mem_append_single.mpr (Or.inl hm))
          · exact Or.inr hm
        · rw [← he, hσr r₀]
      rw [hlk y] at hr
      by_cases hyb : y = b
      · subst hyb
        cases hra : alookup T a with
        | some row =>
          rw [hra] at hr
          simp only [] at hr
          rw [alookup_ainsert_self] at hr
          simp only [Option.map_some', Option.some.injEq] at hr
          rw [ha_untouched] at hra
          rcases Option.map_eq_some'.mp hra with ⟨r₀, hr₀, he⟩
          refine ⟨a, Or.inl (mem_append_single.mpr (Or.inr rfl)), r₀, hr₀, ?_⟩
          rw [← hσr r₀, he]
          exact hr.symm
        | none =>
          rw [hra] at hr
          simp only [] at hr
          rcases Option.map_eq_some'.mp hr with ⟨rold, hrold, heq⟩
          by_cases hv : ∃ a₂, (a₂, y) ∈ done
          · rcases hv with ⟨a₂, hm⟩
            rcases hrel.val_content y a₂ hm rold hrold with ⟨a₃, hm₃, r₀, hr₀, he₃⟩
            refine htrans ⟨a₃, hm₃, r₀, hr₀, ?_⟩
            rw [← he₃, heq]
          · push_neg at hv
            have hyns : ∀ v, (y, v) ∉ done := by
              intro v hc
              have := hhit (a, y) (by
                rw [hch]
                exact List.mem_append_right _ (List.mem_cons_self _ _)) v
                (alookup_of_mem_nodup hnodup (by
                  rw [hch]
                  exact List.mem_append_left _ hc))
              have hv2 : v = y := this
              rw [hv2] at hc
              exact hv y hc
            have hu := hrel.untouched y hyns hv
            rw [hu] at hrold
            rcases Option.map_eq_some'.mp hrold with ⟨r₀, hr₀, he'⟩
            refine htrans ⟨y, Or.inr rfl, r₀, hr₀, ?_⟩
            rw [he']
            exact heq
      · have hya : y ≠ a := by
          intro he
          subst he
          rcases mem_append_single.mp hmem with hm' | he'
          · exact hanv a₀ hm'
          · exact hyb (congrArg Prod.snd he')
        have hmem' : (a₀, y) ∈ done := by
          rcases mem_append_single.mp hmem with hm' | he'
          · exact hm'
          · exact absurd (show y = b from congrArg Prod.snd he') hyb
        have ht1 : (alookup (match alookup T a with
            | some row => ainsert b row (aremove a T)
            | none => T) y) = alookup T y := by
          cases hra : alookup T a with
          | none => rfl
          | some row =>
            simp only []
            rw [alookup_ainsert_ne _ _ hyb, alookup_aremove_ne _ hya]
        rw [ht1] at hr
        rcases Option.map_eq_some'.mp hr with ⟨rold, hrold, heq⟩
        rcases hrel.val_content y a₀ hmem' rold hrold with ⟨a₃, hm₃, r₀, hr₀, he₃⟩
        refine htrans ⟨a₃, hm₃, r₀, hr₀, ?_⟩
        rw [← he₃, heq]

/-- The rename invariant holds before any change is processed. -/
theorem renRel_init (T₀ : DfaTable) : RenRel T₀ [] T₀ := by
  refine ⟨?_, ?_, ?_, ?_⟩
  · intro y b hmem
    cases hmem
  · intro y _ _
    cases h : alookup T₀ y with
    | none => rfl
    | some r =>
      simp only [Option.map_some']
      have h1 : mapRow (chMap []) r = mapRow (fun s => s) r :=
        mapRow_congr (fun _ => rfl) r
      rw [h1, mapRow_id]
  · intro y a₀ hmem
    cases hmem
  · intro y a₀ hmem r _
    cases hmem

/-- Folding `dfaRename` over the remaining changes carries the invariant to
the full change list. -/
theorem renameFold_rel {T₀ : DfaTable} {ch : List (DfaState × DfaState)}
    (hnodup : (ch.map Prod.fst).Nodup)
    (hhit : ∀ p ∈ ch, ∀ b₂, alookup ch p.2 = some b₂ → b₂ = p.2) :
    ∀ suf done T, ch = done ++ suf → RenRel T₀ done T →
      RenRel T₀ ch (suf.foldl (fun t c => dfaRename t c.1 c.2) T) := by
  intro suf
  induction suf with
  | nil =>
    intro done T hch hrel
    rw [List.append_nil] at hch
    subst hch
    exact hrel
  | cons c rest ih =>
    intro done T hch hrel
    have hch' : ch = (done ++ [c]) ++ rest := by
      rw [hch, List.append_assoc]
      rfl
    have hstep : RenRel T₀ (done ++ [(c.1, c.2)]) (dfaRename T c.1 c.2) :=
      @renRel_step T₀ ch done rest c.1 c.2 T (by rw [hch]) hnodup hhit hrel
    simp only [List.foldl_cons]
    exact ih (done ++ [c]) (dfaRename T c.1 c.2) hch' hstep

/-- The collapse fold of `minimize` satisfies the rename invariant for the
whole change list. -/
theorem renameFold_facts {T₀ : DfaTable} {ch : List (DfaState × DfaState)}
    (hnodup : (ch.map Prod.fst).Nodup)
    (hhit : ∀ p ∈ ch, ∀ b₂, alookup ch p.2 = some b₂ → b₂ = p.2) :
    RenRel T₀ ch (ch.foldl (fun t c => dfaRename t c.1 c.2) T₀) :=
  renameFold_rel hnodup hhit ch [] T₀ rfl (renRel_init T₀)

theorem buildChanges_eq (P : List (List DfaState)) :
    buildChanges P = P.foldl bcStep [] := rfl

theorem innerFold_lookup (v : DfaState) (s : DfaState) :
    ∀ (p : List DfaState) (acc : List (DfaState × DfaState)),
      alookup (p.foldl (fun ch st => ainsert st v ch) acc) s
        = if s ∈ p then some v else alookup acc s := by
  intro p
  induction p with
  | nil => intro acc; simp
  | cons hd tl ih =>
    intro acc
    simp only [List.foldl_cons]
    rw [ih (ainsert hd v acc)]
    by_cases hs : s ∈ tl
    · rw [if_pos hs, if_pos (List.mem_cons_of_mem _ hs)]
    · rw [if_neg hs]
      by_cases hhd : hd = s
      · subst hhd
        rw [alookup_ainsert_self, if_pos (List.mem_cons_self _ _)]
      · rw [alookup_ainsert_ne _ _ (fun e => hhd e.symm)]
        have hn : s ∉ hd :: tl := by
          intro h
          rcases List.mem_cons.mp h with h | h
          · exact hhd h.symm
          · exact hs h
        rw [if_neg hn]

theorem bcFold_preserve {s : DfaState} :
    ∀ (P : List (List DfaState)) (acc : List (DfaState × DfaState)),
      (∀ p ∈ P, p.length > 1 → s ∉ p) →
      alookup (P.foldl bcStep acc) s = alookup acc s := by
  intro P
  induction P with
  | nil => intro acc _; rfl
  | cons p Ptl ih =>
    intro acc hnot
    simp only [List.foldl_cons]
    rw [ih _ (fun q hq => hnot q (List.mem_cons_of_mem _ hq))]
    unfold bcStep
    by_cases hlen : p.length > 1
    · rw [if_pos hlen, innerFold_lookup,
        if_neg (hnot p (List.mem_cons_self _ _) hlen)]
    · rw [if_neg hlen]

theorem bcFold_mem {s : DfaState} {p : List DfaState} :
    ∀ (P : List (List DfaState)) (acc : List (DfaState × DfaState)),
      p ∈ P → p.length > 1 → s ∈ p →
      (∀ q ∈ P, s ∈ q → q = p) → P.Nodup →
      alookup (P.foldl bcStep acc) s = some (blockM p) := by
  intro P
  induction P with
  | nil =>
    intro acc h
    cases h
  | cons hd tl ih =>
    intro acc hmem hlen hs huniq hnodup
    simp only [List.foldl_cons]
    rcases List.mem_cons.mp hmem with he | hmem'
    · subst he
      have htl : ∀ q ∈ tl, q.length > 1 → s ∉ q := by
        intro q hq _ hsq
        have hq2 : q = p := huniq q (List.mem_cons_of_mem _ hq) hsq
        rw [hq2] at hq
        exact (List.nodup_cons.mp hnodup).1 hq
      rw [bcFold_preserve tl _ htl]
      unfold bcStep
      rw [if_pos hlen, innerFold_lookup, if_pos hs]
    · exact ih _ hmem' hlen hs
        (fun q hq hsq => huniq q (List.mem_cons_of_mem _ hq) hsq)
        (List.nodup_cons.mp hnodup).2

theorem bcFold_some_inv {s m : DfaState} :
    ∀ (P : List (List DfaState)) (acc : List (DfaState × DfaState)),
      alookup (P.foldl bcStep acc) s = some m →
      (∃ p ∈ P, p.length > 1 ∧ s ∈ p ∧ m = blockM p) ∨ alookup acc s = some m := by
  intro P
  induction P with
  | nil =>
    intro acc h
    exact Or.inr h
  | cons hd tl ih =>
    intro acc h
    simp only [List.foldl_cons] at h
    rcases ih _ h with ⟨p, hp, hlen, hs, hm⟩ | hacc
    · exact Or.inl ⟨p, List.mem_cons_of_mem _ hp, hlen, hs, hm⟩
    · unfold bcStep at hacc
      by_cases hlen : hd.length > 1
      · rw [if_pos hlen, innerFold_lookup] at hacc
        by_cases hsm : s ∈ hd
        · rw [if_pos hsm] at hacc
          exact Or.inl ⟨hd, List.mem_cons_self _ _, hlen, hsm,
            (Option.some.inj hacc).symm⟩
        · rw [if_neg hsm] at hacc
          exact Or.inr hacc
      · rw [if_neg hlen] at hacc
        exact Or.inr hacc

theorem innerFold_mem {v : DfaState} {pr : DfaState × DfaState} :
    ∀ (p : List DfaState) (acc : List (DfaState × DfaState)),
      pr ∈ p.foldl (fun ch st => ainsert st v ch) acc →
      (pr.1 ∈ p ∧ pr.2 = v) ∨ pr ∈ acc := by
  intro p
  induction p with
  | nil =>
    intro acc h
    exact Or.inr h
  | cons hd tl ih =>
    intro acc h
    simp only [List.foldl_cons] at h
    rcases ih _ h with ⟨h1, h2⟩ | hacc
    · exact Or.inl ⟨List.mem_cons_of_mem _ h1, h2⟩
    · rcases mem_ainsert hacc with he | hm
      · refine Or.inl ⟨?_, ?_⟩
        · rw [show pr.1 = hd from congrArg Prod.fst he]
          exact List.mem_cons_self _ _
        · exact congrArg Prod.snd he
      · exact Or.inr hm

theorem bcFold_mem_inv {pr : DfaState × DfaState} :
    ∀ (P : List (List DfaState)) (acc : List (DfaState × DfaState)),
      pr ∈ P.foldl bcStep acc →
      (∃ p ∈ P, p.length > 1 ∧ pr.1 ∈ p ∧ pr.2 = blockM p) ∨ pr ∈ acc := by
  intro P
  induction P with
  | nil =>
    intro acc h
    exact Or.inr h
  | cons hd tl ih =>
    intro acc h
    simp only [List.foldl_cons] at h
    rcases ih _ h with ⟨p, hp, hlen, hs, hm⟩ | hacc
    · exact Or.inl ⟨p, List.mem_cons_of_mem _ hp, hlen, hs, hm⟩
    · unfold bcStep at hacc
      by_cases hlen : hd.length > 1
      · rw [if_pos hlen] at hacc
        rcases innerFold_mem _ _ hacc with ⟨h1, h2⟩ | hm
        · exact Or.inl ⟨hd, List.mem_cons_self _ _, hlen, h1, h2⟩
        · exact Or.inr hm
      · rw [if_neg hlen] at hacc
        exact Or.inr hacc

theorem innerFold_keys_nodup {v : DfaState} :
    ∀ (p : List DfaState) (acc : List (DfaState × DfaState)),
      (acc.map Prod.fst).Nodup →
      (((p.foldl (fun ch st => ainsert st v ch) acc).map Prod.fst)).Nodup := by
  intro p
  induction p with
  | nil =>
    intro acc h
    exact h
  | cons hd tl ih =>
    intro acc h
    simp only [List.foldl_cons]
    exact ih _ (ainsert_keys_nodup h)

theorem bcFold_keys_nodup :
    ∀ (P : List (List DfaState)) (acc : List (DfaState × DfaState)),
      (acc.map Prod.fst).Nodup →
      (((P.foldl bcStep acc).map Prod.fst)).Nodup := by
  intro P
  induction P with
  | nil =>
    intro acc h
    exact h
  | cons hd tl ih =>
    intro acc h
    simp only [List.foldl_cons]
    refine ih _ ?_
    unfold bcStep
    by_cases hlen : hd.length > 1
    · rw [if_pos hlen]
      exact innerFold_keys_nodup _ _ h
    · rw [if_neg hlen]
      exact h

theorem buildChanges_keys_nodup (P : List (List DfaState)) :
    ((buildChanges P).map Prod.fst).Nodup := by
  rw [buildChanges_eq]
  exact bcFold_keys_nodup P [] (by simp)

/-- The lookup behaviour of the change list over a partition. -/
theorem buildChanges_lookup_mem {P : List (List DfaState)} {p : List DfaState}
    {s : DfaState} (hmem : p ∈ P) (hlen : p.length > 1) (hs : s ∈ p)
    (huniq : ∀ q ∈ P, s ∈ q → q = p) (hnodup : P.Nodup) :
    alookup (buildChanges P) s = some (blockM p) := by
  rw [buildChanges_eq]
  exact bcFold_mem P [] hmem hlen hs huniq hnodup

theorem buildChanges_lookup_none {P : List (List DfaState)} {s : DfaState}
    (h : ∀ p ∈ P, p.length > 1 → s ∉ p) :
    alookup (buildChanges P) s = none := by
  rw [buildChanges_eq, bcFold_preserve P [] h]
  rfl

theorem buildChanges_some_inv {P : List (List DfaState)} {s m : DfaState}
    (h : alookup (buildChanges P) s = some m) :
    ∃ p ∈ P, p.length > 1 ∧ s ∈ p ∧ m = blockM p := by
  rw [buildChanges_eq] at h
  rcases bcFold_some_inv P [] h with hr | hr
  · exact hr
  · simp [alookup] at hr

theorem buildChanges_mem_inv {P : List (List DfaState)}
    {pr : DfaState × DfaState} (h : pr ∈ buildChanges P) :
    ∃ p ∈ P, p.length > 1 ∧ pr.1 ∈ p ∧ pr.2 = blockM p := by
  rw [buildChanges_eq] at h
  rcases bcFold_mem_inv P [] h with hr | hr
  · exact hr
  · cases hr

/-- Within a stable, flag-consistent partition, the merged state of a block is
behaviourally equivalent to each of its members. -/
theorem blockM_simEq {n : Nfa} {d : Dfa} (hf : DfaFacts n d)
    {P : List (List DfaState)} (hpart : Partition d P)
    (hflag : flagConsistent P)
    (hstab : ∀ C ∈ P, stableAll d.transitions P C)
    {p : List DfaState} (hp : p ∈ P) {x : DfaState} (hx : x ∈ p) :
    simEq n (blockM p) x := by
  have hall : ∀ y ∈ p, simEq n y x := by
    intro y hy k
    exact stable_sound hf hpart hflag hstab k p hp y hy x hx
  have hsc : ∀ y ∈ p, SChain ltState y.internal := by
    intro y hy
    exact hf.internals y (hpart.sub p hp y hy)
  exact blockMerge_simEq hx hall hsc

/-- Hit property of the change list: a value of the change list that is itself
bound by the change list is bound to itself. -/
theorem buildChanges_hit {n : Nfa} {d : Dfa} (hf : DfaFacts n d)
    {P : List (List DfaState)} (hpart : Partition d P)
    (hflag : flagConsistent P)
    (hclosed : ∀ C ∈ P, blocksClosed n d C)
    (hstab : ∀ C ∈ P, stableAll d.transitions P C) :
    ∀ pr ∈ buildChanges P, ∀ b₂,
      alookup (buildChanges P) pr.2 = some b₂ → b₂ = pr.2 := by
  intro pr hpr b₂ hlk
  rcases buildChanges_mem_inv hpr with ⟨p, hp, hlenp, hx, hv⟩
  rcases buildChanges_some_inv (hv ▸ hlk) with ⟨q, hq, hlenq, hmq, hb₂⟩
  have hsim : simEq n (blockM p) pr.1 := blockM_simEq hf hpart hflag hstab hp hx
  have hx1 : pr.1 ∈ q := by
    refine hclosed q hq (blockM p) hmq pr.1 (hpart.sub p hp pr.1 hx) hsim
  have hqp : q = p := by
    by_contra hne
    exact hpart.disj q hq p hp hne pr.1 hx1 hx
  rw [hb₂, hqp, ← hv]

theorem ctx_uniq {n : Nfa} {d : Dfa} {P : List (List DfaState)}
    (hc : MinCtx n d P) {p : List DfaState} (hp : p ∈ P) {s : DfaState}
    (hs : s ∈ p) : ∀ q ∈ P, s ∈ q → q = p := by
  intro q hq hsq
  by_contra hne
  exact hc.part.disj q hq p hp hne s hsq hs

theorem chMap_lookup_some {ch : List (DfaState × DfaState)} {s m : DfaState}
    (h : alookup ch s = some m) : chMap ch s = m := by
  rw [chMap_getD_eq, h]
  rfl

theorem chMap_lookup_none {ch : List (DfaState × DfaState)} {s : DfaState}
    (h : alookup ch s = none) : chMap ch s = s := by
  rw [chMap_getD_eq, h]
  rfl

/-- The collapse map sends every state to an equivalent state. -/
theorem phi_simEq {n : Nfa} {d : Dfa} {P : List (List DfaState)}
    (hc : MinCtx n d P) (x : DfaState) :
    simEq n (chMap (buildChanges P) x) x := by
  cases h : alookup (buildChanges P) x with
  | none =>
    rw [chMap_lookup_none h]
    exact simEq_refl n x
  | some m =>
    rw [chMap_lookup_some h]
    rcases buildChanges_some_inv h with ⟨p, hp, _, hx, hm⟩
    rw [hm]
    exact blockM_simEq hc.hf hc.part hc.flag hc.stab hp hx

/-- A renamed-to state that is itself a DFA state lies in the block it merges. -/
theorem value_in_block {n : Nfa} {d : Dfa} {P : List (List DfaState)}
    (hc : MinCtx n d P) {a m : DfaState}
    (h : (a, m) ∈ buildChanges P) (hm : m ∈ d.states) :
    ∃ p ∈ P, a ∈ p ∧ m ∈ p ∧ m = blockM p ∧ p.length > 1 := by
  rcases buildChanges_mem_inv h with ⟨p, hp, hlen, ha, hv⟩
  have hsim : simEq n m a := by
    rw [show m = blockM p from hv]
    exact blockM_simEq hc.hf hc.part hc.flag hc.stab hp ha
  have hmp : m ∈ p := hc.closed p hp a ha m hm (simEq_symm hsim)
  exact ⟨p, hp, ha, hmp, hv, hlen⟩

/-- The collapse map is constant on blocks. -/
theorem phi_const {n : Nfa} {d : Dfa} {P : List (List DfaState)}
    (hc : MinCtx n d P) {p : List DfaState} (hp : p ∈ P)
    {x y : DfaState} (hx : x ∈ p) (hy : y ∈ p) :
    chMap (buildChanges P) x = chMap (buildChanges P) y := by
  by_cases hlen : p.length > 1
  · rw [chMap_lookup_some
        (buildChanges_lookup_mem hp hlen hx (ctx_uniq hc hp hx) hc.pnodup),
      chMap_lookup_some
        (buildChanges_lookup_mem hp hlen hy (ctx_uniq hc hp hy) hc.pnodup)]
  · have hxy : x = y := by
      cases p with
      | nil => cases hx
      | cons h1 t =>
        cases t with
        | nil =>
          rw [List.mem_singleton.mp hx, List.mem_singleton.mp hy]
        | cons h2 t2 =>
          exact absurd (Nat.succ_lt_succ (Nat.succ_pos t2.length)) hlen
    rw [hxy]

/-- The collapse map identifies behaviourally equivalent DFA states. -/
theorem phi_simEq_eq {n : Nfa} {d : Dfa} {P : List (List DfaState)}
    (hc : MinCtx n d P) {x y : DfaState} (hx : x ∈ d.states)
    (hy : y ∈ d.states) (hsim : simEq n x y) :
    chMap (buildChanges P) x = chMap (buildChanges P) y := by
  rcases hc.part.cover x hx with ⟨C, hC, hxC⟩
  have hyC : y ∈ C := hc.closed C hC x hxC y hy hsim
  exact phi_const hc hC hxC hyC

theorem none_not_source {n : Nfa} {d : Dfa} {P : List (List DfaState)}
    (hc : MinCtx n d P) {s : DfaState}
    (h : alookup (buildChanges P) s = none) : ∀ b, (s, b) ∉ buildChanges P := by
  intro b hmem
  rcases buildChanges_mem_inv hmem with ⟨p, hp, hlen, hs, _⟩
  rw [buildChanges_lookup_mem hp hlen hs (ctx_uniq hc hp hs) hc.pnodup] at h
  cases h

theorem none_not_value {n : Nfa} {d : Dfa} {P : List (List DfaState)}
    (hc : MinCtx n d P) {s : DfaState} (hss : s ∈ d.states)
    (h : alookup (buildChanges P) s = none) : ∀ a, (a, s) ∉ buildChanges P := by
  intro a hmem
  rcases value_in_block hc hmem hss with ⟨p, hp, _, hsp, _, hlen⟩
  rw [buildChanges_lookup_mem hp hlen hsp (ctx_uniq hc hp hsp) hc.pnodup] at h
  cases h

/-- Equivalent states agree on whether they carry a transition row at all. -/
theorem rowSome_simEq {n : Nfa} {u v : DfaState} (h : simEq n u v) :
    (expectedRow n u.internal).isSome ↔ (expectedRow n v.internal).isSome := by
  rw [expectedRow_isSome_iff, expectedRow_isSome_iff]
  constructor
  · rintro ⟨l, hl⟩
    exact ⟨l, (simEq_isSome h l).mp hl⟩
  · rintro ⟨l, hl⟩
    exact ⟨l, (simEq_isSome h l).mpr hl⟩

theorem tblSome_simEq {n : Nfa} {d : Dfa} (hf : DfaFacts n d) {u v : DfaState}
    (hu : u ∈ d.states) (hv : v ∈ d.states) (h : simEq n u v) :
    (alookup d.transitions u).isSome ↔ (alookup d.transitions v).isSome := by
  rw [hf.row_char u hu, hf.row_char v hv]
  exact rowSome_simEq h

/-- The fully renamed table satisfies the rename invariant for the full
change list. -/
theorem min_renRel {n : Nfa} {d : Dfa} {P : List (List DfaState)}
    (hc : MinCtx n d P) :
    RenRel d.transitions (buildChanges P)
      ((buildChanges P).foldl (fun t c => dfaRename t c.1 c.2) d.transitions) :=
  renameFold_facts (buildChanges_keys_nodup P)
    (buildChanges_hit hc.hf hc.part hc.flag hc.closed hc.stab)

/-- Row lookups in the collapsed table, at the collapsed image of a DFA
state: presence matches the original state's row, and any row found is the
collapse image of an equivalent state's original row. -/
theorem minTable_char {n : Nfa} {d : Dfa} {P : List (List DfaState)}
    (hc : MinCtx n d P) {q : DfaState} (hq : q ∈ d.states) :
    ((alookup ((buildChanges P).foldl (fun t c => dfaRename t c.1 c.2)
          d.transitions) (chMap (buildChanges P) q)).isSome
      ↔ (alookup d.transitions q).isSome)
    ∧ ∀ r', alookup ((buildChanges P).foldl (fun t c => dfaRename t c.1 c.2)
          d.transitions) (chMap (buildChanges P) q) = some r' →
        ∃ a ∈ d.states, simEq n a q ∧ ∃ r₀, alookup d.transitions a = some r₀
          ∧ r' = mapRow (chMap (buildChanges P)) r₀ := by
  have hrel := min_renRel hc
  cases hch : alookup (buildChanges P) q with
  | none =>
    rw [chMap_lookup_none hch]
    have hunt := hrel.untouched q (none_not_source hc hch)
      (none_not_value hc hq hch)
    constructor
    · rw [hunt, Option.isSome_map']
    · intro r' hr'
      rw [hunt] at hr'
      rcases Option.map_eq_some'.mp hr' with ⟨r₀, hr₀, he⟩
      exact ⟨q, hq, simEq_refl n q, r₀, hr₀, he.symm⟩
  | some m =>
    rw [chMap_lookup_some hch]
    have hqm : (q, m) ∈ buildChanges P := alookup_mem hch
    rcases buildChanges_some_inv hch with ⟨p, hp, hlen, hqp, hm⟩
    have hsimmq : simEq n m q := by
      rw [show m = blockM p from hm]
      exact blockM_simEq hc.hf hc.part hc.flag hc.stab hp hqp
    have hpres := hrel.val_presence m q hqm
    have hsrc : ∀ a, (a, m) ∈ buildChanges P → a ∈ d.states ∧ simEq n a q := by
      intro a ham
      rcases buildChanges_mem_inv ham with ⟨p', hp', _, hap', hm'⟩
      have hsim' : simEq n m a := by
        rw [show m = blockM p' from hm']
        exact blockM_simEq hc.hf hc.part hc.flag hc.stab hp' hap'
      exact ⟨hc.part.sub p' hp' a hap',
        simEq_trans (simEq_symm hsim') hsimmq⟩
    have hval : ∀ r₀, alookup d.transitions m = some r₀ → m ∈ d.states := by
      intro r₀ h
      exact hc.hf.keys_states (m, r₀) (alookup_mem h)
    constructor
    · rw [hpres]
      constructor
      · rintro (⟨a, ham, hsa⟩ | hsm)
        · rcases hsrc a ham with ⟨has, hsim⟩
          exact (tblSome_simEq hc.hf has hq hsim).mp hsa
        · rcases Option.isSome_iff_exists.mp hsm with ⟨r₀, hr₀⟩
          have hms : m ∈ d.states := hval r₀ hr₀
          exact (tblSome_simEq hc.hf hms hq hsimmq).mp hsm
      · intro hsq
        exact Or.inl ⟨q, hqm, hsq⟩
    · intro r' hr'
      rcases hrel.val_content m q hqm r' hr' with ⟨a, hma, r₀, hr₀, he⟩
      rcases hma with ham | hae
      · rcases hsrc a ham with ⟨has, hsim⟩
        exact ⟨a, has, hsim, r₀, hr₀, he⟩
      · subst hae
        have hms : a ∈ d.states := hval r₀ hr₀
        exact ⟨a, hms, hsimmq, r₀, hr₀, he⟩

theorem simLoop_norow {d : Dfa} {f : Nat} {cur : DfaState} {input : List Char}
    (h : alookup d.transitions cur = none) :
    simLoop d (f + 1) cur input
      = if cur.accepting then some (finishRes input)
        else some (.err .noTransitions) := by
  unfold simLoop
  rw [h]

theorem simLoop_nil_noeps {d : Dfa} {f : Nat} {cur : DfaState} {m : DfaRow}
    (h : alookup d.transitions cur = some m)
    (he : alookup m Transition.epsilon = none) :
    simLoop d (f + 1) cur []
      = if cur.accepting then some (finishRes [])
        else some (.err .endOfString) := by
  unfold simLoop
  rw [h]
  simp only []
  rw [he]

theorem findEdge_lit {m : DfaRow} {c : Char} {t : DfaState}
    (h : alookup m (Transition.literal c) = some t) :
    findEdge m c = some (Transition.literal c, t) := by
  unfold findEdge
  rw [h]

theorem findEdge_wc {m : DfaRow} {c : Char} {t : DfaState}
    (h1 : alookup m (Transition.literal c) = none)
    (h2 : alookup m Transition.wildcard = some t) :
    findEdge m c = some (Transition.wildcard, t) := by
  unfold findEdge
  rw [h1, h2]

theorem findEdge_none {m : DfaRow} {c : Char}
    (h1 : alookup m (Transition.literal c) = none)
    (h2 : alookup m Transition.wildcard = none)
    (h3 : alookup m Transition.epsilon = none) :
    findEdge m c = none := by
  unfold findEdge
  rw [h1, h2, h3]

theorem simLoop_cons_edge {d : Dfa} {f : Nat} {cur : DfaState} {m : DfaRow}
    {c : Char} {rest : List Char} {l : Transition} {t : DfaState}
    (h : alookup d.transitions cur = some m)
    (he : findEdge m c = some (l, t)) (hne : l ≠ Transition.epsilon) :
    simLoop d (f + 1) cur (c :: rest) = simLoop d f t rest := by
  conv_lhs => unfold simLoop
  rw [h]
  simp only []
  rw [he]
  simp only []
  rw [if_neg (fun hh => hne hh)]

theorem simLoop_cons_noedge {d : Dfa} {f : Nat} {cur : DfaState} {m : DfaRow}
    {c : Char} {rest : List Char}
    (h : alookup d.transitions cur = some m) (he : findEdge m c = none) :
    simLoop d (f + 1) cur (c :: rest)
      = if cur.accepting then some (finishRes (c :: rest))
        else some (.err (.noMatch c)) := by
  unfold simLoop
  rw [h]
  simp only []
  rw [he]

/-- The collapsed automaton simulates the original one: from the collapse
image of any reachable state, every run agrees step for step, fuel for
fuel. -/
theorem simTransfer {n : Nfa} {d : Dfa} {P : List (List DfaState)}
    (hc : MinCtx n d P) {d' : Dfa}
    (ht' : d'.transitions
      = (buildChanges P).foldl (fun t c => dfaRename t c.1 c.2) d.transitions) :
    ∀ (fuel : Nat) (q : DfaState), q ∈ d.states → ∀ (input : List Char),
      simLoop d' fuel (chMap (buildChanges P) q) input
        = simLoop d fuel q input := by
  intro fuel
  induction fuel with
  | zero =>
    intro q _ input
    rfl
  | succ f ih =>
    intro q hq input
    have hacc : (chMap (buildChanges P) q).accepting = q.accepting :=
      simEq_accepting (phi_simEq hc q)
    rcases minTable_char hc hq with ⟨hpres, hcont⟩
    rw [← ht'] at hpres hcont
    cases hrow : alookup d.transitions q with
    | none =>
      have hT' : alookup d'.transitions (chMap (buildChanges P) q) = none := by
        cases hx : alookup d'.transitions (chMap (buildChanges P) q) with
        | none => rfl
        | some r' =>
          rw [hx, hrow] at hpres
          simp at hpres
      rw [simLoop_norow hT', simLoop_norow hrow, hacc]
    | some mrow =>
      have hT's : (alookup d'.transitions (chMap (buildChanges P) q)).isSome := by
        rw [hpres, hrow]
        rfl
      rcases Option.isSome_iff_exists.mp hT's with ⟨r', hr'⟩
      rcases hcont r' hr' with ⟨a, has, hsim, r₀, hr₀, hre⟩
      have hmrow : mrow = rowOf n q.internal := by
        have hx := hc.hf.row_char q hq
        rw [hrow] at hx
        exact expectedRow_eq_some hx.symm
      have hr₀e : r₀ = rowOf n a.internal := by
        have hx := hc.hf.row_char a has
        rw [hr₀] at hx
        exact expectedRow_eq_some hx.symm
      have hlkm : ∀ l, alookup mrow l = stepVal n q.internal l := by
        intro l
        rw [hmrow]
        exact rowOf_alookup n _ l
      have hlk' : ∀ l, alookup r' l
          = (stepVal n a.internal l).map (chMap (buildChanges P)) := by
        intro l
        rw [hre, alookup_mapRow, hr₀e, rowOf_alookup]
      have hstep : ∀ l t, stepVal n q.internal l = some t →
          t ∈ d.states ∧ ∃ t₀, stepVal n a.internal l = some t₀
            ∧ chMap (buildChanges P) t₀ = chMap (buildChanges P) t := by
        intro l t hts
        have htmem : t ∈ d.states :=
          edgeT_target_states hc.hf ((edgeT_iff_stepVal hc.hf hq l t).mpr hts)
        have h₀s : (stepVal n a.internal l).isSome := by
          rw [simEq_isSome hsim l, hts]
          rfl
        rcases Option.isSome_iff_exists.mp h₀s with ⟨t₀, ht₀⟩
        have ht₀mem : t₀ ∈ d.states :=
          edgeT_target_states hc.hf ((edgeT_iff_stepVal hc.hf has l t₀).mpr ht₀)
        have hsim₀ : simEq n t₀ t := simEq_step hsim ht₀ hts
        exact ⟨htmem, t₀, ht₀, phi_simEq_eq hc ht₀mem htmem hsim₀⟩
      cases input with
      | nil =>
        have he1 : alookup mrow Transition.epsilon = none := by
          rw [hlkm, stepVal_eps]
        have he2 : alookup r' Transition.epsilon = none := by
          rw [hlk', stepVal_eps]
          rfl
        rw [simLoop_nil_noeps hr' he2, simLoop_nil_noeps hrow he1, hacc]
      | cons c rest =>
        cases hlit : stepVal n q.internal (Transition.literal c) with
        | some t =>
          rcases hstep _ t hlit with ⟨hts, t₀, ht₀, hphi⟩
          have hfm : findEdge mrow c = some (Transition.literal c, t) :=
            findEdge_lit (by rw [hlkm]; exact hlit)
          have hf' : findEdge r' c
              = some (Transition.literal c, chMap (buildChanges P) t₀) :=
            findEdge_lit (by rw [hlk', ht₀]; rfl)
          rw [simLoop_cons_edge hr' hf' (fun hh => Transition.noConfusion hh),
            simLoop_cons_edge hrow hfm (fun hh => Transition.noConfusion hh),
            hphi]
          exact ih t hts rest
        | none =>
          have hlitm : alookup mrow (Transition.literal c) = none := by
            rw [hlkm]
            exact hlit
          have h0lit : stepVal n a.internal (Transition.literal c) = none := by
            cases hx : stepVal n a.internal (Transition.literal c) with
            | none => rfl
            | some u =>
              have hy := (simEq_isSome hsim (Transition.literal c)).mp
                (by rw [hx]; rfl)
              rw [hlit] at hy
              cases hy
          have hlit' : alookup r' (Transition.literal c) = none := by
            rw [hlk', h0lit]
            rfl
          cases hwc : stepVal n q.internal Transition.wildcard with
          | some t =>
            rcases hstep _ t hwc with ⟨hts, t₀, ht₀, hphi⟩
            have hfm : findEdge mrow c = some (Transition.wildcard, t) :=
              findEdge_wc hlitm (by rw [hlkm]; exact hwc)
            have hf' : findEdge r' c
                = some (Transition.wildcard, chMap (buildChanges P) t₀) :=
              findEdge_wc hlit' (by rw [hlk', ht₀]; rfl)
            rw [simLoop_cons_edge hr' hf' (fun hh => Transition.noConfusion hh),
              simLoop_cons_edge hrow hfm (fun hh => Transition.noConfusion hh),
              hphi]
            exact ih t hts rest
          | none =>
            have hwcm : alookup mrow Transition.wildcard = none := by
              rw [hlkm]
              exact hwc
            have h0wc : stepVal n a.internal Transition.wildcard = none := by
              cases hx : stepVal n a.internal Transition.wildcard with
              | none => rfl
              | some u =>
                have hy := (simEq_isSome hsim Transition.wildcard).mp
                  (by rw [hx]; rfl)
                rw [hwc] at hy
                cases hy
            have hwc' : alookup r' Transition.wildcard = none := by
              rw [hlk', h0wc]
              rfl
            have hem : alookup mrow Transition.epsilon = none := by
              rw [hlkm, stepVal_eps]
            have he' : alookup r' Transition.epsilon = none := by
              rw [hlk', stepVal_eps]
              rfl
            rw [simLoop_cons_noedge hr' (findEdge_none hlit' hwc' he'),
              simLoop_cons_noedge hrow (findEdge_none hlitm hwcm hem), hacc]

/-- Minimization preserves the simulated language, for every fuel and every
input. -/
theorem minimize_sim {n : Nfa} {fuel₀ fuel₁ : Nat} {d d' : Dfa}
    (hd : fromNfa n fuel₀ = some d) (hmin : minimizeD d fuel₁ = some d') :
    ∀ (fuel : Nat) (input : List Char),
      simLoop d' fuel d'.start_state input
        = simLoop d fuel d.start_state input := by
  have hf := fromNfa_facts hd
  simp only [minimizeD] at hmin
  cases hP : refineLoop (buildInv d.transitions) fuel₁
      (sIns ltBlock (d.states.filter (fun st => st.accepting))
        (sIns ltBlock (d.states.filter (fun st => !st.accepting)) []))
      (sIns ltBlock (d.states.filter (fun st => st.accepting))
        (sIns ltBlock (d.states.filter (fun st => !st.accepting)) [])) with
  | none =>
    rw [hP] at hmin
    cases hmin
  | some P =>
    rw [hP] at hmin
    simp only [] at hmin
    have hd' := (Option.some.inj hmin).symm
    rcases refineLoop_facts hf (facts_rows_nodup hf) fuel₁ _ _ P
        (minimize_initial_inv hf) hP with ⟨hpart, hpsc, hflag, hclosed, hstab⟩
    have hc : MinCtx n d P :=
      ⟨hf, hpart, hflag, hclosed, hstab, schain_nodup ltBlock_slo hpsc⟩
    have ht' : d'.transitions
        = (buildChanges P).foldl (fun t c => dfaRename t c.1 c.2)
          d.transitions := by
      rw [hd']
    have hstart : d'.start_state = chMap (buildChanges P) d.start_state := by
      rw [hd']
      rfl
    intro fuel input
    rw [hstart]
    exact simTransfer hc ht' fuel d.start_state hf.start_mem input

/-- C3: Minimization preserves the recognized language: for every DFA the
embedded `Dfa::from_nfa` produces and every input string, `simulate` before
`Dfa::minimize` and `simulate` after return the same result, at every fuel
bound of the simulation loop. -/
theorem c3_minimize_preserves_language {n : Nfa} {fuel₀ fuel₁ : Nat} {d d2 : Dfa}
    (hd : fromNfa n fuel₀ = some d) (hmin : minimizeD d fuel₁ = some d2) :
    ∀ (s : String) (fuel : Nat), testString s d2 fuel = testString s d fuel := by
  intro s fuel
  unfold testString
  exact minimize_sim hd hmin fuel s.data

/-- C3 witness: the preservation theorem applied to the concrete `a*` pipeline
(`nStarA`, its subset-construction DFA `dStarA`, and the minimized `dStarAMin`),
evaluated on the string "ab". -/
theorem c3_minimize_preserves_language_witness :
    fromNfa nStarA 8 = some dStarA ∧ minimizeD dStarA 8 = some dStarAMin ∧
    testString "ab" dStarAMin 10 = testString "ab" dStarA 10 :=
  ⟨rfl, rfl, @c3_minimize_preserves_language nStarA 8 8 dStarA dStarAMin rfl rfl "ab" 10⟩

end RegexRs
